import Mathlib

/-!
# webpsi: Boolean-circuit garbling engine and PSI driver

A shallow embedding of `src/gc_core.c` and `src/psi_gc.c`.

Conventions of the embedding:

* a C array together with its element count (`input_wires` / `n_inputs`,
  `output_wires` / `n_outputs`, `gates` / `n_gates`) is a `List`; the count is
  the length of the list;
* `uint8_t` is `Fin 256`, `uint16_t` and `size_t` values are `Nat`, with an
  explicit reduction modulo `2^16` wherever the source casts to `uint16_t`;
* a function returning an `int` status and filling out-parameters returns a
  `gc_result`: `ok` carries the out-parameters of a `0` return, `error rc` is a
  non-zero return code, and `undefined` records an array access outside the
  allocated bounds (undefined behaviour in C);
* allocation never fails, pointers passed by the caller are non-null, and
  distinct buffer arguments of a call do not overlap;
* the BLAKE3 keyed hash is not part of the sources; it is a parameter
  `blake3 : keyed_hash` mapping a 32-byte key and a message to the first 16
  output bytes (every caller requests `GC_LABEL_BYTES` bytes).
-/

namespace WebPsi

/-! ## Machine integers and results -/

/-- A C `uint8_t`. -/
abbrev uint8_t := Fin 256

/-- The cast `(uint8_t)x`. -/
def to_uint8 (x : Nat) : uint8_t := ⟨x % 256, Nat.mod_lt x (by decide)⟩

/-- The cast `(uint16_t)x`. -/
def to_uint16 (x : Nat) : Nat := x % 65536

/-- Outcome of a C function with an `int` status and out-parameters. -/
inductive gc_result (α : Type) where
  | ok (val : α)
  | error (rc : Int)
  | undefined
  deriving DecidableEq, Repr

/-- Sequencing: the first non-`ok` outcome is the outcome of the whole. -/
def gc_result.bind {α β : Type} (r : gc_result α) (f : α → gc_result β) : gc_result β :=
  match r with
  | .ok a => f a
  | .error rc => .error rc
  | .undefined => .undefined

/-- A checked array read: `undefined` outside the bounds. -/
def read_at {α : Type} (arr : List α) (i : Nat) : gc_result α :=
  match arr[i]? with
  | some x => .ok x
  | none => .undefined

/-- A checked array write: `undefined` outside the bounds. -/
def write_at {α : Type} (arr : List α) (i : Nat) (x : α) : gc_result (List α) :=
  if i < arr.length then .ok (arr.set i x) else .undefined

/-! ## gc_core.h -/

abbrev GC_LABEL_BYTES : Nat := 16

/-- The type `gc_label`: 16 bytes. -/
structure gc_label where
  b : Mathlib.Vector uint8_t GC_LABEL_BYTES
  deriving DecidableEq

/-- The enum `gc_gate_type` is carried as its integer value. -/
abbrev gc_gate_type := Nat

abbrev GC_GATE_AND : gc_gate_type := 0
abbrev GC_GATE_XOR : gc_gate_type := 1
abbrev GC_GATE_NOT : gc_gate_type := 2

structure gc_gate where
  in0 : Nat
  in1 : Nat
  out : Nat
  type : gc_gate_type
  deriving DecidableEq, Repr

structure gc_circuit where
  n_wires : Nat
  input_wires : List Nat
  output_wires : List Nat
  gates : List gc_gate
  deriving DecidableEq, Repr

def gc_circuit.n_inputs (c : gc_circuit) : Nat := c.input_wires.length
def gc_circuit.n_outputs (c : gc_circuit) : Nat := c.output_wires.length
def gc_circuit.n_gates (c : gc_circuit) : Nat := c.gates.length

structure gc_garbled_gate where
  in0 : Nat
  in1 : Nat
  out : Nat
  type : gc_gate_type
  table : List gc_label
  deriving DecidableEq

structure gc_garbled_circuit where
  n_wires : Nat
  input_wires : List Nat
  output_wires : List Nat
  gates : List gc_garbled_gate
  wire_labels0 : List gc_label
  wire_labels1 : List gc_label
  deriving DecidableEq

def gc_garbled_circuit.n_inputs (gc : gc_garbled_circuit) : Nat := gc.input_wires.length
def gc_garbled_circuit.n_outputs (gc : gc_garbled_circuit) : Nat := gc.output_wires.length
def gc_garbled_circuit.n_gates (gc : gc_garbled_circuit) : Nat := gc.gates.length

/-! ## gc_eval_clear -/

/-- The expression `x ? 1u : 0u`. -/
def nonzero_bit (x : uint8_t) : uint8_t := if x ≠ 0 then 1 else 0

/-- The expression `x ? 0u : 1u`. -/
def zero_bit (x : uint8_t) : uint8_t := if x ≠ 0 then 0 else 1

/-- First loop of `gc_eval_clear`: the i-th listed input wire receives
`inputs[i] ? 1 : 0`; a listed wire `>= n_wires` stops with `-4`. -/
def eval_clear_inputs (n_wires : Nat) :
    List Nat → List uint8_t → List uint8_t → gc_result (List uint8_t)
  | [], _, wire_vals => .ok wire_vals
  | w :: ws, inputs, wire_vals =>
    if w ≥ n_wires then .error (-4)
    else
      match inputs with
      | [] => .undefined
      | x :: xs =>
        (write_at wire_vals w (nonzero_bit x)).bind fun wv =>
          eval_clear_inputs n_wires ws xs wv

/-- Body of the gate loop of `gc_eval_clear`. -/
def eval_clear_gate (n_wires : Nat) (g : gc_gate) (wire_vals : List uint8_t) :
    gc_result (List uint8_t) :=
  if g.out ≥ n_wires then .error (-5)
  else if g.type = GC_GATE_AND then
    if g.in0 ≥ n_wires ∨ g.in1 ≥ n_wires then .error (-6)
    else
      (read_at wire_vals g.in0).bind fun x =>
      (read_at wire_vals g.in1).bind fun y =>
      write_at wire_vals g.out (nonzero_bit (x &&& y))
  else if g.type = GC_GATE_XOR then
    if g.in0 ≥ n_wires ∨ g.in1 ≥ n_wires then .error (-7)
    else
      (read_at wire_vals g.in0).bind fun x =>
      (read_at wire_vals g.in1).bind fun y =>
      write_at wire_vals g.out (nonzero_bit (x ^^^ y))
  else if g.type = GC_GATE_NOT then
    if g.in0 ≥ n_wires then .error (-8)
    else
      (read_at wire_vals g.in0).bind fun x =>
      write_at wire_vals g.out (zero_bit x)
  else .error (-9)

/-- Gate loop of `gc_eval_clear`, in listed order. -/
def eval_clear_gates (n_wires : Nat) : List gc_gate → List uint8_t → gc_result (List uint8_t)
  | [], wire_vals => .ok wire_vals
  | g :: gs, wire_vals =>
    (eval_clear_gate n_wires g wire_vals).bind fun wv => eval_clear_gates n_wires gs wv

/-- Last loop of `gc_eval_clear`: read the listed output wires. -/
def eval_clear_outputs (n_wires : Nat) (wire_vals : List uint8_t) :
    List Nat → gc_result (List uint8_t)
  | [] => .ok []
  | w :: ws =>
    if w ≥ n_wires then .error (-10)
    else
      (read_at wire_vals w).bind fun x =>
      (eval_clear_outputs n_wires wire_vals ws).bind fun outs =>
        .ok (nonzero_bit x :: outs)

/-- The function `gc_eval_clear`. -/
def gc_eval_clear (c : gc_circuit) (inputs : List uint8_t) : gc_result (List uint8_t) :=
  if c.n_inputs = 0 ∨ c.n_outputs = 0 ∨ c.n_wires = 0 then .error (-2)
  else
    (eval_clear_inputs c.n_wires c.input_wires inputs (List.replicate c.n_wires 0)).bind fun wv =>
    (eval_clear_gates c.n_wires c.gates wv).bind fun wv =>
    eval_clear_outputs c.n_wires wv c.output_wires

/-! ## Fixed circuits -/

/-- The circuit `gc_circuit_and_2()`. -/
def gc_circuit_and_2 : gc_circuit :=
  { n_wires := 3, input_wires := [0, 1], output_wires := [2],
    gates := [{ in0 := 0, in1 := 1, out := 2, type := GC_GATE_AND }] }

/-- The circuit `gc_circuit_xor_2()`. -/
def gc_circuit_xor_2 : gc_circuit :=
  { n_wires := 3, input_wires := [0, 1], output_wires := [2],
    gates := [{ in0 := 0, in1 := 1, out := 2, type := GC_GATE_XOR }] }

/-- The circuit `gc_circuit_eq_2bit()`. -/
def gc_circuit_eq_2bit : gc_circuit :=
  { n_wires := 9, input_wires := [0, 1, 2, 3], output_wires := [8],
    gates :=
      [ { in0 := 0, in1 := 2, out := 4, type := GC_GATE_XOR },
        { in0 := 1, in1 := 3, out := 5, type := GC_GATE_XOR },
        { in0 := 4, in1 := 0, out := 6, type := GC_GATE_NOT },
        { in0 := 5, in1 := 0, out := 7, type := GC_GATE_NOT },
        { in0 := 6, in1 := 7, out := 8, type := GC_GATE_AND } ] }

/-! ## psi_gc.c: the equality-circuit synthesizer -/

/-- The AND chain of `build_eq_circuit_bits` for `k > 1`: the loop
`for (i = 1; i < k; ++i)` with its running accumulator wire `acc`; the list
argument holds the remaining values of `i`. -/
def eq_and_chain (k base_eq base_acc out_wire : Nat) : List Nat → Nat → List gc_gate
  | [], _ => []
  | i :: rest, acc =>
    let next_eq := to_uint16 (base_eq + i)
    let next_acc := if i = k - 1 then out_wire else to_uint16 (base_acc + (i - 1))
    { in0 := acc, in1 := next_eq, out := next_acc, type := GC_GATE_AND } ::
      eq_and_chain k base_eq base_acc out_wire rest next_acc

/-- The function `build_eq_circuit_bits`; `none` is the `NULL` return. -/
def build_eq_circuit_bits (elem_bits : Nat) : Option gc_circuit :=
  if elem_bits = 0 ∨ elem_bits > 512 then none
  else
    let k := to_uint16 elem_bits
    let n_inputs := to_uint16 (2 * k)
    let base_xor := to_uint16 (2 * k)
    let base_eq := to_uint16 (3 * k)
    let base_acc := to_uint16 (4 * k)
    let out_wire := to_uint16 (base_acc + (if k > 1 then k - 2 else 0))
    let n_wires := to_uint16 (if k = 1 then 4 * k + 1 else 4 * k + (k - 1))
    let xor_gates : List gc_gate := (List.range k).map fun i =>
      { in0 := i, in1 := to_uint16 (k + i), out := to_uint16 (base_xor + i),
        type := GC_GATE_XOR }
    let not_gates : List gc_gate := (List.range k).map fun i =>
      { in0 := to_uint16 (base_xor + i), in1 := 0, out := to_uint16 (base_eq + i),
        type := GC_GATE_NOT }
    let and_gates : List gc_gate :=
      if k = 1 then
        [{ in0 := base_eq, in1 := base_eq, out := out_wire, type := GC_GATE_AND }]
      else eq_and_chain k base_eq base_acc out_wire (List.range' 1 (k - 1)) base_eq
    some
      { n_wires := n_wires
        input_wires := List.range n_inputs
        output_wires := [out_wire]
        gates := xor_gates ++ not_gates ++ and_gates }

/-! ## gc_core.c: labels, the keyed hash and the global offset -/

/-- The BLAKE3 keyed hash restricted to its use in the sources: key, message,
and the first `GC_LABEL_BYTES` bytes of output. -/
abbrev keyed_hash := List uint8_t → List uint8_t → Mathlib.Vector uint8_t GC_LABEL_BYTES

/-- The constant `GC_PRF_KEY`. -/
def GC_PRF_KEY : List uint8_t :=
  [0x47, 0x43, 0x2d, 0x50, 0x52, 0x46, 0x2d, 0x4b,
   0x65, 0x79, 0x2d, 0x31, 0x32, 0x33, 0x34, 0x56,
   0xa1, 0xb2, 0xc3, 0xd4, 0xe5, 0xf6, 0x11, 0x22,
   0x33, 0x44, 0x55, 0x66, 0x77, 0x88, 0x99, 0xaa]

/-- A zero-filled label (static storage, `calloc`). -/
def gc_label_zero : gc_label := ⟨Mathlib.Vector.replicate GC_LABEL_BYTES 0⟩

/-- The file-scope variables `GC_DELTA` and `GC_DELTA_INITIALIZED`. -/
structure gc_globals where
  GC_DELTA : gc_label
  GC_DELTA_INITIALIZED : Int

/-- The file-scope variables at program start. -/
def gc_globals_startup : gc_globals :=
  { GC_DELTA := gc_label_zero, GC_DELTA_INITIALIZED := 0 }

/-- The function `gc_init_delta`. -/
def gc_init_delta (blake3 : keyed_hash) (s : gc_globals) : gc_globals :=
  if s.GC_DELTA_INITIALIZED ≠ 0 then s
  else
    let d := blake3 GC_PRF_KEY [0x44, 0x45, 0x4c, 0x54]
    { GC_DELTA := ⟨d.set 0 (d.get 0 ||| 0x01)⟩, GC_DELTA_INITIALIZED := 1 }

/-- The function `gc_derive_label0`. -/
def gc_derive_label0 (blake3 : keyed_hash) (wire : Nat) : gc_label :=
  let input : List uint8_t :=
    [to_uint8 (wire &&& 0xff), to_uint8 ((wire >>> 8) &&& 0xff), 0, 0xA5]
  let l0 := blake3 GC_PRF_KEY input
  ⟨l0.set 0 (l0.get 0 &&& 0xFE)⟩

/-- The function `gc_permute_bit`. -/
def gc_permute_bit (lab : gc_label) : uint8_t := lab.b.get 0 &&& 1

/-- The function `gc_gate_prf`; `gate_index` is the `uint16_t` argument. -/
def gc_gate_prf (blake3 : keyed_hash) (ka kb : gc_label) (gate_index : Nat) (row : uint8_t) :
    Mathlib.Vector uint8_t GC_LABEL_BYTES :=
  blake3 GC_PRF_KEY
    (ka.b.toList ++ kb.b.toList ++
      [to_uint8 (gate_index &&& 0xff), to_uint8 ((gate_index >>> 8) &&& 0xff), row, 0x3C])

/-- The function `gc_label_xor`. -/
def gc_label_xor (a b : gc_label) : gc_label :=
  ⟨Mathlib.Vector.map₂ (fun x y => x ^^^ y) a.b b.b⟩

/-- The function `gc_label_equal_ct`: OR-accumulate the per-byte XORs in index
order and test the accumulator against zero. -/
def gc_label_equal_ct (a b : gc_label) : Bool :=
  let diff : uint8_t :=
    (Mathlib.Vector.map₂ (fun x y => x ^^^ y) a.b b.b).toList.foldl (fun d x => d ||| x) 0
  diff == 0

/-- The row index `(uint8_t)((color_a << 1) | color_b)`. -/
def gc_row (Ka Kb : gc_label) : uint8_t :=
  (gc_permute_bit Ka <<< 1) ||| gc_permute_bit Kb

/-- The byte loop `out[i] = K[i] ^ keystream[i]`. -/
def xor_keystream (K : gc_label) (keystream : Mathlib.Vector uint8_t GC_LABEL_BYTES) :
    gc_label :=
  ⟨Mathlib.Vector.map₂ (fun x y => x ^^^ y) K.b keystream⟩

/-! ## gc_garble -/

/-- First pass of `gc_garble` over the gates: every XOR gate overrides the
labels of its output wire. -/
def garble_xor_pass (delta : gc_label) :
    List gc_gate → List gc_label → List gc_label → gc_result (List gc_label × List gc_label)
  | [], wl0, wl1 => .ok (wl0, wl1)
  | pg :: rest, wl0, wl1 =>
    if pg.type ≠ GC_GATE_XOR then garble_xor_pass delta rest wl0 wl1
    else
      (read_at wl0 pg.in0).bind fun L0_in0 =>
      (read_at wl0 pg.in1).bind fun L0_in1 =>
      let L0_out := gc_label_xor L0_in0 L0_in1
      (write_at wl0 pg.out L0_out).bind fun wl0n =>
      (write_at wl1 pg.out (gc_label_xor L0_out delta)).bind fun wl1n =>
      garble_xor_pass delta rest wl0n wl1n

/-- The plaintext output bit of a table row; an unknown gate type is the
`return -4` of the inner `switch`. -/
def garble_bit_out (type : gc_gate_type) (a b : uint8_t) : gc_result uint8_t :=
  if type = GC_GATE_AND then .ok ((a &&& b) &&& 1)
  else if type = GC_GATE_XOR then .ok ((a ^^^ b) &&& 1)
  else if type = GC_GATE_NOT then .ok ((if a ≠ 0 then 0 else 1) &&& 1)
  else .error (-4)

/-- One iteration of the `(a, b)` loops in the second pass of `gc_garble`. -/
def garble_row (blake3 : keyed_hash) (wl0 wl1 : List gc_label) (pg : gc_gate) (gi : Nat)
    (a b : uint8_t) (table : List gc_label) : gc_result (List gc_label) :=
  (read_at wl0 pg.in0).bind fun la =>
  (read_at wl1 pg.in0).bind fun la1 =>
  (read_at wl0 pg.in1).bind fun lb =>
  (read_at wl1 pg.in1).bind fun lb1 =>
  let Ka := if a = 0 then la else la1
  let Kb := if b = 0 then lb else lb1
  (garble_bit_out pg.type a b).bind fun bit_out =>
  (read_at wl0 pg.out).bind fun Lout0 =>
  (read_at wl1 pg.out).bind fun Lout1 =>
  let Kout := if bit_out = 0 then Lout0 else Lout1
  let row := gc_row Ka Kb
  let keystream := gc_gate_prf blake3 Ka Kb (to_uint16 gi) row
  write_at table row.val (xor_keystream Kout keystream)

/-- Body of the second pass of `gc_garble` for gate `gi`. -/
def garble_gate (blake3 : keyed_hash) (wl0 wl1 : List gc_label) (pg : gc_gate) (gi : Nat) :
    gc_result gc_garbled_gate :=
  let table := List.replicate 4 gc_label_zero
  if pg.type = GC_GATE_XOR then
    .ok { in0 := pg.in0, in1 := pg.in1, out := pg.out, type := pg.type, table := table }
  else
    (garble_row blake3 wl0 wl1 pg gi 0 0 table).bind fun t =>
    (garble_row blake3 wl0 wl1 pg gi 0 1 t).bind fun t =>
    (garble_row blake3 wl0 wl1 pg gi 1 0 t).bind fun t =>
    (garble_row blake3 wl0 wl1 pg gi 1 1 t).bind fun t =>
    .ok { in0 := pg.in0, in1 := pg.in1, out := pg.out, type := pg.type, table := t }

/-- Second pass of `gc_garble`; `gi` is the index of the first listed gate. -/
def garble_tables (blake3 : keyed_hash) (wl0 wl1 : List gc_label) :
    List gc_gate → Nat → gc_result (List gc_garbled_gate)
  | [], _ => .ok []
  | pg :: rest, gi =>
    (garble_gate blake3 wl0 wl1 pg gi).bind fun gg =>
    (garble_tables blake3 wl0 wl1 rest (gi + 1)).bind fun ggs =>
    .ok (gg :: ggs)

/-- The function `gc_garble`, with the file-scope variables before and after
the call. -/
def gc_garble (blake3 : keyed_hash) (s : gc_globals) (plain : gc_circuit) :
    gc_result gc_garbled_circuit × gc_globals :=
  let s1 := gc_init_delta blake3 s
  let delta := s1.GC_DELTA
  let wl0 := (List.range plain.n_wires).map fun w => gc_derive_label0 blake3 w
  let wl1 := (List.range plain.n_wires).map fun w =>
    gc_label_xor (gc_derive_label0 blake3 w) delta
  ((garble_xor_pass delta plain.gates wl0 wl1).bind fun wl =>
    (garble_tables blake3 wl.1 wl.2 plain.gates 0).bind fun ggs =>
    .ok
      { n_wires := plain.n_wires
        input_wires := plain.input_wires
        output_wires := plain.output_wires
        gates := ggs
        wire_labels0 := wl.1
        wire_labels1 := wl.2 },
   s1)

/-! ## gc_eval_garbled and gc_decode_outputs -/

/-- First loop of `gc_eval_garbled`. -/
def eval_garbled_inputs (n_wires : Nat) :
    List Nat → List gc_label → List gc_label → gc_result (List gc_label)
  | [], _, wire_vals => .ok wire_vals
  | w :: ws, input_labels, wire_vals =>
    if w ≥ n_wires then .error (-3)
    else
      match input_labels with
      | [] => .undefined
      | x :: xs =>
        (write_at wire_vals w x).bind fun wv => eval_garbled_inputs n_wires ws xs wv

/-- Body of the gate loop of `gc_eval_garbled` for gate `gi`. -/
def eval_garbled_gate (blake3 : keyed_hash) (n_wires : Nat) (gg : gc_garbled_gate) (gi : Nat)
    (wire_vals : List gc_label) : gc_result (List gc_label) :=
  if gg.out ≥ n_wires then .error (-4)
  else if gg.type = GC_GATE_XOR then
    (read_at wire_vals gg.in0).bind fun x =>
    (read_at wire_vals gg.in1).bind fun y =>
    write_at wire_vals gg.out (gc_label_xor x y)
  else
    (read_at wire_vals gg.in0).bind fun Ka =>
    (read_at wire_vals gg.in1).bind fun Kb =>
    let row := gc_row Ka Kb
    (read_at gg.table row.val).bind fun ct =>
    let keystream := gc_gate_prf blake3 Ka Kb (to_uint16 gi) row
    write_at wire_vals gg.out (xor_keystream ct keystream)

/-- Gate loop of `gc_eval_garbled`. -/
def eval_garbled_gates (blake3 : keyed_hash) (n_wires : Nat) :
    List gc_garbled_gate → Nat → List gc_label → gc_result (List gc_label)
  | [], _, wire_vals => .ok wire_vals
  | gg :: rest, gi, wire_vals =>
    (eval_garbled_gate blake3 n_wires gg gi wire_vals).bind fun wv =>
      eval_garbled_gates blake3 n_wires rest (gi + 1) wv

/-- Last loop of `gc_eval_garbled`. -/
def eval_garbled_outputs (n_wires : Nat) (wire_vals : List gc_label) :
    List Nat → gc_result (List gc_label)
  | [] => .ok []
  | w :: ws =>
    if w ≥ n_wires then .error (-5)
    else
      (read_at wire_vals w).bind fun x =>
      (eval_garbled_outputs n_wires wire_vals ws).bind fun outs => .ok (x :: outs)

/-- The function `gc_eval_garbled`. -/
def gc_eval_garbled (blake3 : keyed_hash) (gc : gc_garbled_circuit)
    (input_labels : List gc_label) : gc_result (List gc_label) :=
  (eval_garbled_inputs gc.n_wires gc.input_wires input_labels
      (List.replicate gc.n_wires gc_label_zero)).bind fun wv =>
  (eval_garbled_gates blake3 gc.n_wires gc.gates 0 wv).bind fun wv =>
  eval_garbled_outputs gc.n_wires wv gc.output_wires

/-- Loop of `gc_decode_outputs` over the listed output wires. -/
def decode_outputs_loop (wl0 wl1 : List gc_label) :
    List Nat → List gc_label → gc_result (List uint8_t)
  | [], _ => .ok []
  | w :: ws, output_labels =>
    (read_at wl0 w).bind fun L0 =>
    (read_at wl1 w).bind fun L1 =>
    match output_labels with
    | [] => .undefined
    | Lo :: rest =>
      if gc_label_equal_ct Lo L0 then
        (decode_outputs_loop wl0 wl1 ws rest).bind fun bits => .ok (0 :: bits)
      else if gc_label_equal_ct Lo L1 then
        (decode_outputs_loop wl0 wl1 ws rest).bind fun bits => .ok (1 :: bits)
      else .error (-2)

/-- The function `gc_decode_outputs`. -/
def gc_decode_outputs (gc : gc_garbled_circuit) (output_labels : List gc_label) :
    gc_result (List uint8_t) :=
  decode_outputs_loop gc.wire_labels0 gc.wire_labels1 gc.output_wires output_labels

/-- Selection of the input labels from the input bits, as done by every caller
of `gc_eval_garbled` (`psi_gc_compute_with_gc_y`, the garbled tests):
`input_labels[k] = (bits[k] & 1) == 0 ? wire_labels0[w] : wire_labels1[w]`. -/
def encode_input_labels (gc : gc_garbled_circuit) :
    List Nat → List uint8_t → gc_result (List gc_label)
  | [], _ => .ok []
  | _ :: _, [] => .undefined
  | w :: ws, x :: xs =>
    (if (x &&& 1) = 0 then read_at gc.wire_labels0 w else read_at gc.wire_labels1 w).bind
      fun l => (encode_input_labels gc ws xs).bind fun ls => .ok (l :: ls)

/-- The garbled round trip performed by the tests in `test_gc_garbled.c`:
garble, select the input labels, evaluate, decode. -/
def garbled_roundtrip (blake3 : keyed_hash) (s : gc_globals) (plain : gc_circuit)
    (in_bits : List uint8_t) : gc_result (List uint8_t) :=
  (gc_garble blake3 s plain).1.bind fun gc =>
  (encode_input_labels gc gc.input_wires in_bits).bind fun in_labels =>
  (gc_eval_garbled blake3 gc in_labels).bind fun out_labels =>
  gc_decode_outputs gc out_labels

/-! ## psi_gc.c: the PSI driver -/

/-- Arithmetic in `size_t`, taken to be 64 bits wide. -/
def to_size_t (x : Nat) : Nat := x % 2 ^ 64

/-- The type `struct psi_gc_ctx`. -/
structure psi_gc_ctx where
  max_elems : Nat
  elem_bits : Nat
  deriving DecidableEq, Repr

/-- The function `psi_gc_create`; `none` is the `NULL` return. -/
def psi_gc_create (max_elems elem_bits : Nat) : Option psi_gc_ctx :=
  if max_elems = 0 ∨ elem_bits = 0 then none
  else some { max_elems := max_elems, elem_bits := elem_bits }

/-- The test `memcmp(a + off_a, b + off_b, n) == 0`; both ranges have to lie
inside their buffers. -/
def memcmp_is_zero (a : List uint8_t) (off_a : Nat) (b : List uint8_t) (off_b : Nat) (n : Nat) :
    gc_result Bool :=
  if off_a + n ≤ a.length ∧ off_b + n ≤ b.length then
    .ok (decide ((a.drop off_a).take n = (b.drop off_b).take n))
  else .undefined

/-- Loop of `fill_bit_inputs`; the buffers `bytes_a`, `bytes_b` are given as a
flat array and an offset, the list argument holds the remaining values of `i`. -/
def fill_bit_inputs_loop (mem_a : List uint8_t) (off_a : Nat) (mem_b : List uint8_t) (off_b : Nat)
    (elem_bytes k : Nat) : List Nat → List uint8_t → gc_result (List uint8_t)
  | [], inputs => .ok inputs
  | i :: rest, inputs =>
    let byte_idx := i / 8
    let bit_idx := i % 8
    (if byte_idx < elem_bytes then
      (read_at mem_a (off_a + byte_idx)).bind fun xa =>
      (read_at mem_b (off_b + byte_idx)).bind fun xb =>
      .ok (to_uint8 ((xa.val >>> bit_idx) &&& 1), to_uint8 ((xb.val >>> bit_idx) &&& 1))
    else .ok (0, 0)).bind fun bits =>
    (write_at inputs i bits.1).bind fun inputs1 =>
    (write_at inputs1 (k + i) bits.2).bind fun inputs2 =>
    fill_bit_inputs_loop mem_a off_a mem_b off_b elem_bytes k rest inputs2

/-- The function `fill_bit_inputs`. -/
def fill_bit_inputs (inputs : List uint8_t) (mem_a : List uint8_t) (off_a : Nat)
    (mem_b : List uint8_t) (off_b : Nat) (elem_bits : Nat) : gc_result (List uint8_t) :=
  let elem_bytes := to_size_t (elem_bits + 7) / 8
  let k := elem_bits
  fill_bit_inputs_loop mem_a off_a mem_b off_b elem_bytes k (List.range k) inputs

/-- Inner loop of `psi_compute_naive` over the remaining values of `j`. -/
def psi_naive_find (inputs_a inputs_b : List uint8_t) (elem_bytes i : Nat) :
    List Nat → gc_result uint8_t
  | [] => .ok 0
  | j :: rest =>
    (memcmp_is_zero inputs_a (i * elem_bytes) inputs_b (j * elem_bytes) elem_bytes).bind fun e =>
      if e then .ok 1 else psi_naive_find inputs_a inputs_b elem_bytes i rest

/-- Outer loop of `psi_compute_naive` over the remaining values of `i`. -/
def psi_naive_loop (inputs_a inputs_b : List uint8_t) (count elem_bytes : Nat) :
    List Nat → List uint8_t → gc_result (List uint8_t)
  | [], out_mask => .ok out_mask
  | i :: rest, out_mask =>
    (psi_naive_find inputs_a inputs_b elem_bytes i (List.range count)).bind fun found =>
    (write_at out_mask i found).bind fun m =>
    psi_naive_loop inputs_a inputs_b count elem_bytes rest m

/-- The function `psi_compute_naive`. -/
def psi_compute_naive (inputs_a inputs_b : List uint8_t) (count elem_bytes : Nat)
    (out_mask : List uint8_t) : gc_result (List uint8_t) :=
  psi_naive_loop inputs_a inputs_b count elem_bytes (List.range count) out_mask

/-- Inner loop of `psi_gc_compute_with_gc_y` over the remaining values of `j`:
a failing evaluation or decoding skips to the next `j`. -/
def psi_gc_find (blake3 : keyed_hash) (gc : gc_garbled_circuit) (n_inputs : Nat)
    (inputs_a inputs_b : List uint8_t) (elem_bytes elem_bits i : Nat) :
    List Nat → gc_result uint8_t
  | [] => .ok 0
  | j :: rest =>
    (fill_bit_inputs (List.replicate n_inputs 0) inputs_a (i * elem_bytes)
        inputs_b (j * elem_bytes) elem_bits).bind fun bit_inputs =>
    (encode_input_labels gc gc.input_wires bit_inputs).bind fun input_labels =>
    match gc_eval_garbled blake3 gc input_labels with
    | .undefined => .undefined
    | .error _ => psi_gc_find blake3 gc n_inputs inputs_a inputs_b elem_bytes elem_bits i rest
    | .ok out_labels =>
      match gc_decode_outputs gc out_labels with
      | .undefined => .undefined
      | .error _ => psi_gc_find blake3 gc n_inputs inputs_a inputs_b elem_bytes elem_bits i rest
      | .ok out_bits =>
        (read_at out_bits 0).bind fun b0 =>
          if b0 = 1 then .ok 1
          else psi_gc_find blake3 gc n_inputs inputs_a inputs_b elem_bytes elem_bits i rest

/-- Outer loop of `psi_gc_compute_with_gc_y` over the remaining values of `i`. -/
def psi_gc_loop (blake3 : keyed_hash) (gc : gc_garbled_circuit) (n_inputs : Nat)
    (inputs_a inputs_b : List uint8_t) (count elem_bytes elem_bits : Nat) :
    List Nat → List uint8_t → gc_result (List uint8_t)
  | [], out_mask => .ok out_mask
  | i :: rest, out_mask =>
    (psi_gc_find blake3 gc n_inputs inputs_a inputs_b elem_bytes elem_bits i
        (List.range count)).bind fun found =>
    (write_at out_mask i found).bind fun m =>
    psi_gc_loop blake3 gc n_inputs inputs_a inputs_b count elem_bytes elem_bits rest m

/-- The function `psi_gc_compute_with_gc_y`: the mask buffer after a `0`
return, or the error code, together with the file-scope variables. -/
def psi_gc_compute_with_gc_y (blake3 : keyed_hash) (s : gc_globals) (ctx : psi_gc_ctx)
    (inputs_a inputs_b : List uint8_t) (count : Nat) (out_mask : List uint8_t) :
    gc_result (List uint8_t) × gc_globals :=
  if count = 0 then (.ok out_mask, s)
  else if count > ctx.max_elems then (.error (-2), s)
  else
    let elem_bits := ctx.elem_bits
    let elem_bytes := to_size_t (elem_bits + 7) / 8
    match build_eq_circuit_bits elem_bits with
    | none => (psi_compute_naive inputs_a inputs_b count elem_bytes out_mask, s)
    | some plain =>
      match gc_garble blake3 s plain with
      | (.undefined, s1) => (.undefined, s1)
      | (.error _, s1) => (psi_compute_naive inputs_a inputs_b count elem_bytes out_mask, s1)
      | (.ok gc, s1) =>
        (psi_gc_loop blake3 gc plain.n_inputs inputs_a inputs_b count elem_bytes elem_bits
          (List.range count) out_mask, s1)

/-- The function `psi_gc_compute`. -/
def psi_gc_compute (blake3 : keyed_hash) (s : gc_globals) (ctx : psi_gc_ctx)
    (inputs_a inputs_b : List uint8_t) (count : Nat) (out_mask : List uint8_t) :
    gc_result (List uint8_t) × gc_globals :=
  if count = 0 then (.ok out_mask, s)
  else if count > ctx.max_elems then (.error (-2), s)
  else psi_gc_compute_with_gc_y blake3 s ctx inputs_a inputs_b count out_mask

/-! ## gc_compute_stats -/

/-- The type `gc_stats`. The counters are `size_t`; none of them exceeds
`64 * n_gates`, which is below the byte size of the `gates` array, so no
addition or multiplication in `gc_compute_stats` wraps. -/
structure gc_stats where
  num_gates : Nat
  num_and_gates : Nat
  num_xor_gates : Nat
  num_not_gates : Nat
  num_ciphertexts : Nat
  ciphertext_bytes : Nat
  deriving DecidableEq, Repr

/-- The `switch` in the loop of `gc_compute_stats`, for one gate. -/
def compute_stats_gate (gg : gc_garbled_gate) (stats : gc_stats) : gc_stats :=
  if gg.type = GC_GATE_AND then
    { stats with
      num_and_gates := stats.num_and_gates + 1
      num_ciphertexts := stats.num_ciphertexts + 4 }
  else if gg.type = GC_GATE_XOR then
    { stats with num_xor_gates := stats.num_xor_gates + 1 }
  else if gg.type = GC_GATE_NOT then
    { stats with
      num_not_gates := stats.num_not_gates + 1
      num_ciphertexts := stats.num_ciphertexts + 4 }
  else stats

/-- Loop of `gc_compute_stats` over the gates. -/
def compute_stats_loop : List gc_garbled_gate → gc_stats → gc_stats
  | [], stats => stats
  | gg :: rest, stats => compute_stats_loop rest (compute_stats_gate gg stats)

/-- The function `gc_compute_stats`; the result is `*stats` after the call. -/
def gc_compute_stats (gc : gc_garbled_circuit) : gc_stats :=
  let stats := compute_stats_loop gc.gates
    { num_gates := gc.n_gates
      num_and_gates := 0
      num_xor_gates := 0
      num_not_gates := 0
      num_ciphertexts := 0
      ciphertext_bytes := 0 }
  { stats with ciphertext_bytes := stats.num_ciphertexts * GC_LABEL_BYTES }

/-! ## psi_gc.c: the plaintext reference and the simulation -/

/-- The function `psi_hash_only_compute`. -/
def psi_hash_only_compute (ctx : psi_gc_ctx) (inputs_a inputs_b : List uint8_t) (count : Nat)
    (out_mask : List uint8_t) : gc_result (List uint8_t) :=
  if count = 0 then .ok out_mask
  else if count > ctx.max_elems then .error (-2)
  else
    let elem_bits := ctx.elem_bits
    let elem_bytes := to_size_t (elem_bits + 7) / 8
    psi_compute_naive inputs_a inputs_b count elem_bytes out_mask

/-- The function `psi_gc_prepare_circuit` on a non-null context. -/
def psi_gc_prepare_circuit (_ctx : psi_gc_ctx) : Int := 0

/-- Last loop of `gc_proto_psi_simulate` over the remaining values of `i`: the
first index at which the two masks differ ends the call with `1`. -/
def proto_compare_loop (out_mask_direct out_mask_proto : List uint8_t) :
    List Nat → gc_result Unit
  | [] => .ok ()
  | i :: rest =>
    (read_at out_mask_direct i).bind fun x =>
    (read_at out_mask_proto i).bind fun y =>
    if x ≠ y then .error 1 else proto_compare_loop out_mask_direct out_mask_proto rest

/-- The function `gc_proto_psi_simulate`: the two mask buffers after a `0`
return, or the non-zero return code, together with the file-scope variables.
The context is freed by `psi_gc_destroy` after each use. -/
def gc_proto_psi_simulate (blake3 : keyed_hash) (s : gc_globals)
    (inputs_a_flat inputs_b_flat : List uint8_t) (count elem_bits : Nat)
    (out_mask_direct out_mask_proto : List uint8_t) :
    gc_result (List uint8_t × List uint8_t) × gc_globals :=
  if count = 0 then (.ok (out_mask_direct, out_mask_proto), s)
  else if elem_bits = 0 then (.error (-2), s)
  else
    match psi_gc_create count elem_bits with
    | none => (.error (-3), s)
    | some ctx_direct =>
      if psi_gc_prepare_circuit ctx_direct ≠ 0 then (.error (-4), s)
      else
        match psi_gc_compute blake3 s ctx_direct inputs_a_flat inputs_b_flat count
            out_mask_direct with
        | (.undefined, s1) => (.undefined, s1)
        | (.error _, s1) => (.error (-5), s1)
        | (.ok mask_direct, s1) =>
          match psi_gc_create count elem_bits with
          | none => (.error (-6), s1)
          | some ctx_proto =>
            if psi_gc_prepare_circuit ctx_proto ≠ 0 then (.error (-7), s1)
            else
              match psi_gc_compute blake3 s1 ctx_proto inputs_a_flat inputs_b_flat count
                  out_mask_proto with
              | (.undefined, s2) => (.undefined, s2)
              | (.error _, s2) => (.error (-8), s2)
              | (.ok mask_proto, s2) =>
                ((proto_compare_loop mask_direct mask_proto (List.range count)).bind
                  fun _ => .ok (mask_direct, mask_proto), s2)

/-! ## gc_core.c: the wire arrays and the comparisons of the decoder -/

/-- The wire array of `gc_eval_clear` after its input loop and its gate loop. -/
def eval_clear_wires (c : gc_circuit) (inputs : List uint8_t) : gc_result (List uint8_t) :=
  (eval_clear_inputs c.n_wires c.input_wires inputs (List.replicate c.n_wires 0)).bind fun wv =>
  eval_clear_gates c.n_wires c.gates wv

/-- The wire array of `gc_eval_garbled` when gate number `p` is reached: after
its input loop and the first `p` iterations of its gate loop. -/
def eval_garbled_wires_before (blake3 : keyed_hash) (gc : gc_garbled_circuit)
    (input_labels : List gc_label) (p : Nat) : gc_result (List gc_label) :=
  (eval_garbled_inputs gc.n_wires gc.input_wires input_labels
      (List.replicate gc.n_wires gc_label_zero)).bind fun wv =>
  eval_garbled_gates blake3 gc.n_wires (gc.gates.take p) 0 wv

/-- The wire array of `gc_eval_garbled` after its input loop and its gate loop. -/
def eval_garbled_wires (blake3 : keyed_hash) (gc : gc_garbled_circuit)
    (input_labels : List gc_label) : gc_result (List gc_label) :=
  (eval_garbled_inputs gc.n_wires gc.input_wires input_labels
      (List.replicate gc.n_wires gc_label_zero)).bind fun wv =>
  eval_garbled_gates blake3 gc.n_wires gc.gates 0 wv

/-- The number of calls of `gc_label_equal_ct` the loop of `gc_decode_outputs`
makes: the comparison with `*L1` sits in the `else` branch of the comparison
with `*L0`, so a label equal to `wire_labels0[w]` costs one call and any other
label two; the loop ends at the first label that matches neither. -/
def decode_outputs_calls (wl0 wl1 : List gc_label) : List Nat → List gc_label → Nat
  | [], _ => 0
  | w :: ws, output_labels =>
    match read_at wl0 w, read_at wl1 w, output_labels with
    | .ok L0, .ok L1, Lo :: rest =>
      if gc_label_equal_ct Lo L0 then 1 + decode_outputs_calls wl0 wl1 ws rest
      else if gc_label_equal_ct Lo L1 then 2 + decode_outputs_calls wl0 wl1 ws rest
      else 2
    | _, _, _ => 0

/-- The calls of `gc_label_equal_ct` made by `gc_decode_outputs`. -/
def gc_decode_outputs_calls (gc : gc_garbled_circuit) (output_labels : List gc_label) : Nat :=
  decode_outputs_calls gc.wire_labels0 gc.wire_labels1 gc.output_wires output_labels

/-! ## gc_core.c: the inputs of the keyed hash -/

/-- The local array `input` of `gc_init_delta`. -/
def gc_init_delta_input : List uint8_t := [0x44, 0x45, 0x4c, 0x54]

/-- The local array `input` of `gc_derive_label0` after its four assignments;
`wire` is the `uint16_t` argument. -/
def gc_derive_label0_input (wire : Nat) : List uint8_t :=
  [to_uint8 (wire &&& 0xff), to_uint8 ((wire >>> 8) &&& 0xff), 0, 0xA5]

/-- The first `off` bytes of the local array `buf` of `gc_gate_prf`, the bytes
given to the hasher; `gate_index` is the `uint16_t` argument. -/
def gc_gate_prf_buf (ka kb : gc_label) (gate_index : Nat) (row : uint8_t) : List uint8_t :=
  ka.b.toList ++ kb.b.toList ++
    [to_uint8 (gate_index &&& 0xff), to_uint8 ((gate_index >>> 8) &&& 0xff), row, 0x3C]

/-! ## Auxiliary notions used in the statements -/

/-- States of `GC_DELTA` / `GC_DELTA_INITIALIZED` the program can be in: the
start-up state and every state after a call of `gc_init_delta`, the only
function that assigns them. -/
inductive gc_globals_reachable (blake3 : keyed_hash) : gc_globals → Prop where
  | startup : gc_globals_reachable blake3 gc_globals_startup
  | init_delta (s : gc_globals) :
      gc_globals_reachable blake3 s → gc_globals_reachable blake3 (gc_init_delta blake3 s)

/-- A small keyed function standing in for the hash in concrete evaluations:
a polynomial checksum of key and message, varied by the output position. -/
def toy_hash : keyed_hash := fun key data =>
  Mathlib.Vector.ofFn fun i =>
    to_uint8 ((key ++ data).foldl (fun acc x => (acc * 131 + x.val + 1) % 65521) (i.val + 7))

/-- The bit `1` or `0` as a `uint8_t`. -/
def bit (v : Bool) : uint8_t := if v then 1 else 0

/-- The offset every reachable state holds once initialised: the first 16
bytes of the keyed hash of "DELT" with the low bit of byte 0 set. -/
def gc_delta_value (blake3 : keyed_hash) : gc_label :=
  (gc_init_delta blake3 gc_globals_startup).GC_DELTA

/-- The label arrays are `n` long and `wire_labels1[w] = wire_labels0[w] XOR delta`
on every wire. -/
def free_xor_inv (delta : gc_label) (n : Nat) (wl0 wl1 : List gc_label) : Prop :=
  wl0.length = n ∧ wl1.length = n ∧
    ∀ (w : Nat) (l0 : gc_label), wl0[w]? = some l0 → wl1[w]? = some (gc_label_xor l0 delta)

/-- Every label in the array has permute bit 0. -/
def permute0_inv (wl0 : List gc_label) : Prop :=
  ∀ (w : Nat) (l0 : gc_label), wl0[w]? = some l0 → gc_permute_bit l0 = 0

/-- The out-parameter of an outcome, or `d` when the call did not return `0`. -/
def gc_result.get_or {α : Type} (d : α) : gc_result α → α
  | .ok a => a
  | _ => d

/-- A garbled circuit with no wires and no gates. -/
def gc_garbled_empty : gc_garbled_circuit :=
  { n_wires := 0, input_wires := [], output_wires := [], gates := [],
    wire_labels0 := [], wire_labels1 := [] }

/-- The garbled form of `gc_circuit_and_2` under `toy_hash`, from the start-up
state. -/
def toy_garbled_and_2 : gc_garbled_circuit :=
  gc_result.get_or gc_garbled_empty (gc_garble toy_hash gc_globals_startup gc_circuit_and_2).1

/-- The gates `gs`, run after the wires in `written` have received a value,
are in single-assignment topological order: every gate has a known type, reads
(on `in0` and on `in1`, also for a NOT gate, whose `in1` the garbled path
reads) only wires already written, and writes a wire below `n_wires` that was
not written before. -/
def gates_wf (n_wires : Nat) : List gc_gate → List Nat → Prop
  | [], _ => True
  | g :: gs, written =>
    (g.type = GC_GATE_AND ∨ g.type = GC_GATE_XOR ∨ g.type = GC_GATE_NOT) ∧
    g.in0 ∈ written ∧ g.in1 ∈ written ∧ g.out < n_wires ∧ g.out ∉ written ∧
    gates_wf n_wires gs (g.out :: written)

instance gates_wf_decidable (n_wires : Nat) :
    (gs : List gc_gate) → (written : List Nat) → Decidable (gates_wf n_wires gs written)
  | [], _ => isTrue trivial
  | g :: gs, written =>
    have := gates_wf_decidable n_wires gs (g.out :: written)
    inferInstanceAs (Decidable
      ((g.type = GC_GATE_AND ∨ g.type = GC_GATE_XOR ∨ g.type = GC_GATE_NOT) ∧
        g.in0 ∈ written ∧ g.in1 ∈ written ∧ g.out < n_wires ∧ g.out ∉ written ∧
        gates_wf n_wires gs (g.out :: written)))

/-- A circuit the garbled path handles: non-empty sizes, listed input wires
below `n_wires`, gates in single-assignment topological order starting from the
listed input wires, and every listed output wire a listed input wire or the
output of a gate. -/
def circuit_wf (c : gc_circuit) : Prop :=
  0 < c.n_inputs ∧ 0 < c.n_outputs ∧ 0 < c.n_wires ∧
  (∀ w ∈ c.input_wires, w < c.n_wires) ∧
  gates_wf c.n_wires c.gates c.input_wires ∧
  (∀ w ∈ c.output_wires, w ∈ c.input_wires ∨ w ∈ c.gates.map (fun g => g.out))

instance circuit_wf_decidable (c : gc_circuit) : Decidable (circuit_wf c) := by
  unfold circuit_wf
  infer_instance

/-- Topological order in the spec's words: the inputs of each gate (`in0`, and
`in1` for a binary gate; the spec has a NOT gate ignore `in1`) are primary
inputs or outputs of an earlier gate; `avail` lists the wires available so far. -/
def gates_topological : List gc_gate → List Nat → Prop
  | [], _ => True
  | g :: gs, avail =>
    g.in0 ∈ avail ∧ (g.type ≠ GC_GATE_NOT → g.in1 ∈ avail) ∧
    gates_topological gs (g.out :: avail)

instance gates_topological_decidable :
    (gs : List gc_gate) → (avail : List Nat) → Decidable (gates_topological gs avail)
  | [], _ => isTrue trivial
  | g :: gs, avail =>
    have := gates_topological_decidable gs (g.out :: avail)
    inferInstanceAs (Decidable
      (g.in0 ∈ avail ∧ (g.type ≠ GC_GATE_NOT → g.in1 ∈ avail) ∧
        gates_topological gs (g.out :: avail)))

/-- The data-model invariants of a clear circuit as the spec lists them: sizes
at least 1; a gate type among AND, XOR, NOT; `in0`, `out` and, for binary gates,
`in1` below `n_wires`; listed input and output wires below `n_wires`; gates in
topological order. -/
def spec_circuit_invariants (c : gc_circuit) : Prop :=
  1 ≤ c.n_inputs ∧ 1 ≤ c.n_outputs ∧ 1 ≤ c.n_wires ∧
  (∀ g ∈ c.gates, (g.type = GC_GATE_AND ∨ g.type = GC_GATE_XOR ∨ g.type = GC_GATE_NOT) ∧
    g.in0 < c.n_wires ∧ g.out < c.n_wires ∧ (g.type ≠ GC_GATE_NOT → g.in1 < c.n_wires)) ∧
  (∀ w ∈ c.input_wires, w < c.n_wires) ∧
  (∀ w ∈ c.output_wires, w < c.n_wires) ∧
  gates_topological c.gates c.input_wires

instance spec_circuit_invariants_decidable (c : gc_circuit) :
    Decidable (spec_circuit_invariants c) := by
  unfold spec_circuit_invariants
  infer_instance

/-- The clear wire values `cv` and the garbled wire values `gv` agree on the
wires in `written`: such a wire holds a bit `v` in `cv` and the label of `v`
(`wire_labels1` for 1, `wire_labels0` for 0) in `gv`. -/
def wires_related (n : Nat) (wl0 wl1 : List gc_label) (written : List Nat)
    (cv : List uint8_t) (gv : List gc_label) : Prop :=
  cv.length = n ∧ gv.length = n ∧
  ∀ w ∈ written, ∃ (v : Bool) (l : gc_label),
    cv[w]? = some (bit v) ∧ (if v then wl1 else wl0)[w]? = some l ∧ gv[w]? = some l

/-- The label arrays of a garbled circuit are as `gc_garble` leaves them:
Free-XOR pairs with permute bit 0 on `wire_labels0`, under an offset with
permute bit 1. -/
def labels_ok (delta : gc_label) (n : Nat) (wl0 wl1 : List gc_label) : Prop :=
  free_xor_inv delta n wl0 wl1 ∧ permute0_inv wl0 ∧ gc_permute_bit delta = 1

/-- The Boolean function of an AND gate, and of a NOT gate (on its first input). -/
def gate_fn (type : gc_gate_type) (va vb : Bool) : Bool :=
  if type = GC_GATE_AND then (va && vb) else !va

/-- The ciphertext `gc_garble` stores for the plaintext pair `(va, vb)`, given
the labels of `in0` (`la`, `la1`), `in1` (`lb`, `lb1`) and `out` (`lo0`, `lo1`). -/
def expected_ct (blake3 : keyed_hash) (la la1 lb lb1 lo0 lo1 : gc_label) (type : gc_gate_type)
    (gi : Nat) (va vb : Bool) : gc_label :=
  xor_keystream (if gate_fn type va vb then lo1 else lo0)
    (gc_gate_prf blake3 (if va then la1 else la) (if vb then lb1 else lb) (to_uint16 gi)
      ((bit va <<< 1) ||| bit vb))

/-- A circuit meeting the spec's data-model invariants in which an XOR gate
writes a primary input wire: inputs on wires 0 and 1, one gate
`XOR(0, 1) -> 0`, output wire 0. -/
def circuit_xor_overwrite : gc_circuit :=
  { n_wires := 2, input_wires := [0, 1], output_wires := [0],
    gates := [{ in0 := 0, in1 := 1, out := 0, type := GC_GATE_XOR }] }

/-- A circuit meeting the spec's data-model invariants in which the `in1` of a
NOT gate names a wire that is never written: input on wire 0, one gate
`NOT(0) -> 2` with `in1 = 1`, output wire 2. -/
def circuit_not_unwritten_in1 : gc_circuit :=
  { n_wires := 3, input_wires := [0], output_wires := [2],
    gates := [{ in0 := 0, in1 := 1, out := 2, type := GC_GATE_NOT }] }

/-- A circuit meeting the spec's data-model invariants whose output wire is
never written: input on wire 0, no gate, output wire 1. -/
def circuit_unwritten_output : gc_circuit :=
  { n_wires := 2, input_wires := [0], output_wires := [1], gates := [] }

/-- The XOR gate number `i` of the equality circuit on `k` bits. -/
def eq_xor_gate (k i : Nat) : gc_gate :=
  { in0 := i, in1 := k + i, out := 2 * k + i, type := GC_GATE_XOR }

/-- The NOT gate number `i` of the equality circuit on `k` bits. -/
def eq_not_gate (k i : Nat) : gc_gate :=
  { in0 := 2 * k + i, in1 := 0, out := 3 * k + i, type := GC_GATE_NOT }

/-- The AND chain of the equality circuit on `k` bits, without the 16-bit
reductions: gate `i` is `AND(acc, 3k + i) -> 4k + i - 1`. -/
def eq_acc_chain (k : Nat) : List Nat → Nat → List gc_gate
  | [], _ => []
  | i :: rest, acc =>
    { in0 := acc, in1 := 3 * k + i, out := 4 * k + i - 1, type := GC_GATE_AND } ::
      eq_acc_chain k rest (4 * k + i - 1)

/-- The circuit `build_eq_circuit_bits k` returns for `1 <= k <= 512`, written
without the 16-bit reductions (none of which wraps in that range). -/
def eq_circuit (k : Nat) : gc_circuit :=
  { n_wires := if k = 1 then 5 else 5 * k - 1
    input_wires := List.range (2 * k)
    output_wires := [if k = 1 then 4 else 5 * k - 2]
    gates :=
      (List.range k).map (eq_xor_gate k) ++ (List.range k).map (eq_not_gate k) ++
        (if k = 1 then [{ in0 := 3, in1 := 3, out := 4, type := GC_GATE_AND }]
         else eq_acc_chain k (List.range' 1 (k - 1)) (3 * k)) }

/-- The Boolean function of a gate of known type in the clear evaluator. -/
def clear_fn (type : gc_gate_type) (x y : Bool) : Bool :=
  if type = GC_GATE_AND then (x && y) else if type = GC_GATE_XOR then Bool.xor x y else !x

/-- The gates `gs` fill the wires `L`, `L + 1`, ... in order: each gate has a
known type, writes the next wire and reads wires below it. -/
def seq_fill : Nat → List gc_gate → Prop
  | _, [] => True
  | L, g :: gs =>
    (g.type = GC_GATE_AND ∨ g.type = GC_GATE_XOR ∨ g.type = GC_GATE_NOT) ∧
    g.in0 < L ∧ g.in1 < L ∧ g.out = L ∧ seq_fill (L + 1) gs

/-- Bit `t` of the element stored at offset `off` of a flat array, least
significant bit of each byte first. -/
def elem_bit (mem : List uint8_t) (off t : Nat) : Bool :=
  (mem.getD (off + t / 8) 0).val.testBit (t % 8)

/-- The first `k` bits of the element stored at offset `off`. -/
def elem_bits_of (mem : List uint8_t) (off k : Nat) : List Bool :=
  (List.range k).map fun t => elem_bit mem off t

/-- The first `k` bits of element `i` of `A` and of element `j` of `B` agree,
for elements `eb` bytes wide. -/
def elem_bits_match (A B : List uint8_t) (eb k i j : Nat) : Bool :=
  decide (elem_bits_of A (i * eb) k = elem_bits_of B (j * eb) k)

/-- The conditions on one gate under which `gc_eval_clear` is said to fail: an
output wire out of range, an unknown type, `in0` out of range, or, for an AND
or XOR gate, `in1` out of range. -/
def clear_gate_invalid (n_wires : Nat) (g : gc_gate) : Prop :=
  g.out ≥ n_wires ∨
  (g.type ≠ GC_GATE_AND ∧ g.type ≠ GC_GATE_XOR ∧ g.type ≠ GC_GATE_NOT) ∨
  g.in0 ≥ n_wires ∨
  ((g.type = GC_GATE_AND ∨ g.type = GC_GATE_XOR) ∧ g.in1 ≥ n_wires)

instance clear_gate_invalid_decidable (n_wires : Nat) (g : gc_gate) :
    Decidable (clear_gate_invalid n_wires g) := by
  unfold clear_gate_invalid
  infer_instance

/-- The conditions under which `gc_eval_clear` is said to fail: a zero size, a
listed input or output wire out of range, or a gate with
`clear_gate_invalid`. -/
def clear_circuit_invalid (c : gc_circuit) : Prop :=
  c.n_inputs = 0 ∨ c.n_outputs = 0 ∨ c.n_wires = 0 ∨
  (∃ w ∈ c.input_wires, w ≥ c.n_wires) ∨
  (∃ w ∈ c.output_wires, w ≥ c.n_wires) ∨
  (∃ g ∈ c.gates, clear_gate_invalid c.n_wires g)

instance clear_circuit_invalid_decidable (c : gc_circuit) :
    Decidable (clear_circuit_invalid c) := by
  unfold clear_circuit_invalid
  infer_instance


/-- A circuit with wires in range and one gate of a type outside the enum. -/
def circuit_unknown_gate_type : gc_circuit :=
  { n_wires := 2, input_wires := [0], output_wires := [1],
    gates := [{ in0 := 0, in1 := 0, out := 1, type := 7 }] }

/-- A garbled circuit of three wires whose only gate, an XOR gate, names wire 7
as `in1`. -/
def garbled_in1_out_of_range : gc_garbled_circuit :=
  { n_wires := 3, input_wires := [0, 1], output_wires := [2],
    gates := [{ in0 := 0, in1 := 7, out := 2, type := GC_GATE_XOR,
                table := List.replicate 4 gc_label_zero }],
    wire_labels0 := List.replicate 3 gc_label_zero,
    wire_labels1 := List.replicate 3 gc_label_zero }

/-- The plain circuit with the wiring of `garbled_in1_out_of_range`. -/
def circuit_in1_out_of_range : gc_circuit :=
  { n_wires := 3, input_wires := [0, 1], output_wires := [2],
    gates := [{ in0 := 0, in1 := 7, out := 2, type := GC_GATE_XOR }] }

/-- The test of `psi_compute_naive` on elements `i` of `A` and `j` of `B`:
their `eb` bytes are equal. -/
def elem_bytes_match (A B : List uint8_t) (eb i j : Nat) : Bool :=
  decide ((A.drop (i * eb)).take eb = (B.drop (j * eb)).take eb)

/-- A garbled circuit with wires in range and one gate of a type outside the
enum (the wiring of `circuit_unknown_gate_type`). -/
def garbled_unknown_gate_type : gc_garbled_circuit :=
  { n_wires := 2, input_wires := [0], output_wires := [1],
    gates := [{ in0 := 0, in1 := 0, out := 1, type := 7,
                table := List.replicate 4 gc_label_zero }],
    wire_labels0 := List.replicate 2 gc_label_zero,
    wire_labels1 := List.replicate 2 gc_label_zero }

/-- A gate with the `in1` field of a NOT gate set to 0. -/
def erase_not_in1 (g : gc_gate) : gc_gate :=
  if g.type = GC_GATE_NOT then { g with in1 := 0 } else g

/-- Two circuits differ at most in the `in1` field of NOT gates. -/
def same_up_to_not_in1 (c1 c2 : gc_circuit) : Prop :=
  c1.n_wires = c2.n_wires ∧ c1.input_wires = c2.input_wires ∧
  c1.output_wires = c2.output_wires ∧
  c1.gates.map erase_not_in1 = c2.gates.map erase_not_in1

instance same_up_to_not_in1_decidable (c1 c2 : gc_circuit) :
    Decidable (same_up_to_not_in1 c1 c2) := by
  unfold same_up_to_not_in1
  infer_instance

/-- The circuit `circuit_not_unwritten_in1` with the `in1` of its NOT gate
naming the input wire 0 instead of the unwritten wire 1. -/
def circuit_not_in1_written : gc_circuit :=
  { n_wires := 3, input_wires := [0], output_wires := [2],
    gates := [{ in0 := 0, in1 := 0, out := 2, type := GC_GATE_NOT }] }

/-- A NOT gate on wire 0 of a circuit with two input wires, its `in1` naming
input wire 0. -/
def circuit_not_in1_first : gc_circuit :=
  { n_wires := 3, input_wires := [0, 1], output_wires := [2],
    gates := [{ in0 := 0, in1 := 0, out := 2, type := GC_GATE_NOT }] }

/-- The circuit `circuit_not_in1_first` with the `in1` of the NOT gate naming
input wire 1. -/
def circuit_not_in1_second : gc_circuit :=
  { n_wires := 3, input_wires := [0, 1], output_wires := [2],
    gates := [{ in0 := 0, in1 := 1, out := 2, type := GC_GATE_NOT }] }

/-! # Theorems -/

/-! ## Bytes -/

theorem u8_xor_val (a b : uint8_t) : (a ^^^ b).val = a.val ^^^ b.val := by
  have h : (a ^^^ b).val = (a.val ^^^ b.val) % 256 := rfl
  rw [h]
  exact Nat.mod_eq_of_lt (Nat.xor_lt_two_pow (n := 8) a.isLt b.isLt)

theorem u8_or_val (a b : uint8_t) : (a ||| b).val = a.val ||| b.val := by
  have h : (a ||| b).val = (a.val ||| b.val) % 256 := rfl
  rw [h]
  exact Nat.mod_eq_of_lt (Nat.or_lt_two_pow (n := 8) a.isLt b.isLt)

theorem u8_and_val (a b : uint8_t) : (a &&& b).val = a.val &&& b.val := by
  have h : (a &&& b).val = (a.val &&& b.val) % 256 := rfl
  rw [h]
  exact Nat.mod_eq_of_lt (Nat.and_lt_two_pow (n := 8) a.val b.isLt)

theorem u8_xor_self (a : uint8_t) : a ^^^ a = 0 := by
  apply Fin.ext; rw [u8_xor_val]; simp

theorem u8_xor_comm (a b : uint8_t) : a ^^^ b = b ^^^ a := by
  apply Fin.ext; rw [u8_xor_val, u8_xor_val, Nat.xor_comm]

theorem u8_xor_assoc (a b c : uint8_t) : (a ^^^ b) ^^^ c = a ^^^ (b ^^^ c) := by
  apply Fin.ext; simp only [u8_xor_val, Nat.xor_assoc]

theorem u8_xor_zero (a : uint8_t) : a ^^^ 0 = a := by
  apply Fin.ext; rw [u8_xor_val]; simp

theorem u8_xor_cancel_left (a b : uint8_t) : a ^^^ (a ^^^ b) = b := by
  apply Fin.ext; simp only [u8_xor_val]; exact Nat.xor_cancel_left _ _

theorem u8_xor_cancel_right (a b : uint8_t) : (a ^^^ b) ^^^ b = a := by
  apply Fin.ext; simp only [u8_xor_val]; exact Nat.xor_cancel_right _ _

theorem u8_xor_eq_zero (a b : uint8_t) : a ^^^ b = 0 ↔ a = b := by
  rw [Fin.ext_iff, u8_xor_val, Fin.ext_iff]
  exact Nat.xor_eq_zero

theorem nat_or_eq_zero (a b : Nat) : a ||| b = 0 ↔ a = 0 ∧ b = 0 := by
  constructor
  · intro h
    have key : ∀ i, (a.testBit i || b.testBit i) = false := by
      intro i
      rw [← Nat.testBit_or, h, Nat.zero_testBit]
    constructor
    · apply Nat.eq_of_testBit_eq
      intro i
      have := key i
      rw [Nat.zero_testBit]
      cases ha : a.testBit i <;> simp_all
    · apply Nat.eq_of_testBit_eq
      intro i
      have := key i
      rw [Nat.zero_testBit]
      cases hb : b.testBit i <;> simp_all
  · rintro ⟨rfl, rfl⟩
    rfl

theorem u8_or_eq_zero (a b : uint8_t) : a ||| b = 0 ↔ a = 0 ∧ b = 0 := by
  simp only [Fin.ext_iff, u8_or_val]
  exact nat_or_eq_zero a.val b.val

theorem u8_foldl_or_eq_zero (l : List uint8_t) (d : uint8_t) :
    l.foldl (fun d x => d ||| x) d = 0 ↔ d = 0 ∧ ∀ x ∈ l, x = 0 := by
  induction l generalizing d with
  | nil => simp
  | cons x xs ih =>
    rw [List.foldl_cons, ih, u8_or_eq_zero]
    simp only [List.mem_cons, forall_eq_or_imp]
    tauto

/-- The permute bit as a number: the parity of byte 0. -/
theorem u8_and_one_val (x : uint8_t) : (x &&& 1).val = x.val % 2 := by
  rw [u8_and_val]
  exact Nat.and_one_is_mod x.val

theorem u8_and_one_cases (x : uint8_t) : x &&& 1 = 0 ∨ x &&& 1 = 1 := by
  rcases Nat.mod_two_eq_zero_or_one x.val with h | h
  · left; apply Fin.ext; rw [u8_and_one_val, h]; rfl
  · right; apply Fin.ext; rw [u8_and_one_val, h]; rfl

theorem u8_and_one_xor (x y : uint8_t) : (x ^^^ y) &&& 1 = (x &&& 1) ^^^ (y &&& 1) := by
  apply Fin.ext
  rw [u8_xor_val, u8_and_one_val, u8_and_one_val, u8_and_one_val, u8_xor_val, Nat.xor_mod_two_eq]
  rcases Nat.mod_two_eq_zero_or_one x.val with hx | hx <;>
    rcases Nat.mod_two_eq_zero_or_one y.val with hy | hy <;>
    rw [Nat.add_mod, hx, hy] <;> rfl

theorem u8_or_one_and_one (x : uint8_t) : (x ||| 1) &&& 1 = 1 := by
  apply Fin.ext
  rw [u8_and_one_val, u8_or_val]
  have : ((x.val ||| 1) % 2 = 1) := by
    rw [Nat.or_mod_two_eq_one]; right; rfl
  exact this

theorem u8_and_fe_and_one (x : uint8_t) : (x &&& 0xFE) &&& 1 = 0 := by
  apply Fin.ext
  rw [u8_and_one_val, u8_and_val]
  have h : ¬ ((x.val &&& 254) % 2 = 1) := by
    rw [Nat.and_mod_two_eq_one]
    rintro ⟨_, h⟩
    exact absurd h (by decide)
  have : (x.val &&& 254) % 2 = 0 := by omega
  exact this

/-! ## Labels -/

theorem gc_label_ext {a b : gc_label} (h : ∀ i, a.b.get i = b.b.get i) : a = b := by
  cases a; cases b
  congr
  exact Mathlib.Vector.ext h

theorem gc_label_xor_get (a b : gc_label) (i : Fin GC_LABEL_BYTES) :
    (gc_label_xor a b).b.get i = a.b.get i ^^^ b.b.get i := by
  simp [gc_label_xor, Mathlib.Vector.get_map₂]

theorem gc_label_xor_comm (a b : gc_label) : gc_label_xor a b = gc_label_xor b a := by
  apply gc_label_ext; intro i
  rw [gc_label_xor_get, gc_label_xor_get, u8_xor_comm]

theorem gc_label_xor_assoc (a b c : gc_label) :
    gc_label_xor (gc_label_xor a b) c = gc_label_xor a (gc_label_xor b c) := by
  apply gc_label_ext; intro i
  simp only [gc_label_xor_get, u8_xor_assoc]

theorem gc_label_xor_cancel_left (a b : gc_label) : gc_label_xor a (gc_label_xor a b) = b := by
  apply gc_label_ext; intro i
  simp only [gc_label_xor_get, u8_xor_cancel_left]

theorem gc_label_xor_cancel_right (a b : gc_label) : gc_label_xor (gc_label_xor a b) b = a := by
  apply gc_label_ext; intro i
  simp only [gc_label_xor_get, u8_xor_cancel_right]

theorem xor_keystream_eq (K : gc_label) (ks : Mathlib.Vector uint8_t GC_LABEL_BYTES) :
    xor_keystream K ks = gc_label_xor K ⟨ks⟩ := rfl

theorem gc_label_equal_ct_iff (a b : gc_label) : gc_label_equal_ct a b = true ↔ a = b := by
  unfold gc_label_equal_ct
  simp only [beq_iff_eq]
  rw [u8_foldl_or_eq_zero]
  constructor
  · rintro ⟨_, h⟩
    apply gc_label_ext
    intro i
    have := h ((Mathlib.Vector.map₂ (fun x y => x ^^^ y) a.b b.b).get i)
      (Mathlib.Vector.get_mem i _)
    rw [Mathlib.Vector.get_map₂] at this
    exact (u8_xor_eq_zero _ _).mp this
  · rintro rfl
    refine ⟨rfl, ?_⟩
    intro x hx
    rw [Mathlib.Vector.mem_iff_get] at hx
    obtain ⟨i, rfl⟩ := hx
    rw [Mathlib.Vector.get_map₂]
    exact u8_xor_self _

theorem gc_permute_bit_cases (a : gc_label) : gc_permute_bit a = 0 ∨ gc_permute_bit a = 1 :=
  u8_and_one_cases _

theorem gc_permute_bit_xor (a b : gc_label) :
    gc_permute_bit (gc_label_xor a b) = gc_permute_bit a ^^^ gc_permute_bit b := by
  unfold gc_permute_bit
  rw [gc_label_xor_get, u8_and_one_xor]

theorem gc_permute_bit_derive_label0 (blake3 : keyed_hash) (w : Nat) :
    gc_permute_bit (gc_derive_label0 blake3 w) = 0 := by
  simp only [gc_permute_bit, gc_derive_label0, Mathlib.Vector.get_set_same]
  exact u8_and_fe_and_one _

/-! ## Results and checked array accesses -/

theorem bind_eq_ok {α β : Type} (r : gc_result α) (f : α → gc_result β) (b : β) :
    r.bind f = .ok b ↔ ∃ a, r = .ok a ∧ f a = .ok b := by
  cases r <;> simp [gc_result.bind]

theorem bind_ok {α β : Type} (a : α) (f : α → gc_result β) :
    (gc_result.ok a).bind f = f a := rfl

theorem read_at_eq_ok {α : Type} (arr : List α) (i : Nat) (x : α) :
    read_at arr i = .ok x ↔ arr[i]? = some x := by
  unfold read_at
  cases h : arr[i]? <;> simp

theorem read_at_of_lt {α : Type} (arr : List α) (i : Nat) (h : i < arr.length) :
    read_at arr i = .ok (arr[i]) := by
  rw [read_at_eq_ok]
  exact List.getElem?_eq_getElem h

theorem write_at_eq_ok {α : Type} (arr : List α) (i : Nat) (x : α) (arr2 : List α) :
    write_at arr i x = .ok arr2 ↔ i < arr.length ∧ arr2 = arr.set i x := by
  unfold write_at
  split <;> simp_all [eq_comm]

theorem write_at_of_lt {α : Type} (arr : List α) (i : Nat) (x : α) (h : i < arr.length) :
    write_at arr i x = .ok (arr.set i x) := by
  simp [write_at, h]

theorem getElem?_set_eq_ite {α : Type} (arr : List α) (i j : Nat) (x : α) :
    (arr.set i x)[j]? = if i = j ∧ i < arr.length then some x else arr[j]? := by
  by_cases hij : i = j
  · subst hij
    by_cases hi : i < arr.length
    · simp [hi]
    · have hn : arr[i]? = none := List.getElem?_eq_none (by omega)
      simp only [hi, and_false, if_false, hn]
      rw [List.getElem?_eq_none]
      simp only [List.length_set]
      omega
  · simp [hij, List.getElem?_set_ne hij]

/-! ## The global offset -/

theorem gc_globals_reachable_cases (blake3 : keyed_hash) (s : gc_globals)
    (h : gc_globals_reachable blake3 s) :
    s = gc_globals_startup ∨ s = gc_init_delta blake3 gc_globals_startup := by
  induction h with
  | startup => left; rfl
  | init_delta s _ ih =>
    right
    rcases ih with rfl | rfl
    · rfl
    · simp [gc_init_delta, gc_globals_startup]

theorem gc_init_delta_reachable (blake3 : keyed_hash) (s : gc_globals)
    (h : gc_globals_reachable blake3 s) :
    (gc_init_delta blake3 s).GC_DELTA = gc_delta_value blake3 := by
  rcases gc_globals_reachable_cases blake3 s h with rfl | rfl
  · rfl
  · simp [gc_init_delta, gc_globals_startup, gc_delta_value]

theorem gc_permute_bit_delta (blake3 : keyed_hash) :
    gc_permute_bit (gc_delta_value blake3) = 1 := by
  simp only [gc_delta_value, gc_init_delta, gc_globals_startup, gc_permute_bit]
  simp only [ne_eq, not_true_eq_false, if_false, Mathlib.Vector.get_set_same]
  exact u8_or_one_and_one _

/-! ## The label arrays built by gc_garble -/

theorem free_xor_inv_set (delta : gc_label) (n : Nat) (wl0 wl1 : List gc_label)
    (h : free_xor_inv delta n wl0 wl1) (w : Nat) (l : gc_label) :
    free_xor_inv delta n (wl0.set w l) (wl1.set w (gc_label_xor l delta)) := by
  obtain ⟨h0, h1, h2⟩ := h
  refine ⟨by simp [h0], by simp [h1], ?_⟩
  intro v l0 hv
  rw [getElem?_set_eq_ite] at hv
  rw [getElem?_set_eq_ite]
  by_cases hc : w = v ∧ w < wl0.length
  · rw [if_pos hc] at hv
    rw [if_pos ⟨hc.1, by omega⟩]
    cases hv; rfl
  · rw [if_neg hc] at hv
    have hc2 : ¬ (w = v ∧ w < wl1.length) := by rw [h1, ← h0]; exact hc
    rw [if_neg hc2]
    exact h2 v l0 hv

theorem permute0_inv_set (wl0 : List gc_label) (h : permute0_inv wl0) (w : Nat) (l : gc_label)
    (hl : gc_permute_bit l = 0) : permute0_inv (wl0.set w l) := by
  unfold permute0_inv at h ⊢
  intro v l0 hv
  rw [getElem?_set_eq_ite] at hv
  split at hv
  · cases hv; exact hl
  · exact h v l0 hv

theorem free_xor_inv_init (blake3 : keyed_hash) (delta : gc_label) (n : Nat) :
    free_xor_inv delta n
      ((List.range n).map fun w => gc_derive_label0 blake3 w)
      ((List.range n).map fun w => gc_label_xor (gc_derive_label0 blake3 w) delta) := by
  refine ⟨by simp, by simp, ?_⟩
  intro w l0 hw
  rw [List.getElem?_map] at hw ⊢
  cases hr : (List.range n)[w]? with
  | none => rw [hr] at hw; cases hw
  | some v =>
    rw [hr] at hw
    simp only [Option.map_some'] at hw ⊢
    cases hw; rfl

theorem permute0_inv_init (blake3 : keyed_hash) (n : Nat) :
    permute0_inv ((List.range n).map fun w => gc_derive_label0 blake3 w) := by
  unfold permute0_inv
  intro w l0 hw
  rw [List.getElem?_map] at hw
  cases hr : (List.range n)[w]? with
  | none => rw [hr] at hw; cases hw
  | some v =>
    rw [hr] at hw
    simp only [Option.map_some'] at hw
    cases hw
    exact gc_permute_bit_derive_label0 blake3 v

theorem garble_xor_pass_inv (delta : gc_label) (n : Nat) (gates : List gc_gate) :
    ∀ (wl0 wl1 a b : List gc_label),
      garble_xor_pass delta gates wl0 wl1 = .ok (a, b) →
      free_xor_inv delta n wl0 wl1 → free_xor_inv delta n a b := by
  induction gates with
  | nil =>
    intro wl0 wl1 a b h hinv
    simp only [garble_xor_pass, gc_result.ok.injEq, Prod.mk.injEq] at h
    obtain ⟨rfl, rfl⟩ := h
    exact hinv
  | cons pg rest ih =>
    intro wl0 wl1 a b h hinv
    unfold garble_xor_pass at h
    split at h
    · exact ih _ _ _ _ h hinv
    · simp only [bind_eq_ok, read_at_eq_ok, write_at_eq_ok] at h
      obtain ⟨x, _, y, _, wl0n, ⟨_, rfl⟩, wl1n, ⟨_, rfl⟩, h⟩ := h
      exact ih _ _ _ _ h (free_xor_inv_set delta n wl0 wl1 hinv _ _)

theorem garble_xor_pass_permute0 (delta : gc_label) (gates : List gc_gate) :
    ∀ (wl0 wl1 a b : List gc_label),
      garble_xor_pass delta gates wl0 wl1 = .ok (a, b) →
      permute0_inv wl0 → permute0_inv a := by
  induction gates with
  | nil =>
    intro wl0 wl1 a b h hinv
    simp only [garble_xor_pass, gc_result.ok.injEq, Prod.mk.injEq] at h
    obtain ⟨rfl, rfl⟩ := h
    exact hinv
  | cons pg rest ih =>
    intro wl0 wl1 a b h hinv
    unfold garble_xor_pass at h
    split at h
    · exact ih _ _ _ _ h hinv
    · simp only [bind_eq_ok, read_at_eq_ok, write_at_eq_ok] at h
      obtain ⟨x, hx, y, hy, wl0n, ⟨_, rfl⟩, wl1n, ⟨_, rfl⟩, h⟩ := h
      refine ih _ _ _ _ h (permute0_inv_set wl0 hinv _ _ ?_)
      have hx0 : gc_permute_bit x = 0 := hinv _ _ hx
      have hy0 : gc_permute_bit y = 0 := hinv _ _ hy
      rw [gc_permute_bit_xor, hx0, hy0]
      rfl

/-- What a `0` return of `gc_garble` says about its two passes. -/
theorem gc_garble_eq_ok (blake3 : keyed_hash) (s : gc_globals) (plain : gc_circuit)
    (gc : gc_garbled_circuit) (h : (gc_garble blake3 s plain).1 = .ok gc) :
    ∃ ggs,
      garble_xor_pass (gc_init_delta blake3 s).GC_DELTA plain.gates
        ((List.range plain.n_wires).map fun w => gc_derive_label0 blake3 w)
        ((List.range plain.n_wires).map fun w =>
          gc_label_xor (gc_derive_label0 blake3 w) (gc_init_delta blake3 s).GC_DELTA)
        = .ok (gc.wire_labels0, gc.wire_labels1) ∧
      garble_tables blake3 gc.wire_labels0 gc.wire_labels1 plain.gates 0 = .ok ggs ∧
      gc.gates = ggs ∧ gc.n_wires = plain.n_wires ∧
      gc.input_wires = plain.input_wires ∧ gc.output_wires = plain.output_wires := by
  simp only [gc_garble, bind_eq_ok] at h
  obtain ⟨⟨a, b⟩, h1, ggs, h2, h3⟩ := h
  simp only [gc_result.ok.injEq] at h3
  subst h3
  exact ⟨ggs, h1, h2, rfl, rfl, rfl, rfl⟩

theorem gc_garble_free_xor (blake3 : keyed_hash) (s : gc_globals) (plain : gc_circuit)
    (gc : gc_garbled_circuit) (h : (gc_garble blake3 s plain).1 = .ok gc) :
    free_xor_inv (gc_init_delta blake3 s).GC_DELTA plain.n_wires
      gc.wire_labels0 gc.wire_labels1 := by
  obtain ⟨ggs, h1, _⟩ := gc_garble_eq_ok blake3 s plain gc h
  exact garble_xor_pass_inv _ _ _ _ _ _ _ h1 (free_xor_inv_init blake3 _ _)

theorem gc_garble_permute0 (blake3 : keyed_hash) (s : gc_globals) (plain : gc_circuit)
    (gc : gc_garbled_circuit) (h : (gc_garble blake3 s plain).1 = .ok gc) :
    permute0_inv gc.wire_labels0 := by
  obtain ⟨ggs, h1, _⟩ := gc_garble_eq_ok blake3 s plain gc h
  exact garble_xor_pass_permute0 _ _ _ _ _ _ h1 (permute0_inv_init blake3 _)

theorem gc_garble_globals (blake3 : keyed_hash) (s : gc_globals) (plain : gc_circuit) :
    (gc_garble blake3 s plain).2 = gc_init_delta blake3 s := rfl

/-! ## Clear evaluation of the fixed circuits -/

/-- C6: on `gc_circuit_and_2` the clear evaluator returns 0 with output bit
`a AND b`, and on `gc_circuit_xor_2` it returns 0 with output bit `a XOR b`,
for every pair of input bits. -/
theorem gc_eval_clear_and_2_xor_2 (a b : Bool) :
    gc_eval_clear gc_circuit_and_2 [bit a, bit b] = .ok [bit (a && b)] ∧
    gc_eval_clear gc_circuit_xor_2 [bit a, bit b] = .ok [bit (Bool.xor a b)] := by
  revert a b
  decide

/-- C7: on `gc_circuit_eq_2bit`, for all 16 pairs of 2-bit values `a`, `b` fed
as `(a bit 0, a bit 1, b bit 0, b bit 1)`, the clear evaluator returns 0 and the
output bit is 1 exactly when `a = b`. -/
theorem gc_eval_clear_eq_2bit (a b : Fin 4) :
    gc_eval_clear gc_circuit_eq_2bit
      [to_uint8 ((a.val >>> 0) &&& 1), to_uint8 ((a.val >>> 1) &&& 1),
       to_uint8 ((b.val >>> 0) &&& 1), to_uint8 ((b.val >>> 1) &&& 1)]
      = .ok [if a = b then 1 else 0] := by
  revert a b
  decide

/-! ## The synthesizer's parameter bound -/

/-- C5: `build_eq_circuit_bits k` returns no circuit exactly when `k = 0` or
`k > 512`; for every `k` with `1 <= k <= 512` it returns a circuit. -/
theorem build_eq_circuit_bits_none_iff (k : Nat) :
    build_eq_circuit_bits k = none ↔ (k = 0 ∨ k > 512) := by
  unfold build_eq_circuit_bits
  split <;> simp_all

/-! ## Invariants of the garbled labels -/

theorem free_xor_inv_lookup (delta : gc_label) (n : Nat) (wl0 wl1 : List gc_label)
    (h : free_xor_inv delta n wl0 wl1) (w : Nat) (hw : w < n) :
    ∃ l0, wl0[w]? = some l0 ∧ wl1[w]? = some (gc_label_xor l0 delta) := by
  obtain ⟨h0, _, h2⟩ := h
  have hlt : w < wl0.length := by omega
  exact ⟨wl0[w], List.getElem?_eq_getElem hlt, h2 w _ (List.getElem?_eq_getElem hlt)⟩

/-- C8 (Free-XOR invariant): after a successful `gc_garble`, on every wire
`w < n_wires` the byte-wise XOR of `wire_labels0[w]` and `wire_labels1[w]` is
the global offset `GC_DELTA`; this covers the output wires of XOR gates, whose
labels the first pass overrides. -/
theorem gc_garble_free_xor_invariant (blake3 : keyed_hash) (s : gc_globals)
    (plain : gc_circuit) (gc : gc_garbled_circuit)
    (h : (gc_garble blake3 s plain).1 = .ok gc) (w : Nat) (hw : w < gc.n_wires) :
    ∃ l0 l1, gc.wire_labels0[w]? = some l0 ∧ gc.wire_labels1[w]? = some l1 ∧
      gc_label_xor l0 l1 = (gc_garble blake3 s plain).2.GC_DELTA := by
  have hn : gc.n_wires = plain.n_wires := by
    obtain ⟨_, _, _, _, hn, _⟩ := gc_garble_eq_ok blake3 s plain gc h
    exact hn
  obtain ⟨l0, h0, h1⟩ :=
    free_xor_inv_lookup _ _ _ _ (gc_garble_free_xor blake3 s plain gc h) w (by omega)
  exact ⟨l0, _, h0, h1, gc_label_xor_cancel_left _ _⟩

set_option maxRecDepth 100000 in
theorem gc_garble_free_xor_invariant_witness :
    (gc_garble toy_hash gc_globals_startup gc_circuit_and_2).1 = .ok toy_garbled_and_2 ∧
    2 < toy_garbled_and_2.n_wires ∧
    ∃ l0 l1, toy_garbled_and_2.wire_labels0[2]? = some l0 ∧
      toy_garbled_and_2.wire_labels1[2]? = some l1 ∧
      gc_label_xor l0 l1 =
        (gc_garble toy_hash gc_globals_startup gc_circuit_and_2).2.GC_DELTA :=
  ⟨by decide, by decide,
    gc_garble_free_xor_invariant toy_hash gc_globals_startup gc_circuit_and_2
      toy_garbled_and_2 (by decide) 2 (by decide)⟩

/-- C9 (permute-bit separation): after a successful `gc_garble`, started in a
state of the file-scope variables the program can reach, on every wire
`w < n_wires` (outputs of XOR gates included) the permute bit of
`wire_labels0[w]` is 0 and that of `wire_labels1[w]` is 1. -/
theorem gc_garble_permute_bits (blake3 : keyed_hash) (s : gc_globals)
    (hs : gc_globals_reachable blake3 s) (plain : gc_circuit) (gc : gc_garbled_circuit)
    (h : (gc_garble blake3 s plain).1 = .ok gc) (w : Nat) (hw : w < gc.n_wires) :
    ∃ l0 l1, gc.wire_labels0[w]? = some l0 ∧ gc.wire_labels1[w]? = some l1 ∧
      gc_permute_bit l0 = 0 ∧ gc_permute_bit l1 = 1 ∧
      gc_permute_bit l0 ≠ gc_permute_bit l1 := by
  have hn : gc.n_wires = plain.n_wires := by
    obtain ⟨_, _, _, _, hn, _⟩ := gc_garble_eq_ok blake3 s plain gc h
    exact hn
  obtain ⟨l0, h0, h1⟩ :=
    free_xor_inv_lookup _ _ _ _ (gc_garble_free_xor blake3 s plain gc h) w (by omega)
  have hp0 : gc_permute_bit l0 = 0 := gc_garble_permute0 blake3 s plain gc h w l0 h0
  have hp1 : gc_permute_bit (gc_label_xor l0 (gc_init_delta blake3 s).GC_DELTA) = 1 := by
    rw [gc_permute_bit_xor, hp0, gc_init_delta_reachable blake3 s hs, gc_permute_bit_delta]
    rfl
  refine ⟨l0, _, h0, h1, hp0, hp1, ?_⟩
  rw [hp0, hp1]
  decide

set_option maxRecDepth 100000 in
theorem gc_garble_permute_bits_witness :
    gc_globals_reachable toy_hash gc_globals_startup ∧
    (gc_garble toy_hash gc_globals_startup gc_circuit_and_2).1 = .ok toy_garbled_and_2 ∧
    0 < toy_garbled_and_2.n_wires ∧
    ∃ l0 l1, toy_garbled_and_2.wire_labels0[0]? = some l0 ∧
      toy_garbled_and_2.wire_labels1[0]? = some l1 ∧
      gc_permute_bit l0 = 0 ∧ gc_permute_bit l1 = 1 ∧
      gc_permute_bit l0 ≠ gc_permute_bit l1 :=
  ⟨gc_globals_reachable.startup, by decide, by decide,
    gc_garble_permute_bits toy_hash gc_globals_startup gc_globals_reachable.startup
      gc_circuit_and_2 toy_garbled_and_2 (by decide) 0 (by decide)⟩

/-! ## Rows of the garbled tables -/

theorem garble_tables_ok_mem (blake3 : keyed_hash) (wl0 wl1 : List gc_label)
    (gates : List gc_gate) :
    ∀ (gi : Nat) (ggs : List gc_garbled_gate),
      garble_tables blake3 wl0 wl1 gates gi = .ok ggs →
      ∀ pg ∈ gates, ∃ gj gg, garble_gate blake3 wl0 wl1 pg gj = .ok gg := by
  induction gates with
  | nil => intro gi ggs _ pg hpg; cases hpg
  | cons g rest ih =>
    intro gi ggs h pg hpg
    simp only [garble_tables, bind_eq_ok] at h
    obtain ⟨gg, hg, ggs2, hrest, _⟩ := h
    rcases List.mem_cons.mp hpg with rfl | hmem
    · exact ⟨gi, gg, hg⟩
    · exact ih _ _ hrest pg hmem

theorem garble_row_eq (blake3 : keyed_hash) (wl0 wl1 : List gc_label) (pg : gc_gate) (gi : Nat)
    (a b : uint8_t) (table : List gc_label) (la la1 lb lb1 lo0 lo1 : gc_label)
    (bit_out : uint8_t)
    (h0 : wl0[pg.in0]? = some la) (h1 : wl1[pg.in0]? = some la1)
    (h2 : wl0[pg.in1]? = some lb) (h3 : wl1[pg.in1]? = some lb1)
    (hb : garble_bit_out pg.type a b = .ok bit_out)
    (h4 : wl0[pg.out]? = some lo0) (h5 : wl1[pg.out]? = some lo1) :
    garble_row blake3 wl0 wl1 pg gi a b table =
      write_at table
        (gc_row (if a = 0 then la else la1) (if b = 0 then lb else lb1)).val
        (xor_keystream (if bit_out = 0 then lo0 else lo1)
          (gc_gate_prf blake3 (if a = 0 then la else la1) (if b = 0 then lb else lb1)
            (to_uint16 gi)
            (gc_row (if a = 0 then la else la1) (if b = 0 then lb else lb1)))) := by
  unfold garble_row
  rw [(read_at_eq_ok _ _ _).mpr h0, (read_at_eq_ok _ _ _).mpr h1,
    (read_at_eq_ok _ _ _).mpr h2, (read_at_eq_ok _ _ _).mpr h3,
    (read_at_eq_ok _ _ _).mpr h4, (read_at_eq_ok _ _ _).mpr h5, hb]
  rfl

theorem garble_gate_ok_reads (blake3 : keyed_hash) (wl0 wl1 : List gc_label) (pg : gc_gate)
    (gi : Nat) (gg : gc_garbled_gate) (hty : pg.type ≠ GC_GATE_XOR)
    (h : garble_gate blake3 wl0 wl1 pg gi = .ok gg) :
    ∃ la la1 lb lb1 lo0 lo1,
      wl0[pg.in0]? = some la ∧ wl1[pg.in0]? = some la1 ∧
      wl0[pg.in1]? = some lb ∧ wl1[pg.in1]? = some lb1 ∧
      wl0[pg.out]? = some lo0 ∧ wl1[pg.out]? = some lo1 := by
  unfold garble_gate at h
  simp only [hty, if_false, bind_eq_ok] at h
  obtain ⟨t, ht, _⟩ := h
  unfold garble_row at ht
  simp only [bind_eq_ok, read_at_eq_ok] at ht
  obtain ⟨la, h0, la1, h1, lb, h2, lb1, h3, bo, _, lo0, h4, lo1, h5, _⟩ := ht
  exact ⟨la, la1, lb, lb1, lo0, lo1, h0, h1, h2, h3, h4, h5⟩

theorem gc_row_of_permute_bits (la la1 lb lb1 : gc_label)
    (ha : gc_permute_bit la = 0) (ha1 : gc_permute_bit la1 = 1)
    (hb : gc_permute_bit lb = 0) (hb1 : gc_permute_bit lb1 = 1) (a b : Bool) :
    gc_row (if bit a = 0 then la else la1) (if bit b = 0 then lb else lb1)
      = (bit a <<< 1) ||| bit b := by
  cases a <;> cases b <;> simp [gc_row, bit, ha, ha1, hb, hb1]

theorem bit_row_injective :
    ∀ a b a2 b2 : Bool,
      ((bit a <<< 1) ||| bit b) = ((bit a2 <<< 1) ||| bit b2) → a = a2 ∧ b = b2 := by
  decide

theorem bit_row_lt_four : ∀ a b : Bool, ((bit a <<< 1) ||| bit b).val < 4 := by
  decide

theorem garble_bit_out_ok (type : gc_gate_type)
    (hty : type = GC_GATE_AND ∨ type = GC_GATE_NOT) (a b : uint8_t) :
    ∃ bo, garble_bit_out type a b = .ok bo := by
  rcases hty with rfl | rfl
  · exact ⟨_, rfl⟩
  · exact ⟨_, rfl⟩

/-- C10 (table well-formedness): for every AND or NOT gate of a circuit that
`gc_garble` garbled successfully (also a gate whose `in0` and `in1` are the same
wire), the row index `(permute_bit(Ka) << 1) | permute_bit(Kb)` of the plaintext
pair `(a, b)` is `(a << 1) | b`; the four pairs give four pairwise distinct
rows, and the iteration for `(a, b)` writes exactly that slot of the 4-entry
table, so each slot is written exactly once. -/
theorem gc_garble_table_rows_distinct (blake3 : keyed_hash) (s : gc_globals)
    (hs : gc_globals_reachable blake3 s) (plain : gc_circuit) (gc : gc_garbled_circuit)
    (h : (gc_garble blake3 s plain).1 = .ok gc) (pg : gc_gate) (hpg : pg ∈ plain.gates)
    (hty : pg.type = GC_GATE_AND ∨ pg.type = GC_GATE_NOT) :
    ∃ la la1 lb lb1,
      gc.wire_labels0[pg.in0]? = some la ∧ gc.wire_labels1[pg.in0]? = some la1 ∧
      gc.wire_labels0[pg.in1]? = some lb ∧ gc.wire_labels1[pg.in1]? = some lb1 ∧
      (∀ a b : Bool,
        gc_row (if bit a = 0 then la else la1) (if bit b = 0 then lb else lb1)
          = (bit a <<< 1) ||| bit b) ∧
      (∀ a b a2 b2 : Bool,
        gc_row (if bit a = 0 then la else la1) (if bit b = 0 then lb else lb1)
          = gc_row (if bit a2 = 0 then la else la1) (if bit b2 = 0 then lb else lb1) →
        a = a2 ∧ b = b2) ∧
      (∀ (a b : Bool) (gi : Nat) (table : List gc_label), table.length = 4 →
        ∃ ct, garble_row blake3 gc.wire_labels0 gc.wire_labels1 pg gi (bit a) (bit b) table
          = .ok (table.set
              (gc_row (if bit a = 0 then la else la1) (if bit b = 0 then lb else lb1)).val
              ct)) := by
  obtain ⟨ggs, _, htab, _⟩ := gc_garble_eq_ok blake3 s plain gc h
  obtain ⟨gj, gg, hgg⟩ := garble_tables_ok_mem blake3 _ _ _ _ _ htab pg hpg
  have hnx : pg.type ≠ GC_GATE_XOR := by
    rcases hty with e | e <;> rw [e] <;> decide
  obtain ⟨la, la1, lb, lb1, lo0, lo1, h0, h1, h2, h3, h4, h5⟩ :=
    garble_gate_ok_reads blake3 _ _ pg gj gg hnx hgg
  have hinv := gc_garble_free_xor blake3 s plain gc h
  have hp := gc_garble_permute0 blake3 s plain gc h
  have hdelta : gc_permute_bit (gc_init_delta blake3 s).GC_DELTA = 1 := by
    rw [gc_init_delta_reachable blake3 s hs, gc_permute_bit_delta]
  have ha : gc_permute_bit la = 0 := hp _ _ h0
  have hb : gc_permute_bit lb = 0 := hp _ _ h2
  have ha1 : gc_permute_bit la1 = 1 := by
    have e := hinv.2.2 _ _ h0
    rw [h1] at e
    cases e
    rw [gc_permute_bit_xor, ha, hdelta]; rfl
  have hb1 : gc_permute_bit lb1 = 1 := by
    have e := hinv.2.2 _ _ h2
    rw [h3] at e
    cases e
    rw [gc_permute_bit_xor, hb, hdelta]; rfl
  have hrow := gc_row_of_permute_bits la la1 lb lb1 ha ha1 hb hb1
  refine ⟨la, la1, lb, lb1, h0, h1, h2, h3, hrow, ?_, ?_⟩
  · intro a b a2 b2 e
    rw [hrow, hrow] at e
    exact bit_row_injective a b a2 b2 e
  · intro a b gi table hlen
    obtain ⟨bo, hbo⟩ := garble_bit_out_ok pg.type hty (bit a) (bit b)
    rw [garble_row_eq blake3 _ _ pg gi (bit a) (bit b) table la la1 lb lb1 lo0 lo1 bo
      h0 h1 h2 h3 hbo h4 h5]
    refine ⟨_, write_at_of_lt _ _ _ ?_⟩
    rw [hrow, hlen]
    exact bit_row_lt_four a b

set_option maxRecDepth 100000 in
theorem gc_garble_table_rows_distinct_witness :
    gc_globals_reachable toy_hash gc_globals_startup ∧
    (gc_garble toy_hash gc_globals_startup gc_circuit_and_2).1 = .ok toy_garbled_and_2 ∧
    ({ in0 := 0, in1 := 1, out := 2, type := GC_GATE_AND } : gc_gate) ∈ gc_circuit_and_2.gates ∧
    ∃ la la1 lb lb1,
      toy_garbled_and_2.wire_labels0[0]? = some la ∧
      toy_garbled_and_2.wire_labels1[0]? = some la1 ∧
      toy_garbled_and_2.wire_labels0[1]? = some lb ∧
      toy_garbled_and_2.wire_labels1[1]? = some lb1 ∧
      (∀ a b : Bool,
        gc_row (if bit a = 0 then la else la1) (if bit b = 0 then lb else lb1)
          = (bit a <<< 1) ||| bit b) ∧
      (∀ a b a2 b2 : Bool,
        gc_row (if bit a = 0 then la else la1) (if bit b = 0 then lb else lb1)
          = gc_row (if bit a2 = 0 then la else la1) (if bit b2 = 0 then lb else lb1) →
        a = a2 ∧ b = b2) ∧
      (∀ (a b : Bool) (gi : Nat) (table : List gc_label), table.length = 4 →
        ∃ ct, garble_row toy_hash toy_garbled_and_2.wire_labels0
            toy_garbled_and_2.wire_labels1
            { in0 := 0, in1 := 1, out := 2, type := GC_GATE_AND } gi (bit a) (bit b) table
          = .ok (table.set
              (gc_row (if bit a = 0 then la else la1) (if bit b = 0 then lb else lb1)).val
              ct)) :=
  ⟨gc_globals_reachable.startup, by decide, by decide,
    gc_garble_table_rows_distinct toy_hash gc_globals_startup gc_globals_reachable.startup
      gc_circuit_and_2 toy_garbled_and_2 (by decide)
      { in0 := 0, in1 := 1, out := 2, type := GC_GATE_AND } (by decide) (Or.inl rfl)⟩

/-! ## Soundness of the garbled path: the garbler -/

theorem nonzero_bit_bit (v : Bool) : nonzero_bit (bit v) = bit v := by
  cases v <;> decide

theorem nonzero_bit_and (a b : Bool) : nonzero_bit (bit a &&& bit b) = bit (a && b) := by
  cases a <;> cases b <;> decide

theorem nonzero_bit_xor (a b : Bool) : nonzero_bit (bit a ^^^ bit b) = bit (Bool.xor a b) := by
  cases a <;> cases b <;> decide

theorem zero_bit_bit (a : Bool) : zero_bit (bit a) = bit (!a) := by
  cases a <;> decide

theorem bit_and_one_eq_zero (v : Bool) : (bit v &&& 1 = 0) ↔ v = false := by
  cases v <;> decide

theorem bit_eq_zero (v : Bool) : (bit v = 0) ↔ v = false := by
  cases v <;> decide

theorem gc_row_lt_four (Ka Kb : gc_label) : (gc_row Ka Kb).val < 4 := by
  unfold gc_row
  rcases gc_permute_bit_cases Ka with h | h <;> rcases gc_permute_bit_cases Kb with h2 | h2 <;>
    rw [h, h2] <;> decide

theorem gates_wf_bounds (n : Nat) (g : gc_gate) (gs : List gc_gate) (W : List Nat)
    (h : gates_wf n (g :: gs) W) (hW : ∀ w ∈ W, w < n) :
    g.in0 < n ∧ g.in1 < n ∧ g.out < n ∧ (∀ w ∈ g.out :: W, w < n) := by
  obtain ⟨_, h0, h1, ho, _, _⟩ := h
  refine ⟨hW _ h0, hW _ h1, ho, ?_⟩
  intro w hw
  rcases List.mem_cons.mp hw with rfl | hw
  · exact ho
  · exact hW _ hw

theorem garble_xor_pass_wf (delta : gc_label) (n : Nat) (gs : List gc_gate) :
    ∀ (W : List Nat) (wl0 wl1 : List gc_label),
      gates_wf n gs W → (∀ w ∈ W, w < n) → wl0.length = n → wl1.length = n →
      ∃ a b, garble_xor_pass delta gs wl0 wl1 = .ok (a, b) ∧ a.length = n ∧
        (∀ w ∈ W, a[w]? = wl0[w]?) ∧
        (∀ g ∈ gs, g.type = GC_GATE_XOR →
          ∃ x y, a[g.in0]? = some x ∧ a[g.in1]? = some y ∧
            a[g.out]? = some (gc_label_xor x y)) := by
  induction gs with
  | nil =>
    intro W wl0 wl1 _ _ h0 _
    exact ⟨wl0, wl1, rfl, h0, fun _ _ => rfl, fun g hg => by cases hg⟩
  | cons g rest ih =>
    intro W wl0 wl1 hwf hW h0 h1
    obtain ⟨hi0, hi1, ho, hW2⟩ := gates_wf_bounds n g rest W hwf hW
    obtain ⟨_, hm0, hm1, _, hnot, hrest⟩ := hwf
    have hne0 : g.out ≠ g.in0 := fun e => hnot (e ▸ hm0)
    have hne1 : g.out ≠ g.in1 := fun e => hnot (e ▸ hm1)
    unfold garble_xor_pass
    by_cases hx : g.type = GC_GATE_XOR
    · rw [if_neg (not_not.mpr hx)]
      rw [read_at_of_lt wl0 g.in0 (by omega), read_at_of_lt wl0 g.in1 (by omega)]
      simp only [bind_ok]
      rw [write_at_of_lt _ _ _ (by omega), write_at_of_lt _ _ _ (by omega)]
      simp only [bind_ok]
      obtain ⟨a, b, hab, hlen, hagree, hxor⟩ :=
        ih (g.out :: W) (wl0.set g.out (gc_label_xor wl0[g.in0] wl0[g.in1]))
          (wl1.set g.out (gc_label_xor (gc_label_xor wl0[g.in0] wl0[g.in1]) delta))
          hrest hW2 (by simp [h0]) (by simp [h1])
      refine ⟨a, b, hab, hlen, ?_, ?_⟩
      · intro w hw
        rw [hagree w (List.mem_cons_of_mem _ hw), getElem?_set_eq_ite]
        have : g.out ≠ w := fun e => hnot (e ▸ hw)
        simp [this]
      · intro g2 hg2 hty
        rcases List.mem_cons.mp hg2 with rfl | hmem
        · refine ⟨wl0[g2.in0], wl0[g2.in1], ?_, ?_, ?_⟩
          · rw [hagree _ (List.mem_cons_of_mem _ hm0), getElem?_set_eq_ite]
            simp [hne0, List.getElem?_eq_getElem (show g2.in0 < wl0.length by omega)]
          · rw [hagree _ (List.mem_cons_of_mem _ hm1), getElem?_set_eq_ite]
            simp [hne1, List.getElem?_eq_getElem (show g2.in1 < wl0.length by omega)]
          · rw [hagree _ (List.mem_cons_self _ _), getElem?_set_eq_ite]
            simp [show g2.out < wl0.length by omega]
        · exact hxor g2 hmem hty
    · rw [if_pos hx]
      obtain ⟨a, b, hab, hlen, hagree, hxor⟩ := ih (g.out :: W) wl0 wl1 hrest hW2 h0 h1
      refine ⟨a, b, hab, hlen, fun w hw => hagree w (List.mem_cons_of_mem _ hw), ?_⟩
      intro g2 hg2 hty
      rcases List.mem_cons.mp hg2 with rfl | hmem
      · exact absurd hty hx
      · exact hxor g2 hmem hty

theorem garble_row_ok (blake3 : keyed_hash) (n : Nat) (wl0 wl1 : List gc_label) (pg : gc_gate)
    (gi : Nat) (a b : uint8_t) (table : List gc_label)
    (h0 : wl0.length = n) (h1 : wl1.length = n)
    (hi0 : pg.in0 < n) (hi1 : pg.in1 < n) (ho : pg.out < n)
    (hty : pg.type = GC_GATE_AND ∨ pg.type = GC_GATE_NOT) (hlen : table.length = 4) :
    ∃ t, garble_row blake3 wl0 wl1 pg gi a b table = .ok t ∧ t.length = 4 := by
  obtain ⟨bo, hbo⟩ := garble_bit_out_ok pg.type hty a b
  rw [garble_row_eq blake3 wl0 wl1 pg gi a b table wl0[pg.in0] wl1[pg.in0] wl0[pg.in1]
    wl1[pg.in1] wl0[pg.out] wl1[pg.out] bo
    (List.getElem?_eq_getElem _) (List.getElem?_eq_getElem _) (List.getElem?_eq_getElem _)
    (List.getElem?_eq_getElem _) hbo (List.getElem?_eq_getElem _)
    (List.getElem?_eq_getElem _)]
  rw [write_at_of_lt _ _ _ (by rw [hlen]; exact gc_row_lt_four _ _)]
  exact ⟨_, rfl, by simp [hlen]⟩

theorem garble_gate_ok (blake3 : keyed_hash) (n : Nat) (wl0 wl1 : List gc_label) (pg : gc_gate)
    (gi : Nat) (h0 : wl0.length = n) (h1 : wl1.length = n)
    (hi0 : pg.in0 < n) (hi1 : pg.in1 < n) (ho : pg.out < n)
    (hty : pg.type = GC_GATE_AND ∨ pg.type = GC_GATE_XOR ∨ pg.type = GC_GATE_NOT) :
    ∃ gg, garble_gate blake3 wl0 wl1 pg gi = .ok gg := by
  unfold garble_gate
  by_cases hx : pg.type = GC_GATE_XOR
  · simp only [hx, if_true]
    exact ⟨_, rfl⟩
  · have hty2 : pg.type = GC_GATE_AND ∨ pg.type = GC_GATE_NOT := by tauto
    simp only [hx, if_false]
    obtain ⟨t1, e1, l1⟩ := garble_row_ok blake3 n wl0 wl1 pg gi 0 0 _ h0 h1 hi0 hi1 ho hty2
      (List.length_replicate 4 gc_label_zero)
    obtain ⟨t2, e2, l2⟩ := garble_row_ok blake3 n wl0 wl1 pg gi 0 1 t1 h0 h1 hi0 hi1 ho hty2 l1
    obtain ⟨t3, e3, l3⟩ := garble_row_ok blake3 n wl0 wl1 pg gi 1 0 t2 h0 h1 hi0 hi1 ho hty2 l2
    obtain ⟨t4, e4, _⟩ := garble_row_ok blake3 n wl0 wl1 pg gi 1 1 t3 h0 h1 hi0 hi1 ho hty2 l3
    rw [e1, bind_ok, e2, bind_ok, e3, bind_ok, e4, bind_ok]
    exact ⟨_, rfl⟩

theorem garble_tables_ok (blake3 : keyed_hash) (n : Nat) (wl0 wl1 : List gc_label)
    (h0 : wl0.length = n) (h1 : wl1.length = n) (gs : List gc_gate) :
    ∀ (W : List Nat) (gi : Nat), gates_wf n gs W → (∀ w ∈ W, w < n) →
      ∃ ggs, garble_tables blake3 wl0 wl1 gs gi = .ok ggs := by
  induction gs with
  | nil => intro W gi _ _; exact ⟨[], rfl⟩
  | cons g rest ih =>
    intro W gi hwf hW
    obtain ⟨hi0, hi1, ho, hW2⟩ := gates_wf_bounds n g rest W hwf hW
    obtain ⟨hty, _, _, _, _, hrest⟩ := hwf
    obtain ⟨gg, hgg⟩ := garble_gate_ok blake3 n wl0 wl1 g gi h0 h1 hi0 hi1 ho hty
    obtain ⟨ggs, hggs⟩ := ih (g.out :: W) (gi + 1) hrest hW2
    unfold garble_tables
    rw [hgg, bind_ok, hggs, bind_ok]
    exact ⟨_, rfl⟩

theorem labels_ok_lookup (delta : gc_label) (n : Nat) (wl0 wl1 : List gc_label)
    (hl : labels_ok delta n wl0 wl1) (w : Nat) (hw : w < n) :
    ∃ l0, wl0[w]? = some l0 ∧ wl1[w]? = some (gc_label_xor l0 delta) ∧
      gc_permute_bit l0 = 0 ∧ gc_permute_bit (gc_label_xor l0 delta) = 1 := by
  obtain ⟨hf, hp, hd⟩ := hl
  obtain ⟨l0, h0, h1⟩ := free_xor_inv_lookup delta n wl0 wl1 hf w hw
  have hp0 : gc_permute_bit l0 = 0 := hp w l0 h0
  refine ⟨l0, h0, h1, hp0, ?_⟩
  rw [gc_permute_bit_xor, hp0, hd]
  rfl

theorem garble_bit_out_and (va vb : Bool) :
    garble_bit_out GC_GATE_AND (bit va) (bit vb) = .ok (bit (gate_fn GC_GATE_AND va vb)) := by
  cases va <;> cases vb <;> rfl

theorem garble_bit_out_not (va vb : Bool) :
    garble_bit_out GC_GATE_NOT (bit va) (bit vb) = .ok (bit (gate_fn GC_GATE_NOT va vb)) := by
  cases va <;> cases vb <;> rfl

theorem garble_bit_out_bit (type : gc_gate_type)
    (hty : type = GC_GATE_AND ∨ type = GC_GATE_NOT) (va vb : Bool) :
    garble_bit_out type (bit va) (bit vb) = .ok (bit (gate_fn type va vb)) := by
  rcases hty with rfl | rfl
  · exact garble_bit_out_and va vb
  · exact garble_bit_out_not va vb

theorem ite_bit_eq_zero {α : Type} (v : Bool) (x y : α) :
    (if bit v = 0 then x else y) = (if v then y else x) := by
  cases v <;> simp [bit]

theorem garble_row_bit (blake3 : keyed_hash) (wl0 wl1 : List gc_label) (pg : gc_gate) (gi : Nat)
    (va vb : Bool) (table : List gc_label) (la la1 lb lb1 lo0 lo1 : gc_label)
    (h0 : wl0[pg.in0]? = some la) (h1 : wl1[pg.in0]? = some la1)
    (h2 : wl0[pg.in1]? = some lb) (h3 : wl1[pg.in1]? = some lb1)
    (h4 : wl0[pg.out]? = some lo0) (h5 : wl1[pg.out]? = some lo1)
    (hty : pg.type = GC_GATE_AND ∨ pg.type = GC_GATE_NOT)
    (ha : gc_permute_bit la = 0) (ha1 : gc_permute_bit la1 = 1)
    (hb : gc_permute_bit lb = 0) (hb1 : gc_permute_bit lb1 = 1) :
    garble_row blake3 wl0 wl1 pg gi (bit va) (bit vb) table =
      write_at table ((bit va <<< 1) ||| bit vb).val
        (expected_ct blake3 la la1 lb lb1 lo0 lo1 pg.type gi va vb) := by
  rw [garble_row_eq blake3 wl0 wl1 pg gi (bit va) (bit vb) table la la1 lb lb1 lo0 lo1 _
    h0 h1 h2 h3 (garble_bit_out_bit pg.type hty va vb) h4 h5]
  rw [gc_row_of_permute_bits la la1 lb lb1 ha ha1 hb hb1]
  simp only [ite_bit_eq_zero, expected_ct]

theorem garble_gate_table (blake3 : keyed_hash) (wl0 wl1 : List gc_label) (pg : gc_gate)
    (gi : Nat) (la la1 lb lb1 lo0 lo1 : gc_label)
    (h0 : wl0[pg.in0]? = some la) (h1 : wl1[pg.in0]? = some la1)
    (h2 : wl0[pg.in1]? = some lb) (h3 : wl1[pg.in1]? = some lb1)
    (h4 : wl0[pg.out]? = some lo0) (h5 : wl1[pg.out]? = some lo1)
    (hty : pg.type = GC_GATE_AND ∨ pg.type = GC_GATE_NOT)
    (ha : gc_permute_bit la = 0) (ha1 : gc_permute_bit la1 = 1)
    (hb : gc_permute_bit lb = 0) (hb1 : gc_permute_bit lb1 = 1) :
    garble_gate blake3 wl0 wl1 pg gi = .ok
      { in0 := pg.in0, in1 := pg.in1, out := pg.out, type := pg.type,
        table :=
          [expected_ct blake3 la la1 lb lb1 lo0 lo1 pg.type gi false false,
           expected_ct blake3 la la1 lb lb1 lo0 lo1 pg.type gi false true,
           expected_ct blake3 la la1 lb lb1 lo0 lo1 pg.type gi true false,
           expected_ct blake3 la la1 lb lb1 lo0 lo1 pg.type gi true true] } := by
  have hnx : pg.type ≠ GC_GATE_XOR := by
    rcases hty with e | e <;> rw [e] <;> decide
  have key := fun va vb table =>
    garble_row_bit blake3 wl0 wl1 pg gi va vb table la la1 lb lb1 lo0 lo1
      h0 h1 h2 h3 h4 h5 hty ha ha1 hb hb1
  have e00 := key false false
  have e01 := key false true
  have e10 := key true false
  have e11 := key true true
  have b0 : bit false = 0 := rfl
  have b1 : bit true = 1 := rfl
  rw [b0] at e00 e01 e10
  rw [b1] at e01 e10 e11
  unfold garble_gate
  simp only [hnx, if_false]
  rw [e00]
  have w0 : ((0 : uint8_t) <<< 1 ||| 0).val = 0 := by decide
  have w1 : ((0 : uint8_t) <<< 1 ||| 1).val = 1 := by decide
  have w2 : ((1 : uint8_t) <<< 1 ||| 0).val = 2 := by decide
  have w3 : ((1 : uint8_t) <<< 1 ||| 1).val = 3 := by decide
  rw [w0, write_at_of_lt _ _ _ (by simp), bind_ok, e01, w1,
    write_at_of_lt _ _ _ (by simp), bind_ok, e10, w2,
    write_at_of_lt _ _ _ (by simp), bind_ok, e11, w3,
    write_at_of_lt _ _ _ (by simp), bind_ok]
  rfl

/-! ## Soundness of the garbled path: one gate -/

theorem u8_xor_swap_right (a d b : uint8_t) : (a ^^^ d) ^^^ b = (a ^^^ b) ^^^ d := by
  rw [u8_xor_assoc, u8_xor_comm d b, ← u8_xor_assoc]

theorem u8_xor_both (a d b : uint8_t) : (a ^^^ d) ^^^ (b ^^^ d) = a ^^^ b := by
  rw [u8_xor_comm b d, ← u8_xor_assoc, u8_xor_cancel_right]

theorem gc_label_xor_delta_right (a b d : gc_label) :
    gc_label_xor a (gc_label_xor b d) = gc_label_xor (gc_label_xor a b) d :=
  (gc_label_xor_assoc a b d).symm

theorem gc_label_xor_delta_left (a b d : gc_label) :
    gc_label_xor (gc_label_xor a d) b = gc_label_xor (gc_label_xor a b) d := by
  apply gc_label_ext; intro i
  simp only [gc_label_xor_get, u8_xor_swap_right]

theorem gc_label_xor_delta_both (a b d : gc_label) :
    gc_label_xor (gc_label_xor a d) (gc_label_xor b d) = gc_label_xor a b := by
  apply gc_label_ext; intro i
  simp only [gc_label_xor_get, u8_xor_both]

theorem xor_keystream_cancel (K : gc_label) (ks : Mathlib.Vector uint8_t GC_LABEL_BYTES) :
    xor_keystream (xor_keystream K ks) ks = K := by
  rw [xor_keystream_eq, xor_keystream_eq]
  exact gc_label_xor_cancel_right _ _

theorem gc_row_sel (la la1 lb lb1 : gc_label)
    (ha : gc_permute_bit la = 0) (ha1 : gc_permute_bit la1 = 1)
    (hb : gc_permute_bit lb = 0) (hb1 : gc_permute_bit lb1 = 1) (va vb : Bool) :
    gc_row (if va then la1 else la) (if vb then lb1 else lb) = (bit va <<< 1) ||| bit vb := by
  rw [← gc_row_of_permute_bits la la1 lb lb1 ha ha1 hb hb1 va vb]
  simp only [ite_bit_eq_zero]

theorem table_lookup (c00 c01 c10 c11 : gc_label) (va vb : Bool) :
    read_at [c00, c01, c10, c11] ((bit va <<< 1) ||| bit vb).val
      = .ok (if va then (if vb then c11 else c10) else (if vb then c01 else c00)) := by
  cases va <;> cases vb <;> rfl

theorem wires_related_set (n : Nat) (wl0 wl1 : List gc_label) (W : List Nat)
    (cv : List uint8_t) (gv : List gc_label) (h : wires_related n wl0 wl1 W cv gv)
    (out : Nat) (hout : out < n) (v : Bool) (l : gc_label)
    (hl : (if v then wl1 else wl0)[out]? = some l) :
    wires_related n wl0 wl1 (out :: W) (cv.set out (bit v)) (gv.set out l) := by
  obtain ⟨hc, hg, hw⟩ := h
  refine ⟨by simp [hc], by simp [hg], ?_⟩
  intro w hwm
  by_cases e : out = w
  · subst e
    refine ⟨v, l, ?_, hl, ?_⟩
    · rw [getElem?_set_eq_ite]; simp [hc, hout]
    · rw [getElem?_set_eq_ite]; simp [hg, hout]
  · have hwW : w ∈ W := by
      rcases List.mem_cons.mp hwm with rfl | h
      · exact absurd rfl e
      · exact h
    obtain ⟨v2, l2, a, b, c⟩ := hw w hwW
    refine ⟨v2, l2, ?_, b, ?_⟩
    · rw [getElem?_set_eq_ite]; simp [e, a]
    · rw [getElem?_set_eq_ite]; simp [e, c]

theorem sel_label (wl0 wl1 : List gc_label) (w : Nat) (v : Bool) (l0 l1 k : gc_label)
    (h0 : wl0[w]? = some l0) (h1 : wl1[w]? = some l1)
    (hk : (if v then wl1 else wl0)[w]? = some k) : k = if v then l1 else l0 := by
  cases v
  · simp only [Bool.false_eq_true, if_false] at hk ⊢
    rw [h0] at hk; cases hk; rfl
  · simp only [if_true] at hk ⊢
    rw [h1] at hk; cases hk; rfl

theorem eval_clear_gate_and (n : Nat) (g : gc_gate) (cv : List uint8_t) (va vb : Bool)
    (hty : g.type = GC_GATE_AND) (hlen : cv.length = n)
    (hi0 : g.in0 < n) (hi1 : g.in1 < n) (ho : g.out < n)
    (ha : cv[g.in0]? = some (bit va)) (hb : cv[g.in1]? = some (bit vb)) :
    eval_clear_gate n g cv = .ok (cv.set g.out (bit (va && vb))) := by
  unfold eval_clear_gate
  rw [if_neg (by omega), if_pos hty, if_neg (by omega), (read_at_eq_ok _ _ _).mpr ha,
    (read_at_eq_ok _ _ _).mpr hb]
  simp only [bind_ok]
  rw [write_at_of_lt _ _ _ (by omega), nonzero_bit_and]

theorem eval_clear_gate_xor (n : Nat) (g : gc_gate) (cv : List uint8_t) (va vb : Bool)
    (hty : g.type = GC_GATE_XOR) (hlen : cv.length = n)
    (hi0 : g.in0 < n) (hi1 : g.in1 < n) (ho : g.out < n)
    (ha : cv[g.in0]? = some (bit va)) (hb : cv[g.in1]? = some (bit vb)) :
    eval_clear_gate n g cv = .ok (cv.set g.out (bit (Bool.xor va vb))) := by
  unfold eval_clear_gate
  rw [if_neg (by omega), if_neg (by rw [hty]; decide), if_pos hty, if_neg (by omega),
    (read_at_eq_ok _ _ _).mpr ha, (read_at_eq_ok _ _ _).mpr hb]
  simp only [bind_ok]
  rw [write_at_of_lt _ _ _ (by omega), nonzero_bit_xor]

theorem eval_clear_gate_not (n : Nat) (g : gc_gate) (cv : List uint8_t) (va : Bool)
    (hty : g.type = GC_GATE_NOT) (hlen : cv.length = n)
    (hi0 : g.in0 < n) (ho : g.out < n)
    (ha : cv[g.in0]? = some (bit va)) :
    eval_clear_gate n g cv = .ok (cv.set g.out (bit (!va))) := by
  unfold eval_clear_gate
  rw [if_neg (by omega), if_neg (by rw [hty]; decide), if_neg (by rw [hty]; decide),
    if_pos hty, if_neg (by omega), (read_at_eq_ok _ _ _).mpr ha]
  simp only [bind_ok]
  rw [write_at_of_lt _ _ _ (by omega), zero_bit_bit]

theorem eval_garbled_gate_table (blake3 : keyed_hash) (n gi : Nat) (gv : List gc_label)
    (gg : gc_garbled_gate) (ka kb ct : gc_label) (hty : gg.type ≠ GC_GATE_XOR)
    (hlen : gv.length = n) (ho : gg.out < n)
    (ha : gv[gg.in0]? = some ka) (hb : gv[gg.in1]? = some kb)
    (hct : read_at gg.table (gc_row ka kb).val = .ok ct) :
    eval_garbled_gate blake3 n gg gi gv = .ok
      (gv.set gg.out
        (xor_keystream ct (gc_gate_prf blake3 ka kb (to_uint16 gi) (gc_row ka kb)))) := by
  unfold eval_garbled_gate
  rw [if_neg (by omega), if_neg hty, (read_at_eq_ok _ _ _).mpr ha,
    (read_at_eq_ok _ _ _).mpr hb]
  simp only [bind_ok]
  rw [hct]
  simp only [bind_ok]
  rw [write_at_of_lt _ _ _ (by omega)]

theorem eval_garbled_gate_xor (blake3 : keyed_hash) (n gi : Nat) (gv : List gc_label)
    (gg : gc_garbled_gate) (ka kb : gc_label) (hty : gg.type = GC_GATE_XOR)
    (hlen : gv.length = n) (ho : gg.out < n)
    (ha : gv[gg.in0]? = some ka) (hb : gv[gg.in1]? = some kb) :
    eval_garbled_gate blake3 n gg gi gv = .ok (gv.set gg.out (gc_label_xor ka kb)) := by
  unfold eval_garbled_gate
  rw [if_neg (by omega), if_pos hty, (read_at_eq_ok _ _ _).mpr ha,
    (read_at_eq_ok _ _ _).mpr hb]
  simp only [bind_ok]
  rw [write_at_of_lt _ _ _ (by omega)]

theorem eval_gate_step_table (blake3 : keyed_hash) (delta : gc_label) (n : Nat)
    (wl0 wl1 : List gc_label) (hl : labels_ok delta n wl0 wl1)
    (W : List Nat) (cv : List uint8_t) (gv : List gc_label)
    (hR : wires_related n wl0 wl1 W cv gv) (hW : ∀ w ∈ W, w < n)
    (g : gc_gate) (gi : Nat) (gg : gc_garbled_gate)
    (hty : g.type = GC_GATE_AND ∨ g.type = GC_GATE_NOT)
    (hm0 : g.in0 ∈ W) (hm1 : g.in1 ∈ W) (ho : g.out < n)
    (hgg : garble_gate blake3 wl0 wl1 g gi = .ok gg) :
    ∃ cv2 gv2, eval_clear_gate n g cv = .ok cv2 ∧
      eval_garbled_gate blake3 n gg gi gv = .ok gv2 ∧
      wires_related n wl0 wl1 (g.out :: W) cv2 gv2 := by
  obtain ⟨va, ka, hcva, hka, hgva⟩ := hR.2.2 g.in0 hm0
  obtain ⟨vb, kb, hcvb, hkb, hgvb⟩ := hR.2.2 g.in1 hm1
  have hi0 := hW _ hm0
  have hi1 := hW _ hm1
  obtain ⟨la, h0, h1, ha, ha1⟩ := labels_ok_lookup delta n wl0 wl1 hl g.in0 hi0
  obtain ⟨lb, h2, h3, hb, hb1⟩ := labels_ok_lookup delta n wl0 wl1 hl g.in1 hi1
  obtain ⟨lo, h4, h5, _, _⟩ := labels_ok_lookup delta n wl0 wl1 hl g.out ho
  have eka := sel_label wl0 wl1 g.in0 va _ _ ka h0 h1 hka
  have ekb := sel_label wl0 wl1 g.in1 vb _ _ kb h2 h3 hkb
  rw [garble_gate_table blake3 wl0 wl1 g gi la _ lb _ lo _ h0 h1 h2 h3 h4 h5 hty
    ha ha1 hb hb1] at hgg
  simp only [gc_result.ok.injEq] at hgg
  have hnx : gg.type ≠ GC_GATE_XOR := by
    rw [← hgg]
    rcases hty with e | e <;> simp only [e] <;> decide
  have hrow : gc_row ka kb = (bit va <<< 1) ||| bit vb := by
    rw [eka, ekb]
    exact gc_row_sel la _ lb _ ha ha1 hb hb1 va vb
  have hgo : gg.out = g.out := by rw [← hgg]
  have hg0 : gg.in0 = g.in0 := by rw [← hgg]
  have hg1 : gg.in1 = g.in1 := by rw [← hgg]
  have hct : read_at gg.table (gc_row ka kb).val = .ok
      (expected_ct blake3 la (gc_label_xor la delta) lb (gc_label_xor lb delta) lo
        (gc_label_xor lo delta) g.type gi va vb) := by
    rw [hrow, ← hgg]
    simp only []
    rw [table_lookup]
    cases va <;> cases vb <;> rfl
  have hgar := eval_garbled_gate_table blake3 n gi gv gg ka kb _ hnx hR.2.1
    (by rw [hgo]; exact ho) (by rw [hg0]; exact hgva) (by rw [hg1]; exact hgvb) hct
  have hcancel : xor_keystream
      (expected_ct blake3 la (gc_label_xor la delta) lb (gc_label_xor lb delta) lo
        (gc_label_xor lo delta) g.type gi va vb)
      (gc_gate_prf blake3 ka kb (to_uint16 gi) (gc_row ka kb))
      = if gate_fn g.type va vb then gc_label_xor lo delta else lo := by
    unfold expected_ct
    rw [hrow, eka, ekb]
    exact xor_keystream_cancel _ _
  rw [hcancel, hgo] at hgar
  have hclear : eval_clear_gate n g cv = .ok (cv.set g.out (bit (gate_fn g.type va vb))) := by
    rcases hty with e | e
    · rw [eval_clear_gate_and n g cv va vb e hR.1 hi0 hi1 ho hcva hcvb]
      simp [gate_fn, e]
    · rw [eval_clear_gate_not n g cv va e hR.1 hi0 ho hcva]
      simp [gate_fn, e]
  refine ⟨_, _, hclear, hgar, ?_⟩
  apply wires_related_set n wl0 wl1 W cv gv hR g.out ho
  cases gate_fn g.type va vb
  · simpa using h4
  · simpa using h5

theorem eval_gate_step_xor (blake3 : keyed_hash) (delta : gc_label) (n : Nat)
    (wl0 wl1 : List gc_label) (hl : labels_ok delta n wl0 wl1)
    (W : List Nat) (cv : List uint8_t) (gv : List gc_label)
    (hR : wires_related n wl0 wl1 W cv gv) (hW : ∀ w ∈ W, w < n)
    (g : gc_gate) (gi : Nat) (gg : gc_garbled_gate)
    (hty : g.type = GC_GATE_XOR)
    (hm0 : g.in0 ∈ W) (hm1 : g.in1 ∈ W) (ho : g.out < n)
    (hxor : ∃ x y, wl0[g.in0]? = some x ∧ wl0[g.in1]? = some y ∧
      wl0[g.out]? = some (gc_label_xor x y))
    (hgg : garble_gate blake3 wl0 wl1 g gi = .ok gg) :
    ∃ cv2 gv2, eval_clear_gate n g cv = .ok cv2 ∧
      eval_garbled_gate blake3 n gg gi gv = .ok gv2 ∧
      wires_related n wl0 wl1 (g.out :: W) cv2 gv2 := by
  obtain ⟨va, ka, hcva, hka, hgva⟩ := hR.2.2 g.in0 hm0
  obtain ⟨vb, kb, hcvb, hkb, hgvb⟩ := hR.2.2 g.in1 hm1
  have hi0 := hW _ hm0
  have hi1 := hW _ hm1
  obtain ⟨la, h0, h1, _, _⟩ := labels_ok_lookup delta n wl0 wl1 hl g.in0 hi0
  obtain ⟨lb, h2, h3, _, _⟩ := labels_ok_lookup delta n wl0 wl1 hl g.in1 hi1
  obtain ⟨lo, h4, h5, _, _⟩ := labels_ok_lookup delta n wl0 wl1 hl g.out ho
  have eka := sel_label wl0 wl1 g.in0 va _ _ ka h0 h1 hka
  have ekb := sel_label wl0 wl1 g.in1 vb _ _ kb h2 h3 hkb
  obtain ⟨x, y, hx, hy, hxy⟩ := hxor
  rw [h0] at hx; cases hx
  rw [h2] at hy; cases hy
  rw [h4] at hxy; cases hxy
  unfold garble_gate at hgg
  simp only [hty, if_true, gc_result.ok.injEq] at hgg
  have hgt : gg.type = GC_GATE_XOR := by rw [← hgg]
  have hgo : gg.out = g.out := by rw [← hgg]
  have hg0 : gg.in0 = g.in0 := by rw [← hgg]
  have hg1 : gg.in1 = g.in1 := by rw [← hgg]
  have hgar := eval_garbled_gate_xor blake3 n gi gv gg ka kb hgt hR.2.1
    (by rw [hgo]; exact ho) (by rw [hg0]; exact hgva) (by rw [hg1]; exact hgvb)
  rw [hgo] at hgar
  refine ⟨_, _, eval_clear_gate_xor n g cv va vb hty hR.1 hi0 hi1 ho hcva hcvb, hgar, ?_⟩
  apply wires_related_set n wl0 wl1 W cv gv hR g.out ho
  rw [eka, ekb]
  cases va <;> cases vb
  · simpa using h4
  · simp only [Bool.false_eq_true, if_false, if_true, Bool.xor_true, Bool.not_false,
      Bool.xor_false]
    rw [gc_label_xor_delta_right]; simpa using h5
  · simp only [Bool.false_eq_true, if_false, if_true, Bool.xor_false]
    rw [gc_label_xor_delta_left]; simpa using h5
  · simp only [if_true, Bool.xor_true, Bool.not_true, Bool.false_eq_true, if_false]
    rw [gc_label_xor_delta_both]; simpa using h4

/-! ## Soundness of the garbled path: the three loops -/

theorem eval_gates_sound (blake3 : keyed_hash) (delta : gc_label) (n : Nat)
    (wl0 wl1 : List gc_label) (hl : labels_ok delta n wl0 wl1) (gs : List gc_gate) :
    ∀ (W0 W : List Nat) (cv : List uint8_t) (gv : List gc_label) (gi : Nat)
      (ggs : List gc_garbled_gate),
      wires_related n wl0 wl1 W cv gv → (∀ w ∈ W, w < n) → gates_wf n gs W0 →
      (∀ w ∈ W0, w ∈ W) →
      (∀ g ∈ gs, g.type = GC_GATE_XOR →
        ∃ x y, wl0[g.in0]? = some x ∧ wl0[g.in1]? = some y ∧
          wl0[g.out]? = some (gc_label_xor x y)) →
      garble_tables blake3 wl0 wl1 gs gi = .ok ggs →
      ∃ cv2 gv2 W2, eval_clear_gates n gs cv = .ok cv2 ∧
        eval_garbled_gates blake3 n ggs gi gv = .ok gv2 ∧
        wires_related n wl0 wl1 W2 cv2 gv2 ∧ (∀ w ∈ W2, w < n) ∧
        (∀ w, w ∈ W ∨ w ∈ gs.map (fun g => g.out) → w ∈ W2) := by
  induction gs with
  | nil =>
    intro W0 W cv gv gi ggs hR hW _ _ _ htab
    simp only [garble_tables, gc_result.ok.injEq] at htab
    subst htab
    refine ⟨cv, gv, W, rfl, rfl, hR, hW, ?_⟩
    intro w hw
    rcases hw with hw | hw
    · exact hw
    · cases hw
  | cons g rest ih =>
    intro W0 W cv gv gi ggs hR hW hwf hsub0 hxor htab
    obtain ⟨hty, hm0, hm1, ho, _, hrest⟩ := hwf
    have hm0 := hsub0 _ hm0
    have hm1 := hsub0 _ hm1
    have hW2 : ∀ w ∈ g.out :: W, w < n := by
      intro w hw
      rcases List.mem_cons.mp hw with rfl | hw
      · exact ho
      · exact hW _ hw
    simp only [garble_tables, bind_eq_ok] at htab
    obtain ⟨gg, hgg, ggs2, hggs2, hcons⟩ := htab
    simp only [gc_result.ok.injEq] at hcons
    subst hcons
    have hstep : ∃ cv2 gv2, eval_clear_gate n g cv = .ok cv2 ∧
        eval_garbled_gate blake3 n gg gi gv = .ok gv2 ∧
        wires_related n wl0 wl1 (g.out :: W) cv2 gv2 := by
      by_cases hx : g.type = GC_GATE_XOR
      · exact eval_gate_step_xor blake3 delta n wl0 wl1 hl W cv gv hR hW g gi gg hx hm0 hm1 ho
          (hxor g (List.mem_cons_self _ _) hx) hgg
      · exact eval_gate_step_table blake3 delta n wl0 wl1 hl W cv gv hR hW g gi gg
          (by tauto) hm0 hm1 ho hgg
    obtain ⟨cv1, gv1, hc1, hg1, hR1⟩ := hstep
    have hsub1 : ∀ w ∈ g.out :: W0, w ∈ g.out :: W := by
      intro w hw
      rcases List.mem_cons.mp hw with rfl | hw
      · exact List.mem_cons_self _ _
      · exact List.mem_cons_of_mem _ (hsub0 _ hw)
    obtain ⟨cv2, gv2, W2, hc2, hg2, hR2, hW3, hsub⟩ :=
      ih (g.out :: W0) (g.out :: W) cv1 gv1 (gi + 1) ggs2 hR1 hW2 hrest hsub1
        (fun g2 hg2 => hxor g2 (List.mem_cons_of_mem _ hg2)) hggs2
    refine ⟨cv2, gv2, W2, ?_, ?_, hR2, hW3, ?_⟩
    · simp only [eval_clear_gates, hc1, bind_ok, hc2]
    · simp only [eval_garbled_gates, hg1, bind_ok, hg2]
    · intro w hw
      apply hsub
      rcases hw with hw | hw
      · left; exact List.mem_cons_of_mem _ hw
      · simp only [List.map_cons, List.mem_cons] at hw
        rcases hw with rfl | hw
        · left; exact List.mem_cons_self _ _
        · right; exact hw

theorem eval_inputs_sound (n : Nat) (gc : gc_garbled_circuit)
    (h0 : gc.wire_labels0.length = n) (h1 : gc.wire_labels1.length = n) (ws : List Nat) :
    ∀ (bits : List Bool) (W : List Nat) (cv : List uint8_t) (gv : List gc_label),
      bits.length = ws.length → (∀ w ∈ ws, w < n) →
      wires_related n gc.wire_labels0 gc.wire_labels1 W cv gv →
      ∃ ls cv2 gv2 W2, encode_input_labels gc ws (bits.map bit) = .ok ls ∧
        eval_clear_inputs n ws (bits.map bit) cv = .ok cv2 ∧
        eval_garbled_inputs n ws ls gv = .ok gv2 ∧
        wires_related n gc.wire_labels0 gc.wire_labels1 W2 cv2 gv2 ∧
        (∀ w, w ∈ W2 ↔ (w ∈ W ∨ w ∈ ws)) := by
  induction ws with
  | nil =>
    intro bits W cv gv _ _ hR
    refine ⟨[], cv, gv, W, ?_, rfl, rfl, hR, by simp⟩
    cases bits <;> rfl
  | cons w rest ih =>
    intro bits W cv gv hlen hws hR
    cases bits with
    | nil => simp at hlen
    | cons v vs =>
      have hw : w < n := hws w (List.mem_cons_self _ _)
      have hread : ∃ l, (if (bit v &&& 1) = 0 then read_at gc.wire_labels0 w
          else read_at gc.wire_labels1 w) = .ok l ∧
          (if v then gc.wire_labels1 else gc.wire_labels0)[w]? = some l := by
        cases v
        · refine ⟨gc.wire_labels0[w], ?_, ?_⟩
          · rw [if_pos (by decide)]; exact read_at_of_lt _ _ (by omega)
          · simp
        · refine ⟨gc.wire_labels1[w], ?_, ?_⟩
          · rw [if_neg (by decide)]; exact read_at_of_lt _ _ (by omega)
          · simp
      obtain ⟨l, hl1, hl2⟩ := hread
      have hR1 := wires_related_set n _ _ W cv gv hR w hw v l hl2
      obtain ⟨ls, cv2, gv2, W2, he, hc, hg, hR2, hmem⟩ :=
        ih vs (w :: W) _ _ (by simpa using hlen)
          (fun x hx => hws x (List.mem_cons_of_mem _ hx)) hR1
      refine ⟨l :: ls, cv2, gv2, W2, ?_, ?_, ?_, hR2, ?_⟩
      · simp only [List.map_cons, encode_input_labels, hl1, bind_ok, he]
      · simp only [List.map_cons, eval_clear_inputs]
        rw [if_neg (by omega), write_at_of_lt _ _ _ (by rw [hR.1]; exact hw), bind_ok,
          nonzero_bit_bit]
        exact hc
      · simp only [eval_garbled_inputs]
        rw [if_neg (by omega), write_at_of_lt _ _ _ (by rw [hR.2.1]; exact hw), bind_ok]
        exact hg
      · intro x
        rw [hmem x]
        simp only [List.mem_cons]
        tauto

theorem decode_label (delta : gc_label) (n : Nat) (wl0 wl1 : List gc_label)
    (hl : labels_ok delta n wl0 wl1) (w : Nat) (hw : w < n) (v : Bool) (l : gc_label)
    (hlab : (if v then wl1 else wl0)[w]? = some l) :
    ∃ L0 L1, read_at wl0 w = .ok L0 ∧ read_at wl1 w = .ok L1 ∧
      (gc_label_equal_ct l L0 = !v) ∧ (v = true → gc_label_equal_ct l L1 = true) := by
  obtain ⟨l0, h0, h1, hp0, hp1⟩ := labels_ok_lookup delta n wl0 wl1 hl w hw
  have e := sel_label wl0 wl1 w v _ _ l h0 h1 hlab
  refine ⟨l0, _, (read_at_eq_ok _ _ _).mpr h0, (read_at_eq_ok _ _ _).mpr h1, ?_, ?_⟩
  · cases v
    · simp only [Bool.false_eq_true, if_false] at e
      rw [e]
      simpa using (gc_label_equal_ct_iff l0 l0).mpr rfl
    · simp only [if_true] at e
      rw [e]
      have hne : gc_label_equal_ct (gc_label_xor l0 delta) l0 ≠ true := by
        intro hct
        have heq := (gc_label_equal_ct_iff _ _).mp hct
        rw [heq, hp0] at hp1
        exact absurd hp1 (by decide)
      simpa using hne
  · intro hv
    subst hv
    simp only [if_true] at e
    rw [e]
    exact (gc_label_equal_ct_iff _ _).mpr rfl

theorem eval_outputs_sound (delta : gc_label) (n : Nat) (wl0 wl1 : List gc_label)
    (hl : labels_ok delta n wl0 wl1) (W : List Nat) (cv : List uint8_t) (gv : List gc_label)
    (hR : wires_related n wl0 wl1 W cv gv) (hW : ∀ w ∈ W, w < n) (outs : List Nat) :
    (∀ w ∈ outs, w ∈ W) →
    ∃ bits ls, eval_clear_outputs n cv outs = .ok bits ∧
      eval_garbled_outputs n gv outs = .ok ls ∧
      decode_outputs_loop wl0 wl1 outs ls = .ok bits := by
  induction outs with
  | nil => intro _; exact ⟨[], [], rfl, rfl, rfl⟩
  | cons w rest ih =>
    intro hmem
    obtain ⟨bits, ls, hc, hg, hd⟩ := ih (fun x hx => hmem x (List.mem_cons_of_mem _ hx))
    have hwW := hmem w (List.mem_cons_self _ _)
    have hw := hW w hwW
    obtain ⟨v, l, hcv, hlab, hgv⟩ := hR.2.2 w hwW
    obtain ⟨L0, L1, hr0, hr1, he0, he1⟩ := decode_label delta n wl0 wl1 hl w hw v l hlab
    refine ⟨bit v :: bits, l :: ls, ?_, ?_, ?_⟩
    · simp only [eval_clear_outputs]
      rw [if_neg (by omega), (read_at_eq_ok _ _ _).mpr hcv, bind_ok, hc, bind_ok,
        nonzero_bit_bit]
    · simp only [eval_garbled_outputs]
      rw [if_neg (by omega), (read_at_eq_ok _ _ _).mpr hgv, bind_ok, hg, bind_ok]
    · simp only [decode_outputs_loop, hr0, hr1, bind_ok, he0, hd]
      cases v
      · simp [bit]
      · simp [bit, he1 rfl]

/-! ## Soundness of the garbled path -/

/-- For a circuit in single-assignment topological order, every keyed hash,
every reachable state of the file-scope variables and all input bits:
`gc_garble`, the label selection, `gc_eval_garbled` and `gc_decode_outputs` all
return 0, and the decoded bits are those `gc_eval_clear` returns. -/
theorem garbled_path_sound (blake3 : keyed_hash) (s : gc_globals)
    (hs : gc_globals_reachable blake3 s) (c : gc_circuit) (hwf : circuit_wf c)
    (bits : List Bool) (hlen : bits.length = c.n_inputs) :
    ∃ gc in_labels out_labels out_bits,
      (gc_garble blake3 s c).1 = .ok gc ∧
      encode_input_labels gc gc.input_wires (bits.map bit) = .ok in_labels ∧
      gc_eval_garbled blake3 gc in_labels = .ok out_labels ∧
      gc_decode_outputs gc out_labels = .ok out_bits ∧
      gc_eval_clear c (bits.map bit) = .ok out_bits := by
  obtain ⟨hni, hno, hnw, hin, hg, hout⟩ := hwf
  obtain ⟨a, b, hab, hlen_a, _, hxor⟩ :=
    garble_xor_pass_wf (gc_init_delta blake3 s).GC_DELTA c.n_wires c.gates c.input_wires
      ((List.range c.n_wires).map fun w => gc_derive_label0 blake3 w)
      ((List.range c.n_wires).map fun w =>
        gc_label_xor (gc_derive_label0 blake3 w) (gc_init_delta blake3 s).GC_DELTA)
      hg hin (by simp) (by simp)
  have hfx := garble_xor_pass_inv _ c.n_wires _ _ _ _ _ hab (free_xor_inv_init blake3 _ _)
  have hp0 := garble_xor_pass_permute0 _ _ _ _ _ _ hab (permute0_inv_init blake3 _)
  have hl : labels_ok (gc_init_delta blake3 s).GC_DELTA c.n_wires a b :=
    ⟨hfx, hp0, by rw [gc_init_delta_reachable blake3 s hs, gc_permute_bit_delta]⟩
  obtain ⟨ggs, htab⟩ :=
    garble_tables_ok blake3 c.n_wires a b hlen_a hfx.2.1 c.gates c.input_wires 0 hg hin
  have hgc : (gc_garble blake3 s c).1 = .ok
      { n_wires := c.n_wires, input_wires := c.input_wires, output_wires := c.output_wires,
        gates := ggs, wire_labels0 := a, wire_labels1 := b } := by
    simp only [gc_garble, hab, bind_ok, htab]
  have hR0 : wires_related c.n_wires a b [] (List.replicate c.n_wires 0)
      (List.replicate c.n_wires gc_label_zero) :=
    ⟨by simp, by simp, fun w hw => by cases hw⟩
  obtain ⟨ls, cv1, gv1, W1, he, hc1, hg1, hR1, hm1⟩ :=
    eval_inputs_sound c.n_wires
      { n_wires := c.n_wires, input_wires := c.input_wires, output_wires := c.output_wires,
        gates := ggs, wire_labels0 := a, wire_labels1 := b }
      hlen_a hfx.2.1 c.input_wires bits [] _ _ hlen hin hR0
  have hW1 : ∀ w ∈ W1, w < c.n_wires := by
    intro w hw
    rcases (hm1 w).mp hw with h | h
    · cases h
    · exact hin w h
  obtain ⟨cv2, gv2, W2, hc2, hg2, hR2, hW2, hsub⟩ :=
    eval_gates_sound blake3 _ c.n_wires a b hl c.gates c.input_wires W1 cv1 gv1 0 ggs hR1 hW1 hg
      (fun w hw => (hm1 w).mpr (Or.inr hw)) hxor htab
  have houtW : ∀ w ∈ c.output_wires, w ∈ W2 := by
    intro w hw
    apply hsub
    rcases hout w hw with h | h
    · left; exact (hm1 w).mpr (Or.inr h)
    · right; exact h
  obtain ⟨obits, ols, hc3, hg3, hd3⟩ :=
    eval_outputs_sound _ c.n_wires a b hl W2 cv2 gv2 hR2 hW2 c.output_wires houtW
  refine ⟨_, ls, ols, obits, hgc, he, ?_, hd3, ?_⟩
  · simp only [gc_eval_garbled, hg1, bind_ok, hg2, hg3]
  · unfold gc_eval_clear
    rw [if_neg (by omega)]
    simp only [hc1, bind_ok, hc2, hc3]

theorem garbled_roundtrip_sound (blake3 : keyed_hash) (s : gc_globals)
    (hs : gc_globals_reachable blake3 s) (c : gc_circuit) (hwf : circuit_wf c)
    (bits : List Bool) (hlen : bits.length = c.n_inputs) :
    ∃ out_bits, gc_eval_clear c (bits.map bit) = .ok out_bits ∧
      garbled_roundtrip blake3 s c (bits.map bit) = .ok out_bits := by
  obtain ⟨gc, ls, ols, obits, h1, h2, h3, h4, h5⟩ :=
    garbled_path_sound blake3 s hs c hwf bits hlen
  refine ⟨obits, h5, ?_⟩
  simp only [garbled_roundtrip, h1, bind_ok, h2, h3, h4]

/-- C1: for each of `gc_circuit_and_2`, `gc_circuit_xor_2` and
`gc_circuit_eq_2bit`, every assignment of input bits and every keyed hash:
`gc_garble` succeeds, `gc_eval_garbled` on the labels selected by the input
bits succeeds, `gc_decode_outputs` succeeds, and the decoded bits are the bits
`gc_eval_clear` returns on the same inputs. -/
theorem fixed_circuits_garbled_eq_clear (blake3 : keyed_hash) (s : gc_globals)
    (hs : gc_globals_reachable blake3 s) (c : gc_circuit)
    (hc : c = gc_circuit_and_2 ∨ c = gc_circuit_xor_2 ∨ c = gc_circuit_eq_2bit)
    (bits : List Bool) (hlen : bits.length = c.n_inputs) :
    ∃ gc in_labels out_labels out_bits,
      (gc_garble blake3 s c).1 = .ok gc ∧
      encode_input_labels gc gc.input_wires (bits.map bit) = .ok in_labels ∧
      gc_eval_garbled blake3 gc in_labels = .ok out_labels ∧
      gc_decode_outputs gc out_labels = .ok out_bits ∧
      gc_eval_clear c (bits.map bit) = .ok out_bits := by
  have hwf : circuit_wf c := by
    rcases hc with rfl | rfl | rfl <;> decide
  exact garbled_path_sound blake3 s hs c hwf bits hlen

theorem fixed_circuits_garbled_eq_clear_witness :
    gc_globals_reachable toy_hash gc_globals_startup ∧
    [true, false, true, true].length = gc_circuit_eq_2bit.n_inputs ∧
    ∃ gc in_labels out_labels out_bits,
      (gc_garble toy_hash gc_globals_startup gc_circuit_eq_2bit).1 = .ok gc ∧
      encode_input_labels gc gc.input_wires ([true, false, true, true].map bit)
        = .ok in_labels ∧
      gc_eval_garbled toy_hash gc in_labels = .ok out_labels ∧
      gc_decode_outputs gc out_labels = .ok out_bits ∧
      gc_eval_clear gc_circuit_eq_2bit ([true, false, true, true].map bit) = .ok out_bits :=
  ⟨gc_globals_reachable.startup, by decide,
    fixed_circuits_garbled_eq_clear toy_hash gc_globals_startup gc_globals_reachable.startup
      gc_circuit_eq_2bit (Or.inr (Or.inr rfl)) [true, false, true, true] (by decide)⟩

set_option maxRecDepth 100000 in
/-- C2, as stated, fails: three circuits meet the data-model invariants the
spec lists, the clear evaluator returns 0 on them, and the garbled round trip
ends in the decode error `-2`. In the first an XOR gate writes a wire that
already holds a value (a primary input), so the label the first pass of
`gc_garble` stores for that wire no longer matches the labels handed to the
evaluator; in the second the `in1` of a NOT gate names a wire that is never
written, which the clear evaluator ignores and the garbled path reads; in the
third the listed output wire is never written. The hash used is `toy_hash`;
`xor_overwrite_decode_error` below shows the first failure for every keyed hash
whose derived label of wire 1 is not all-zero. -/
theorem garbling_soundness_counterexample :
    (spec_circuit_invariants circuit_xor_overwrite ∧
      gc_eval_clear circuit_xor_overwrite [1, 0] = .ok [1] ∧
      garbled_roundtrip toy_hash gc_globals_startup circuit_xor_overwrite [1, 0]
        = .error (-2)) ∧
    (spec_circuit_invariants circuit_not_unwritten_in1 ∧
      gc_eval_clear circuit_not_unwritten_in1 [1] = .ok [0] ∧
      garbled_roundtrip toy_hash gc_globals_startup circuit_not_unwritten_in1 [1]
        = .error (-2)) ∧
    (spec_circuit_invariants circuit_unwritten_output ∧
      gc_eval_clear circuit_unwritten_output [1] = .ok [0] ∧
      garbled_roundtrip toy_hash gc_globals_startup circuit_unwritten_output [1]
        = .error (-2)) := by
  decide

/-- C2, amended: for every circuit in single-assignment topological order
(sizes at least 1; known gate types; listed input wires and every gate's `out`
below `n_wires`; `in0` and `in1` of every gate, also of a NOT gate, a listed
input wire or the output of an earlier gate; no gate output a listed input wire
or the output of an earlier gate; every listed output wire a listed input wire
or a gate output), every keyed hash and every input bit assignment, the clear
evaluator returns 0 and the garbled round trip (garble, select labels,
evaluate, decode) returns 0 with exactly the same bits. -/
theorem garbling_soundness_wf (blake3 : keyed_hash) (s : gc_globals)
    (hs : gc_globals_reachable blake3 s) (c : gc_circuit) (hwf : circuit_wf c)
    (bits : List Bool) (hlen : bits.length = c.n_inputs) :
    (∃ out_bits, gc_eval_clear c (bits.map bit) = .ok out_bits) ∧
      garbled_roundtrip blake3 s c (bits.map bit) = gc_eval_clear c (bits.map bit) := by
  obtain ⟨obits, h1, h2⟩ := garbled_roundtrip_sound blake3 s hs c hwf bits hlen
  exact ⟨⟨obits, h1⟩, by rw [h1, h2]⟩

theorem garbling_soundness_wf_witness :
    gc_globals_reachable toy_hash gc_globals_startup ∧
    circuit_wf gc_circuit_eq_2bit ∧
    [true, true, true, true].length = gc_circuit_eq_2bit.n_inputs ∧
    (∃ out_bits,
      gc_eval_clear gc_circuit_eq_2bit ([true, true, true, true].map bit) = .ok out_bits) ∧
    garbled_roundtrip toy_hash gc_globals_startup gc_circuit_eq_2bit
        ([true, true, true, true].map bit)
      = gc_eval_clear gc_circuit_eq_2bit ([true, true, true, true].map bit) :=
  ⟨gc_globals_reachable.startup, by decide, by decide,
    garbling_soundness_wf toy_hash gc_globals_startup gc_globals_reachable.startup
      gc_circuit_eq_2bit (by decide) [true, true, true, true] (by decide)⟩

/-! ## The equality circuit: normal form -/

theorem to_uint16_of_lt (x : Nat) (h : x < 65536) : to_uint16 x = x :=
  Nat.mod_eq_of_lt h

theorem eq_and_chain_eq (k : Nat) (hk : k ≤ 512) (hk2 : 2 ≤ k) (l : List Nat) :
    ∀ (acc : Nat), (∀ i ∈ l, 1 ≤ i ∧ i ≤ k - 1) →
      eq_and_chain k (3 * k) (4 * k) (5 * k - 2) l acc = eq_acc_chain k l acc := by
  induction l with
  | nil => intro acc _; rfl
  | cons i rest ih =>
    intro acc hl
    obtain ⟨hi1, hi2⟩ := hl i (List.mem_cons_self _ _)
    have hna : (if i = k - 1 then 5 * k - 2 else to_uint16 (4 * k + (i - 1)))
        = 4 * k + i - 1 := by
      split
      · omega
      · rw [to_uint16_of_lt _ (by omega)]; omega
    simp only [eq_and_chain, eq_acc_chain]
    rw [to_uint16_of_lt _ (by omega), hna, ih _ (fun j hj => hl j (List.mem_cons_of_mem _ hj))]

theorem build_eq_circuit_bits_eq (k : Nat) (h1 : 1 ≤ k) (h2 : k ≤ 512) :
    build_eq_circuit_bits k = some (eq_circuit k) := by
  unfold build_eq_circuit_bits
  rw [if_neg (by omega)]
  have hk : to_uint16 k = k := to_uint16_of_lt _ (by omega)
  simp only [hk]
  have e2 : to_uint16 (2 * k) = 2 * k := to_uint16_of_lt _ (by omega)
  have e3 : to_uint16 (3 * k) = 3 * k := to_uint16_of_lt _ (by omega)
  have e4 : to_uint16 (4 * k) = 4 * k := to_uint16_of_lt _ (by omega)
  simp only [e2, e3, e4]
  have hx : (List.range k).map (fun i =>
      ({ in0 := i, in1 := to_uint16 (k + i), out := to_uint16 (2 * k + i),
         type := GC_GATE_XOR } : gc_gate)) = (List.range k).map (eq_xor_gate k) := by
    apply List.map_congr_left
    intro i hi
    have := List.mem_range.mp hi
    rw [to_uint16_of_lt _ (by omega), to_uint16_of_lt _ (by omega)]
    rfl
  have hn : (List.range k).map (fun i =>
      ({ in0 := to_uint16 (2 * k + i), in1 := 0, out := to_uint16 (3 * k + i),
         type := GC_GATE_NOT } : gc_gate)) = (List.range k).map (eq_not_gate k) := by
    apply List.map_congr_left
    intro i hi
    have := List.mem_range.mp hi
    rw [to_uint16_of_lt _ (by omega), to_uint16_of_lt _ (by omega)]
    rfl
  rw [hx, hn]
  by_cases hk1 : k = 1
  · subst hk1
    rfl
  · have ho : to_uint16 (4 * k + if k > 1 then k - 2 else 0) = 5 * k - 2 := by
      rw [if_pos (by omega), to_uint16_of_lt _ (by omega)]; omega
    have hw : to_uint16 (if k = 1 then 4 * k + 1 else 4 * k + (k - 1)) = 5 * k - 1 := by
      rw [if_neg hk1, to_uint16_of_lt _ (by omega)]; omega
    rw [ho, hw]
    simp only [eq_circuit, hk1, if_false]
    rw [eq_and_chain_eq k h2 (by omega) _ _ (by
      intro i hi
      rw [List.mem_range'_1] at hi
      omega)]

/-! ## The equality circuit: clear evaluation -/

theorem set_append_replicate {α : Type} (F : List α) (r : Nat) (z v : α) :
    (F ++ List.replicate (r + 1) z).set F.length v = (F ++ [v]) ++ List.replicate r z := by
  induction F with
  | nil => simp [List.replicate_succ]
  | cons x xs ih => simp only [List.cons_append, List.length_cons, List.set_cons_succ, ih]

theorem getElem?_append_of_some {α : Type} (F G : List α) (i : Nat) (x : α)
    (h : F[i]? = some x) : (F ++ G)[i]? = some x := by
  have hlt : i < F.length := by
    by_contra hc
    rw [List.getElem?_eq_none (by omega)] at h
    cases h
  rw [List.getElem?_append_left hlt]
  exact h

theorem lt_of_getElem?_eq_some {α : Type} (F : List α) (i : Nat) (x : α)
    (h : F[i]? = some x) : i < F.length := by
  by_contra hc
  rw [List.getElem?_eq_none (by omega)] at h
  cases h

theorem eval_clear_gate_fill (n : Nat) (F : List uint8_t) (r : Nat) (g : gc_gate) (x y : Bool)
    (hn : n = F.length + r + 1)
    (hty : g.type = GC_GATE_AND ∨ g.type = GC_GATE_XOR ∨ g.type = GC_GATE_NOT)
    (hout : g.out = F.length)
    (h0 : F[g.in0]? = some (bit x)) (h1 : g.type ≠ GC_GATE_NOT → F[g.in1]? = some (bit y)) :
    eval_clear_gate n g (F ++ List.replicate (r + 1) 0) =
      .ok ((F ++ [bit (clear_fn g.type x y)]) ++ List.replicate r 0) := by
  have hlen : (F ++ List.replicate (r + 1) (0 : uint8_t)).length = n := by
    simp only [List.length_append, List.length_replicate]; omega
  have hi0 : g.in0 < n := by
    have := lt_of_getElem?_eq_some F _ _ h0; omega
  have ho : g.out < n := by omega
  have h0a := getElem?_append_of_some F (List.replicate (r + 1) 0) _ _ h0
  rcases hty with e | e | e
  · have h1s := h1 (by rw [e]; decide)
    have hi1 : g.in1 < n := by
      have := lt_of_getElem?_eq_some F _ _ h1s; omega
    have h1a := getElem?_append_of_some F (List.replicate (r + 1) 0) _ _ h1s
    rw [eval_clear_gate_and n g _ x y e hlen hi0 hi1 ho h0a h1a, hout, set_append_replicate]
    simp [clear_fn, e]
  · have h1s := h1 (by rw [e]; decide)
    have hi1 : g.in1 < n := by
      have := lt_of_getElem?_eq_some F _ _ h1s; omega
    have h1a := getElem?_append_of_some F (List.replicate (r + 1) 0) _ _ h1s
    rw [eval_clear_gate_xor n g _ x y e hlen hi0 hi1 ho h0a h1a, hout, set_append_replicate]
    simp [clear_fn, e]
  · rw [eval_clear_gate_not n g _ x e hlen hi0 ho h0a, hout, set_append_replicate]
    simp [clear_fn, e]

theorem eval_clear_inputs_fill (n : Nat) (xs : List Bool) :
    ∀ (s : Nat) (F : List uint8_t) (r : Nat), F.length = s → n = s + xs.length + r →
      eval_clear_inputs n (List.range' s xs.length) (xs.map bit)
          (F ++ List.replicate (xs.length + r) 0)
        = .ok (F ++ xs.map bit ++ List.replicate r 0) := by
  induction xs with
  | nil =>
    intro s F r _ _
    simp [eval_clear_inputs]
  | cons x rest ih =>
    intro s F r hF hn
    simp only [List.length_cons] at hn ⊢
    rw [List.range'_succ]
    simp only [List.map_cons, eval_clear_inputs]
    rw [if_neg (by omega)]
    have e : rest.length + 1 + r = (rest.length + r) + 1 := by omega
    rw [e, write_at_of_lt _ _ _ (by simp; omega), bind_ok, ← hF, set_append_replicate,
      nonzero_bit_bit]
    rw [ih (F.length + 1) (F ++ [bit x]) r (by simp) (by omega)]
    simp

theorem eval_xor_phase (k n : Nat) (A B : Nat → Bool) (m : Nat) :
    ∀ (s : Nat) (F : List uint8_t) (r : Nat),
      s + m ≤ k → F.length = 2 * k + s → n = F.length + m + r →
      (∀ i, i < k → F[i]? = some (bit (A i)) ∧ F[k + i]? = some (bit (B i))) →
      eval_clear_gates n ((List.range' s m).map (eq_xor_gate k))
          (F ++ List.replicate (m + r) 0)
        = .ok (F ++ (List.range' s m).map (fun i => bit (Bool.xor (A i) (B i)))
            ++ List.replicate r 0) := by
  induction m with
  | zero =>
    intro s F r _ _ _ _
    simp [eval_clear_gates]
  | succ m ih =>
    intro s F r hs hF hn hAB
    rw [List.range'_succ]
    simp only [List.map_cons, eval_clear_gates]
    have e : m + 1 + r = (m + r) + 1 := by omega
    rw [e, eval_clear_gate_fill n F (m + r) (eq_xor_gate k s) (A s) (B s) (by omega)
      (Or.inr (Or.inl rfl)) (by simp [eq_xor_gate, hF]) (hAB s (by omega)).1
      (fun _ => (hAB s (by omega)).2), bind_ok]
    rw [ih (s + 1) _ r (by omega) (by simp [hF]; omega) (by simp; omega) (by
      intro i hi
      exact ⟨getElem?_append_of_some _ _ _ _ (hAB i hi).1,
        getElem?_append_of_some _ _ _ _ (hAB i hi).2⟩)]
    simp [clear_fn, eq_xor_gate]

theorem eval_not_phase (k n : Nat) (X : Nat → Bool) (m : Nat) :
    ∀ (s : Nat) (F : List uint8_t) (r : Nat),
      s + m ≤ k → F.length = 3 * k + s → n = F.length + m + r →
      (∀ i, i < k → F[2 * k + i]? = some (bit (X i))) →
      eval_clear_gates n ((List.range' s m).map (eq_not_gate k))
          (F ++ List.replicate (m + r) 0)
        = .ok (F ++ (List.range' s m).map (fun i => bit (!(X i)))
            ++ List.replicate r 0) := by
  induction m with
  | zero =>
    intro s F r _ _ _ _
    simp [eval_clear_gates]
  | succ m ih =>
    intro s F r hs hF hn hX
    rw [List.range'_succ]
    simp only [List.map_cons, eval_clear_gates]
    have e : m + 1 + r = (m + r) + 1 := by omega
    rw [e, eval_clear_gate_fill n F (m + r) (eq_not_gate k s) (X s) false (by omega)
      (Or.inr (Or.inr rfl)) (by simp [eq_not_gate, hF]) (hX s (by omega))
      (fun h => absurd rfl h), bind_ok]
    rw [ih (s + 1) _ r (by omega) (by simp [hF]; omega) (by simp; omega) (by
      intro i hi
      exact getElem?_append_of_some _ _ _ _ (hX i hi))]
    simp [clear_fn, eq_not_gate]

theorem eval_and_phase (k n : Nat) (E : Nat → Bool) (m : Nat) :
    ∀ (s acc : Nat) (F : List uint8_t) (r : Nat) (p : Bool),
      1 ≤ s → s + m ≤ k → F.length = 4 * k + s - 1 → n = F.length + m + r →
      (∀ i, i < k → F[3 * k + i]? = some (bit (E i))) →
      F[acc]? = some (bit p) →
      ∃ L accf, eval_clear_gates n (eq_acc_chain k (List.range' s m) acc)
          (F ++ List.replicate (m + r) 0) = .ok (L ++ List.replicate r 0) ∧
        L.length = F.length + m ∧
        L[accf]? = some (bit (p && (List.range' s m).all E)) ∧
        (1 ≤ m → accf = L.length - 1) := by
  induction m with
  | zero =>
    intro s acc F r p _ _ _ _ _ hacc
    refine ⟨F, acc, ?_, rfl, ?_, ?_⟩
    · simp [eq_acc_chain, eval_clear_gates]
    · simpa using hacc
    · intro h; omega
  | succ m ih =>
    intro s acc F r p hs1 hs hF hn hE hacc
    rw [List.range'_succ]
    simp only [eq_acc_chain, eval_clear_gates]
    have e : m + 1 + r = (m + r) + 1 := by omega
    rw [e, eval_clear_gate_fill n F (m + r)
      { in0 := acc, in1 := 3 * k + s, out := 4 * k + s - 1, type := GC_GATE_AND } p (E s)
      (by omega) (Or.inl rfl) (by simp [hF]) hacc (fun _ => hE s (by omega)), bind_ok]
    have hacc2 : (F ++ [bit (clear_fn GC_GATE_AND p (E s))])[4 * k + s - 1]?
        = some (bit (p && E s)) := by
      rw [← hF, List.getElem?_append_right (Nat.le_refl _)]
      simp [clear_fn]
    obtain ⟨L, accf, hev, hL, hval, hlast⟩ :=
      ih (s + 1) (4 * k + s - 1) (F ++ [bit (clear_fn GC_GATE_AND p (E s))]) r (p && E s)
        (by omega) (by omega) (by simp [hF]; omega) (by simp; omega)
        (fun i hi => getElem?_append_of_some _ _ _ _ (hE i hi)) hacc2
    by_cases hm : m = 0
    · subst hm
      refine ⟨L, 4 * k + s - 1, hev, by simp at hL ⊢; omega, ?_, ?_⟩
      · simp only [List.range'_zero, eq_acc_chain, eval_clear_gates, Nat.zero_add,
          gc_result.ok.injEq] at hev
        have hLe : L = F ++ [bit (clear_fn GC_GATE_AND p (E s))] :=
          (List.append_cancel_right hev).symm
        rw [hLe]
        simpa [List.range'_succ] using hacc2
      · intro _
        simp at hL
        omega
    · refine ⟨L, accf, hev, by simp at hL ⊢; omega, ?_, ?_⟩
      · rw [hval]
        simp [List.range'_succ, Bool.and_assoc]
      · intro _
        exact hlast (by omega)

theorem eval_clear_gates_append (n : Nat) (l1 l2 : List gc_gate) :
    ∀ (cv : List uint8_t), eval_clear_gates n (l1 ++ l2) cv
      = (eval_clear_gates n l1 cv).bind (eval_clear_gates n l2) := by
  induction l1 with
  | nil => intro cv; rfl
  | cons g rest ih =>
    intro cv
    simp only [List.cons_append, eval_clear_gates]
    cases eval_clear_gate n g cv with
    | ok wv => simp only [bind_ok]; exact ih wv
    | error rc => rfl
    | undefined => rfl

theorem getElem?_append_map_range' {α : Type} (F : List α) (L s m i : Nat) (f : Nat → α)
    (hF : F.length = L) (hi : i < m) :
    (F ++ (List.range' s m).map f)[L + i]? = some (f (s + i)) := by
  rw [List.getElem?_append_right (by omega), hF, Nat.add_sub_cancel_left, List.getElem?_map,
    List.getElem?_range' _ _ hi]
  simp

theorem bits_getElem? (a b : List Bool) (k i : Nat) (ha : a.length = k) (hb : b.length = k)
    (hi : i < k) :
    ((a ++ b).map bit)[i]? = some (bit (a.getD i false)) ∧
    ((a ++ b).map bit)[k + i]? = some (bit (b.getD i false)) := by
  constructor
  · rw [List.getElem?_map, List.getElem?_append_left (by omega),
      List.getElem?_eq_getElem (by omega)]
    simp [List.getD_eq_getElem?_getD, List.getElem?_eq_getElem (show i < a.length by omega)]
  · rw [List.getElem?_map, List.getElem?_append_right (by omega), ha, Nat.add_sub_cancel_left,
      List.getElem?_eq_getElem (by omega)]
    simp [List.getD_eq_getElem?_getD, List.getElem?_eq_getElem (show i < b.length by omega)]

theorem all_bits_eq (a b : List Bool) (k : Nat) (ha : a.length = k) (hb : b.length = k)
    (hk : 1 ≤ k) :
    ((!(Bool.xor (a.getD 0 false) (b.getD 0 false))) &&
      (List.range' 1 (k - 1)).all
        (fun i => !(Bool.xor (a.getD i false) (b.getD i false)))) = decide (a = b) := by
  have hr : List.range' 0 k = 0 :: List.range' 1 (k - 1) := by
    have : k = (k - 1) + 1 := by omega
    conv_lhs => rw [this]
    rw [List.range'_succ]
  have hall : ((!(Bool.xor (a.getD 0 false) (b.getD 0 false))) &&
      (List.range' 1 (k - 1)).all
        (fun i => !(Bool.xor (a.getD i false) (b.getD i false))))
      = (List.range' 0 k).all (fun i => !(Bool.xor (a.getD i false) (b.getD i false))) := by
    rw [hr, List.all_cons]
  rw [hall, Bool.eq_iff_iff]
  simp only [List.all_eq_true, List.mem_range'_1, decide_eq_true_eq]
  constructor
  · intro h
    apply List.ext_getElem (by omega)
    intro i h1 h2
    have := h i ⟨by omega, by omega⟩
    simp only [List.getD_eq_getElem?_getD, List.getElem?_eq_getElem h1,
      List.getElem?_eq_getElem h2, Option.getD_some] at this
    cases hx : a[i] <;> cases hy : b[i] <;> simp_all
  · rintro rfl i _
    simp

theorem eq_circuit_eval_clear_ge2 (k : Nat) (hk : 2 ≤ k) (a b : List Bool)
    (ha : a.length = k) (hb : b.length = k) :
    gc_eval_clear (eq_circuit k) ((a ++ b).map bit) = .ok [bit (decide (a = b))] := by
  have hk1 : k ≠ 1 := by omega
  unfold gc_eval_clear
  simp only [eq_circuit, hk1, if_false, gc_circuit.n_inputs, gc_circuit.n_outputs,
    List.length_range, List.length_singleton]
  rw [if_neg (by omega)]
  have hlen : (a ++ b).length = 2 * k := by simp [ha, hb]; omega
  have hin := eval_clear_inputs_fill (5 * k - 1) (a ++ b) 0 [] (3 * k - 1) rfl (by omega)
  rw [hlen] at hin
  have e1 : 2 * k + (3 * k - 1) = 5 * k - 1 := by omega
  rw [e1, List.nil_append, List.nil_append, ← List.range_eq_range'] at hin
  rw [hin, bind_ok, eval_clear_gates_append, eval_clear_gates_append]
  have e2 : 3 * k - 1 = k + (2 * k - 1) := by omega
  have hF0 : ((a ++ b).map bit).length = 2 * k + 0 := by simp [ha, hb]; omega
  rw [e2, List.range_eq_range',
    eval_xor_phase k (5 * k - 1) (fun i => a.getD i false) (fun i => b.getD i false) k 0
      ((a ++ b).map bit) (2 * k - 1) (by omega) hF0 (by rw [hF0]; omega)
      (fun i hi => bits_getElem? a b k i ha hb hi), bind_ok]
  have e3 : 2 * k - 1 = k + (k - 1) := by omega
  have hF1 : ((a ++ b).map bit ++ (List.range' 0 k).map
      (fun i => bit (Bool.xor (a.getD i false) (b.getD i false)))).length = 3 * k + 0 := by
    simp [ha, hb]; omega
  rw [e3, eval_not_phase k (5 * k - 1)
      (fun i => Bool.xor (a.getD i false) (b.getD i false)) k 0 _ (k - 1) (by omega) hF1
      (by rw [hF1]; omega)
      (fun i hi => by
        have := getElem?_append_map_range' ((a ++ b).map bit) (2 * k) 0 k i
          (fun i => bit (Bool.xor (a.getD i false) (b.getD i false))) (by simpa using hF0) hi
        simpa using this), bind_ok]
  have hF2 : (((a ++ b).map bit ++ (List.range' 0 k).map
      (fun i => bit (Bool.xor (a.getD i false) (b.getD i false)))) ++
      (List.range' 0 k).map
        (fun i => bit (!(Bool.xor (a.getD i false) (b.getD i false))))).length
      = 4 * k + 1 - 1 := by
    simp [ha, hb]; omega
  have hE : ∀ i, i < k →
      (((a ++ b).map bit ++ (List.range' 0 k).map
        (fun i => bit (Bool.xor (a.getD i false) (b.getD i false)))) ++
        (List.range' 0 k).map
          (fun i => bit (!(Bool.xor (a.getD i false) (b.getD i false)))))[3 * k + i]?
        = some (bit (!(Bool.xor (a.getD i false) (b.getD i false)))) := by
    intro i hi
    have := getElem?_append_map_range'
      ((a ++ b).map bit ++ (List.range' 0 k).map
        (fun i => bit (Bool.xor (a.getD i false) (b.getD i false)))) (3 * k) 0 k i
      (fun i => bit (!(Bool.xor (a.getD i false) (b.getD i false)))) hF1 hi
    simpa using this
  obtain ⟨L, accf, hev, hL, hval, hlast⟩ :=
    eval_and_phase k (5 * k - 1) (fun i => !(Bool.xor (a.getD i false) (b.getD i false)))
      (k - 1) 1 (3 * k) _ 0 (!(Bool.xor (a.getD 0 false) (b.getD 0 false)))
      (Nat.le_refl 1) (by omega) hF2 (by rw [hF2]; omega) hE
      (by have := hE 0 (by omega); simpa using this)
  simp only [Nat.add_zero, List.replicate_zero, List.append_nil] at hev
  rw [hev, bind_ok]
  have hacc : accf = 5 * k - 2 := by
    rw [hlast (by omega), hL, hF2]; omega
  rw [hacc, all_bits_eq a b k ha hb (by omega)] at hval
  simp only [eval_clear_outputs]
  rw [if_neg (by omega), (read_at_eq_ok _ _ _).mpr hval, bind_ok, bind_ok, nonzero_bit_bit]

theorem eq_circuit_eval_clear_one (a b : List Bool) (ha : a.length = 1) (hb : b.length = 1) :
    gc_eval_clear (eq_circuit 1) ((a ++ b).map bit) = .ok [bit (decide (a = b))] := by
  match a, b, ha, hb with
  | [x], [y], _, _ =>
    revert x y
    decide

theorem eq_circuit_eval_clear (k : Nat) (hk : 1 ≤ k) (a b : List Bool)
    (ha : a.length = k) (hb : b.length = k) :
    gc_eval_clear (eq_circuit k) ((a ++ b).map bit) = .ok [bit (decide (a = b))] := by
  by_cases h1 : k = 1
  · subst h1
    exact eq_circuit_eval_clear_one a b ha hb
  · exact eq_circuit_eval_clear_ge2 k (by omega) a b ha hb

/-- C4: for every `k` with `1 <= k <= 512` and all bit vectors `a`, `b` of
length `k`, `build_eq_circuit_bits k` returns a circuit on which
`gc_eval_clear`, fed `a` followed by `b`, returns 0 with the single output bit
1 if `a = b` and 0 otherwise. -/
theorem build_eq_circuit_bits_correct (k : Nat) (h1 : 1 ≤ k) (h2 : k ≤ 512)
    (a b : List Bool) (ha : a.length = k) (hb : b.length = k) :
    ∃ c, build_eq_circuit_bits k = some c ∧
      gc_eval_clear c ((a ++ b).map bit) = .ok [if a = b then 1 else 0] := by
  refine ⟨eq_circuit k, build_eq_circuit_bits_eq k h1 h2, ?_⟩
  rw [eq_circuit_eval_clear k h1 a b ha hb]
  by_cases e : a = b <;> simp [e, bit]

theorem build_eq_circuit_bits_correct_witness :
    1 ≤ 3 ∧ 3 ≤ 512 ∧ [true, false, true].length = 3 ∧ [true, true, true].length = 3 ∧
    ∃ c, build_eq_circuit_bits 3 = some c ∧
      gc_eval_clear c (([true, false, true] ++ [true, true, true]).map bit)
        = .ok [if [true, false, true] = [true, true, true] then 1 else 0] :=
  ⟨by decide, by decide, by decide, by decide,
    build_eq_circuit_bits_correct 3 (by decide) (by decide) [true, false, true]
      [true, true, true] (by decide) (by decide)⟩

/-! ## The equality circuit: single-assignment topological order -/

theorem seq_fill_append (l1 l2 : List gc_gate) :
    ∀ (L : Nat), seq_fill L l1 → seq_fill (L + l1.length) l2 → seq_fill L (l1 ++ l2) := by
  induction l1 with
  | nil => intro L _ h2; simpa using h2
  | cons g rest ih =>
    intro L h1 h2
    obtain ⟨a, b, c, d, e⟩ := h1
    refine ⟨a, b, c, d, ih (L + 1) e ?_⟩
    have : L + 1 + rest.length = L + (g :: rest).length := by simp; omega
    rw [this]; exact h2

theorem seq_fill_map_out (gs : List gc_gate) :
    ∀ (L : Nat), seq_fill L gs → gs.map (fun g => g.out) = List.range' L gs.length := by
  induction gs with
  | nil => intro L _; rfl
  | cons g rest ih =>
    intro L h
    obtain ⟨_, _, _, d, e⟩ := h
    simp only [List.map_cons, List.length_cons, List.range'_succ, d, ih (L + 1) e]

theorem seq_fill_gates_wf (n : Nat) (gs : List gc_gate) :
    ∀ (L : Nat) (W : List Nat), seq_fill L gs → L + gs.length ≤ n →
      (∀ w, w ∈ W ↔ w < L) → gates_wf n gs W := by
  induction gs with
  | nil => intro L W _ _ _; trivial
  | cons g rest ih =>
    intro L W h hn hW
    obtain ⟨a, b, c, d, e⟩ := h
    simp only [List.length_cons] at hn
    refine ⟨a, (hW _).mpr b, (hW _).mpr c, by omega, ?_, ?_⟩
    · rw [hW, d]; omega
    · apply ih (L + 1) _ e (by omega)
      intro w
      rw [List.mem_cons, hW, d]
      omega

theorem seq_fill_xor (k : Nat) (hk : 1 ≤ k) (m : Nat) :
    ∀ (s : Nat), seq_fill (2 * k + s) ((List.range' s m).map (eq_xor_gate k)) := by
  induction m with
  | zero => intro s; trivial
  | succ m ih =>
    intro s
    rw [List.range'_succ]
    refine ⟨Or.inr (Or.inl rfl), ?_, ?_, rfl, ih (s + 1)⟩
    · show s < 2 * k + s
      omega
    · show k + s < 2 * k + s
      omega

theorem seq_fill_not (k : Nat) (hk : 1 ≤ k) (m : Nat) :
    ∀ (s : Nat), seq_fill (3 * k + s) ((List.range' s m).map (eq_not_gate k)) := by
  induction m with
  | zero => intro s; trivial
  | succ m ih =>
    intro s
    rw [List.range'_succ]
    refine ⟨Or.inr (Or.inr rfl), ?_, ?_, rfl, ih (s + 1)⟩
    · show 2 * k + s < 3 * k + s
      omega
    · show 0 < 3 * k + s
      omega

theorem seq_fill_and (k : Nat) (hk : 2 ≤ k) (m : Nat) :
    ∀ (s acc : Nat), 1 ≤ s → acc < 4 * k + s - 1 →
      seq_fill (4 * k + s - 1) (eq_acc_chain k (List.range' s m) acc) := by
  induction m with
  | zero => intro s acc _ _; trivial
  | succ m ih =>
    intro s acc hs hacc
    rw [List.range'_succ]
    refine ⟨Or.inl rfl, hacc, ?_, rfl, ?_⟩
    · show 3 * k + s < 4 * k + s - 1
      omega
    · have e : 4 * k + s - 1 + 1 = 4 * k + (s + 1) - 1 := by omega
      rw [e]
      exact ih (s + 1) (4 * k + s - 1) (by omega) (by omega)

theorem eq_acc_chain_length (k : Nat) (l : List Nat) :
    ∀ (acc : Nat), (eq_acc_chain k l acc).length = l.length := by
  induction l with
  | nil => intro acc; rfl
  | cons i rest ih => intro acc; simp [eq_acc_chain, ih]

theorem eq_circuit_seq_fill (k : Nat) (hk : 2 ≤ k) :
    seq_fill (2 * k) (eq_circuit k).gates ∧ (eq_circuit k).gates.length = 3 * k - 1 := by
  have hk1 : k ≠ 1 := by omega
  simp only [eq_circuit, hk1, if_false]
  constructor
  · apply seq_fill_append
    · apply seq_fill_append
      · have := seq_fill_xor k (by omega) k 0
        rw [← List.range_eq_range'] at this
        exact this
      · have := seq_fill_not k (by omega) k 0
        rw [← List.range_eq_range'] at this
        simp only [List.length_map, List.length_range]
        have e : 2 * k + k = 3 * k + 0 := by omega
        rw [e]; exact this
    · simp only [List.length_append, List.length_map, List.length_range]
      have := seq_fill_and k hk (k - 1) 1 (3 * k) (Nat.le_refl 1) (by omega)
      have e : 2 * k + (k + k) = 4 * k + 1 - 1 := by omega
      rw [e]; exact this
  · simp only [List.length_append, List.length_map, List.length_range, eq_acc_chain_length,
      List.length_range']
    omega

theorem eq_circuit_wf (k : Nat) (hk : 1 ≤ k) : circuit_wf (eq_circuit k) := by
  by_cases h1 : k = 1
  · subst h1; decide
  · obtain ⟨hfill, hlen⟩ := eq_circuit_seq_fill k (by omega)
    have hn : (eq_circuit k).n_wires = 5 * k - 1 := by simp [eq_circuit, h1]
    have hi : (eq_circuit k).input_wires = List.range (2 * k) := rfl
    have ho : (eq_circuit k).output_wires = [5 * k - 2] := by simp [eq_circuit, h1]
    refine ⟨?_, ?_, ?_, ?_, ?_, ?_⟩
    · simp [gc_circuit.n_inputs, hi]; omega
    · simp [gc_circuit.n_outputs, ho]
    · rw [hn]; omega
    · intro w hw
      rw [hi, List.mem_range] at hw
      rw [hn]; omega
    · rw [hn, hi]
      apply seq_fill_gates_wf (5 * k - 1) _ (2 * k) _ hfill (by rw [hlen]; omega)
      intro w
      exact List.mem_range
    · intro w hw
      rw [ho, List.mem_singleton] at hw
      right
      rw [seq_fill_map_out _ _ hfill, hlen, List.mem_range'_1]
      omega

/-! ## The PSI driver: bit serialization -/

theorem to_uint8_shift_and_one (x t : Nat) :
    to_uint8 ((x >>> t) &&& 1) = bit (x.testBit t) := by
  have h : (x >>> t) &&& 1 = (x >>> t) % 2 := Nat.and_one_is_mod _
  rw [h]
  unfold Nat.testBit
  rw [Nat.one_and_eq_mod_two]
  rcases Nat.mod_two_eq_zero_or_one (x >>> t) with e | e <;> rw [e] <;> rfl

theorem fill_bit_inputs_loop_spec (mem_a : List uint8_t) (off_a : Nat) (mem_b : List uint8_t)
    (off_b : Nat) (elem_bytes k : Nat)
    (ha : off_a + elem_bytes ≤ mem_a.length) (hb : off_b + elem_bytes ≤ mem_b.length)
    (hk : k ≤ 8 * elem_bytes) (m : Nat) :
    ∀ (s : Nat) (inputs : List uint8_t), s + m ≤ k → inputs.length = 2 * k →
      ∃ L, fill_bit_inputs_loop mem_a off_a mem_b off_b elem_bytes k (List.range' s m) inputs
          = .ok L ∧ L.length = 2 * k ∧
        (∀ t, s ≤ t → t < s + m →
          L[t]? = some (bit (elem_bit mem_a off_a t)) ∧
          L[k + t]? = some (bit (elem_bit mem_b off_b t))) ∧
        (∀ j, (j < s ∨ (s + m ≤ j ∧ j < k + s) ∨ k + s + m ≤ j) → L[j]? = inputs[j]?) := by
  induction m with
  | zero =>
    intro s inputs _ hlen
    refine ⟨inputs, rfl, hlen, ?_, fun _ _ => rfl⟩
    intro t h1 h2; omega
  | succ m ih =>
    intro s inputs hs hlen
    rw [List.range'_succ]
    simp only [fill_bit_inputs_loop]
    have hidx : s / 8 < elem_bytes := by omega
    rw [if_pos hidx, read_at_of_lt mem_a _ (by omega), read_at_of_lt mem_b _ (by omega)]
    simp only [bind_ok]
    rw [write_at_of_lt _ _ _ (by omega), bind_ok,
      write_at_of_lt _ _ _ (by simp only [List.length_set]; omega), bind_ok]
    obtain ⟨L, hL, hlenL, hvals, hframe⟩ := ih (s + 1)
      ((inputs.set s (to_uint8 ((mem_a[off_a + s / 8]).val >>> (s % 8) &&& 1))).set (k + s)
        (to_uint8 ((mem_b[off_b + s / 8]).val >>> (s % 8) &&& 1))) (by omega)
      (by simp only [List.length_set]; exact hlen)
    refine ⟨L, hL, hlenL, ?_, ?_⟩
    · intro t h1 h2
      by_cases ht : t = s
      · subst ht
        have f1 := hframe t (Or.inl (by omega))
        have f2 := hframe (k + t) (Or.inr (Or.inl (by omega)))
        rw [f1, f2]
        constructor
        · rw [getElem?_set_eq_ite, if_neg (by omega), getElem?_set_eq_ite,
            if_pos ⟨rfl, by omega⟩, to_uint8_shift_and_one]
          simp [elem_bit, List.getD_eq_getElem?_getD,
            List.getElem?_eq_getElem (show off_a + t / 8 < mem_a.length by omega)]
        · rw [getElem?_set_eq_ite, if_pos ⟨rfl, by simp only [List.length_set]; omega⟩,
            to_uint8_shift_and_one]
          simp [elem_bit, List.getD_eq_getElem?_getD,
            List.getElem?_eq_getElem (show off_b + t / 8 < mem_b.length by omega)]
      · exact hvals t (by omega) (by omega)
    · intro j hj
      rw [hframe j (by omega), getElem?_set_eq_ite, if_neg (by omega), getElem?_set_eq_ite,
        if_neg (by omega)]

theorem fill_bit_inputs_spec (mem_a : List uint8_t) (off_a : Nat) (mem_b : List uint8_t)
    (off_b : Nat) (k : Nat) (hk : k ≤ 512)
    (ha : off_a + (k + 7) / 8 ≤ mem_a.length) (hb : off_b + (k + 7) / 8 ≤ mem_b.length) :
    fill_bit_inputs (List.replicate (2 * k) 0) mem_a off_a mem_b off_b k
      = .ok ((elem_bits_of mem_a off_a k ++ elem_bits_of mem_b off_b k).map bit) := by
  unfold fill_bit_inputs
  have hsz : to_size_t (k + 7) = k + 7 := Nat.mod_eq_of_lt (by omega)
  simp only [hsz]
  obtain ⟨L, hL, hlenL, hvals, _⟩ :=
    fill_bit_inputs_loop_spec mem_a off_a mem_b off_b ((k + 7) / 8) k ha hb (by omega) k 0
      (List.replicate (2 * k) 0) (by omega) (by simp)
  rw [List.range_eq_range', hL]
  congr 1
  apply List.ext_getElem?
  intro j
  by_cases hj : j < k
  · rw [(hvals j (by omega) (by omega)).1, List.getElem?_map,
      List.getElem?_append_left (by simp [elem_bits_of]; omega)]
    simp [elem_bits_of, List.getElem?_range hj]
  · by_cases hj2 : j < 2 * k
    · have e : j = k + (j - k) := by omega
      rw [e, (hvals (j - k) (by omega) (by omega)).2, List.getElem?_map,
        List.getElem?_append_right (by simp [elem_bits_of])]
      simp [elem_bits_of, List.getElem?_range (show j - k < k by omega)]
    · rw [List.getElem?_eq_none (by omega), List.getElem?_eq_none (by
        simp [elem_bits_of]; omega)]

/-! ## The PSI driver: the loops -/

theorem elem_bits_of_length (mem : List uint8_t) (off k : Nat) :
    (elem_bits_of mem off k).length = k := by
  simp [elem_bits_of]

theorem psi_gc_find_spec (blake3 : keyed_hash) (s : gc_globals)
    (hs : gc_globals_reachable blake3 s) (k : Nat) (hk1 : 1 ≤ k) (hk2 : k ≤ 512)
    (gc : gc_garbled_circuit) (hgc : (gc_garble blake3 s (eq_circuit k)).1 = .ok gc)
    (A B : List uint8_t) (count : Nat)
    (hA : count * ((k + 7) / 8) ≤ A.length) (hB : count * ((k + 7) / 8) ≤ B.length)
    (i : Nat) (hi : i < count) (js : List Nat) :
    (∀ j ∈ js, j < count) →
    psi_gc_find blake3 gc (2 * k) A B ((k + 7) / 8) k i js
      = .ok (bit (js.any fun j => elem_bits_match A B ((k + 7) / 8) k i j)) := by
  induction js with
  | nil => intro _; rfl
  | cons j rest ih =>
    intro hjs
    have hj : j < count := hjs j (List.mem_cons_self _ _)
    have hiA : i * ((k + 7) / 8) + (k + 7) / 8 ≤ A.length := by
      have := Nat.mul_le_mul_right ((k + 7) / 8) (show i + 1 ≤ count by omega)
      rw [Nat.add_mul, Nat.one_mul] at this
      omega
    have hjB : j * ((k + 7) / 8) + (k + 7) / 8 ≤ B.length := by
      have := Nat.mul_le_mul_right ((k + 7) / 8) (show j + 1 ≤ count by omega)
      rw [Nat.add_mul, Nat.one_mul] at this
      omega
    have hlen : (elem_bits_of A (i * ((k + 7) / 8)) k ++
        elem_bits_of B (j * ((k + 7) / 8)) k).length = (eq_circuit k).n_inputs := by
      simp [elem_bits_of_length, eq_circuit, gc_circuit.n_inputs]; omega
    obtain ⟨gc2, ls, ols, obits, h1, h2, h3, h4, h5⟩ :=
      garbled_path_sound blake3 s hs (eq_circuit k) (eq_circuit_wf k hk1) _ hlen
    rw [hgc] at h1
    cases h1
    rw [eq_circuit_eval_clear k hk1 _ _ (elem_bits_of_length _ _ _)
      (elem_bits_of_length _ _ _)] at h5
    cases h5
    unfold psi_gc_find
    rw [fill_bit_inputs_spec A _ B _ k hk2 hiA hjB, bind_ok, h2, bind_ok]
    simp only [h3, h4]
    rw [(read_at_eq_ok _ _ _).mpr (show [bit (decide (elem_bits_of A (i * ((k + 7) / 8)) k =
      elem_bits_of B (j * ((k + 7) / 8)) k))][0]? = some _ from rfl), bind_ok,
      ih (fun x hx => hjs x (List.mem_cons_of_mem _ hx))]
    simp only [List.any_cons, elem_bits_match]
    by_cases e : elem_bits_of A (i * ((k + 7) / 8)) k = elem_bits_of B (j * ((k + 7) / 8)) k
    · simp [e, bit]
    · simp [e, bit]

theorem psi_gc_loop_spec (blake3 : keyed_hash) (gc : gc_garbled_circuit) (n_inputs : Nat)
    (A B : List uint8_t) (count eb k : Nat) (f : Nat → Bool)
    (hf : ∀ i, i < count →
      psi_gc_find blake3 gc n_inputs A B eb k i (List.range count) = .ok (bit (f i)))
    (m : Nat) :
    ∀ (s : Nat) (mask : List uint8_t), s + m ≤ count → count ≤ mask.length →
      ∃ M, psi_gc_loop blake3 gc n_inputs A B count eb k (List.range' s m) mask = .ok M ∧
        M.length = mask.length ∧
        (∀ i, s ≤ i → i < s + m → M[i]? = some (bit (f i))) ∧
        (∀ i, (i < s ∨ s + m ≤ i) → M[i]? = mask[i]?) := by
  induction m with
  | zero =>
    intro s mask _ _
    refine ⟨mask, rfl, rfl, ?_, fun _ _ => rfl⟩
    intro i h1 h2; omega
  | succ m ih =>
    intro s mask hs hm
    rw [List.range'_succ]
    simp only [psi_gc_loop]
    rw [hf s (by omega), bind_ok, write_at_of_lt _ _ _ (by omega), bind_ok]
    obtain ⟨M, hM, hlenM, hvals, hframe⟩ := ih (s + 1) (mask.set s (bit (f s))) (by omega)
      (by simp only [List.length_set]; exact hm)
    refine ⟨M, hM, by rw [hlenM, List.length_set], ?_, ?_⟩
    · intro i h1 h2
      by_cases hi : i = s
      · subst hi
        rw [hframe i (Or.inl (by omega)), getElem?_set_eq_ite, if_pos ⟨rfl, by omega⟩]
      · exact hvals i (by omega) (by omega)
    · intro i hi
      rw [hframe i (by omega), getElem?_set_eq_ite, if_neg (by omega)]

/-- What the garbled PSI path computes for an element width `1 <= k <= 512`:
`psi_gc_compute` returns 0 and `mask[i]` is 1 exactly when the first `k` bits of
`A[i]` agree with those of some `B[j]`; entries from `count` on are untouched. -/
theorem psi_gc_compute_bits (blake3 : keyed_hash) (s : gc_globals)
    (hs : gc_globals_reachable blake3 s) (ctx : psi_gc_ctx)
    (hk1 : 1 ≤ ctx.elem_bits) (hk2 : ctx.elem_bits ≤ 512)
    (count : Nat) (hc1 : 1 ≤ count) (hc2 : count ≤ ctx.max_elems)
    (A B : List uint8_t)
    (hA : count * ((ctx.elem_bits + 7) / 8) ≤ A.length)
    (hB : count * ((ctx.elem_bits + 7) / 8) ≤ B.length)
    (mask : List uint8_t) (hm : count ≤ mask.length) :
    ∃ M, psi_gc_compute blake3 s ctx A B count mask = (.ok M, gc_init_delta blake3 s) ∧
      M.length = mask.length ∧
      (∀ i, i < count → M[i]? = some (bit ((List.range count).any fun j =>
        elem_bits_match A B ((ctx.elem_bits + 7) / 8) ctx.elem_bits i j))) ∧
      (∀ i, count ≤ i → M[i]? = mask[i]?) := by
  have hwf := eq_circuit_wf ctx.elem_bits hk1
  obtain ⟨gc, _, _, _, hgc, _⟩ :=
    garbled_path_sound blake3 s hs (eq_circuit ctx.elem_bits) hwf
      (List.replicate (2 * ctx.elem_bits) false)
      (by simp [eq_circuit, gc_circuit.n_inputs])
  have hpair : gc_garble blake3 s (eq_circuit ctx.elem_bits)
      = (.ok gc, gc_init_delta blake3 s) := by
    rw [← hgc, ← gc_garble_globals blake3 s (eq_circuit ctx.elem_bits)]
  have hsz : to_size_t (ctx.elem_bits + 7) = ctx.elem_bits + 7 :=
    Nat.mod_eq_of_lt (by omega)
  have hn : (eq_circuit ctx.elem_bits).n_inputs = 2 * ctx.elem_bits := by
    simp [eq_circuit, gc_circuit.n_inputs]
  obtain ⟨M, hM, hlenM, hvals, hframe⟩ :=
    psi_gc_loop_spec blake3 gc (2 * ctx.elem_bits) A B count ((ctx.elem_bits + 7) / 8)
      ctx.elem_bits
      (fun i => (List.range count).any fun j =>
        elem_bits_match A B ((ctx.elem_bits + 7) / 8) ctx.elem_bits i j)
      (fun i hi => psi_gc_find_spec blake3 s hs ctx.elem_bits hk1 hk2 gc hgc A B count hA hB
        i hi (List.range count) (fun j hj => List.mem_range.mp hj))
      count 0 mask (by omega) hm
  refine ⟨M, ?_, hlenM, fun i hi => hvals i (by omega) (by omega),
    fun i hi => hframe i (Or.inr (by omega))⟩
  unfold psi_gc_compute
  rw [if_neg (by omega), if_neg (by omega)]
  unfold psi_gc_compute_with_gc_y
  rw [if_neg (by omega), if_neg (by omega)]
  simp only [build_eq_circuit_bits_eq ctx.elem_bits hk1 hk2, hpair, hsz, hn]
  rw [List.range_eq_range', hM]

/-! ## The PSI driver on whole bytes -/

theorem u8_eq_of_testBit (x y : uint8_t)
    (h : ∀ u, u < 8 → x.val.testBit u = y.val.testBit u) : x = y := by
  apply Fin.ext
  apply Nat.eq_of_testBit_eq
  intro u
  by_cases hu : u < 8
  · exact h u hu
  · have hp : (256 : Nat) ≤ 2 ^ u := by
      have : (2 : Nat) ^ 8 ≤ 2 ^ u := Nat.pow_le_pow_right (by decide) (by omega)
      simpa using this
    rw [Nat.testBit_lt_two_pow (Nat.lt_of_lt_of_le x.isLt hp),
      Nat.testBit_lt_two_pow (Nat.lt_of_lt_of_le y.isLt hp)]

theorem elem_bits_of_eq_iff (A B : List uint8_t) (offa offb nb : Nat)
    (ha : offa + nb ≤ A.length) (hb : offb + nb ≤ B.length) :
    elem_bits_of A offa (8 * nb) = elem_bits_of B offb (8 * nb) ↔
      (A.drop offa).take nb = (B.drop offb).take nb := by
  have hbits : elem_bits_of A offa (8 * nb) = elem_bits_of B offb (8 * nb) ↔
      ∀ t, t < 8 * nb → elem_bit A offa t = elem_bit B offb t := by
    unfold elem_bits_of
    constructor
    · intro h t ht
      have := congrArg (fun l => l[t]?) h
      simpa [List.getElem?_range ht] using this
    · intro h
      apply List.map_congr_left
      intro t ht
      exact h t (List.mem_range.mp ht)
  have hbytes : (A.drop offa).take nb = (B.drop offb).take nb ↔
      ∀ idx, idx < nb → A.getD (offa + idx) 0 = B.getD (offb + idx) 0 := by
    constructor
    · intro h idx hidx
      have := congrArg (fun l => l[idx]?) h
      simp only [List.getElem?_take_of_lt hidx, List.getElem?_drop] at this
      simp only [List.getD_eq_getElem?_getD, this]
    · intro h
      apply List.ext_getElem?
      intro idx
      by_cases hidx : idx < nb
      · simp only [List.getElem?_take_of_lt hidx, List.getElem?_drop]
        have := h idx hidx
        simp only [List.getD_eq_getElem?_getD,
          List.getElem?_eq_getElem (show offa + idx < A.length by omega),
          List.getElem?_eq_getElem (show offb + idx < B.length by omega),
          Option.getD_some] at this
        rw [List.getElem?_eq_getElem (show offa + idx < A.length by omega),
          List.getElem?_eq_getElem (show offb + idx < B.length by omega), this]
      · rw [List.getElem?_eq_none (by simp; omega), List.getElem?_eq_none (by simp; omega)]
  rw [hbits, hbytes]
  constructor
  · intro h idx hidx
    apply u8_eq_of_testBit
    intro u hu
    have := h (8 * idx + u) (by omega)
    unfold elem_bit at this
    have e1 : (8 * idx + u) / 8 = idx := by omega
    have e2 : (8 * idx + u) % 8 = u := by omega
    rw [e1, e2] at this
    exact this
  · intro h t ht
    unfold elem_bit
    rw [h (t / 8) (by omega)]

/-- C3 (PSI correctness on 16-byte elements): for a context with
`elem_bits = 128`, every `count` with `1 <= count <= max_elems`, flat arrays
`A`, `B` of `count` 16-byte elements and a mask buffer of at least `count`
entries, `psi_gc_compute` returns 0, and for every `i < count` it leaves
`mask[i] = 1` if the 16 bytes of some `B[j]`, `j < count`, equal the 16 bytes of
`A[i]`, and `mask[i] = 0` otherwise. -/
theorem psi_gc_compute_correct_128 (blake3 : keyed_hash) (s : gc_globals)
    (hs : gc_globals_reachable blake3 s) (ctx : psi_gc_ctx) (hbits : ctx.elem_bits = 128)
    (count : Nat) (hc1 : 1 ≤ count) (hc2 : count ≤ ctx.max_elems)
    (A B : List uint8_t) (hA : A.length = 16 * count) (hB : B.length = 16 * count)
    (mask : List uint8_t) (hm : count ≤ mask.length) :
    ∃ M, (psi_gc_compute blake3 s ctx A B count mask).1 = .ok M ∧
      M.length = mask.length ∧
      ∀ i, i < count →
        ((∃ j, j < count ∧ (B.drop (16 * j)).take 16 = (A.drop (16 * i)).take 16) →
          M[i]? = some 1) ∧
        ((¬ ∃ j, j < count ∧ (B.drop (16 * j)).take 16 = (A.drop (16 * i)).take 16) →
          M[i]? = some 0) := by
  have he : (ctx.elem_bits + 7) / 8 = 16 := by rw [hbits]
  obtain ⟨M, hM, hlenM, hvals, _⟩ :=
    psi_gc_compute_bits blake3 s hs ctx (by omega) (by omega) count hc1 hc2 A B
      (by rw [he]; omega) (by rw [he]; omega) mask hm
  refine ⟨M, by rw [hM], hlenM, ?_⟩
  intro i hi
  have hmatch : ∀ j, j < count →
      (elem_bits_match A B ((ctx.elem_bits + 7) / 8) ctx.elem_bits i j = true ↔
        (B.drop (16 * j)).take 16 = (A.drop (16 * i)).take 16) := by
    intro j hj
    unfold elem_bits_match
    rw [he, hbits, decide_eq_true_eq]
    have := elem_bits_of_eq_iff A B (i * 16) (j * 16) 16 (by omega) (by omega)
    rw [show (8 * 16 : Nat) = 128 from rfl] at this
    rw [this, Nat.mul_comm i 16, Nat.mul_comm j 16]
    exact eq_comm
  rw [hvals i hi]
  constructor
  · rintro ⟨j, hj, hje⟩
    have : ((List.range count).any fun j =>
        elem_bits_match A B ((ctx.elem_bits + 7) / 8) ctx.elem_bits i j) = true := by
      rw [List.any_eq_true]
      exact ⟨j, List.mem_range.mpr hj, (hmatch j hj).mpr hje⟩
    rw [this]; rfl
  · intro hne
    have : ((List.range count).any fun j =>
        elem_bits_match A B ((ctx.elem_bits + 7) / 8) ctx.elem_bits i j) = false := by
      rw [Bool.eq_false_iff]
      intro hany
      rw [List.any_eq_true] at hany
      obtain ⟨j, hj, hje⟩ := hany
      exact hne ⟨j, List.mem_range.mp hj, (hmatch j (List.mem_range.mp hj)).mp hje⟩
    rw [this]; rfl

theorem psi_gc_compute_correct_128_witness :
    gc_globals_reachable toy_hash gc_globals_startup ∧
    ({ max_elems := 4, elem_bits := 128 } : psi_gc_ctx).elem_bits = 128 ∧
    1 ≤ 2 ∧ 2 ≤ ({ max_elems := 4, elem_bits := 128 } : psi_gc_ctx).max_elems ∧
    (List.replicate 32 (7 : uint8_t)).length = 16 * 2 ∧
    (List.replicate 16 (9 : uint8_t) ++ List.replicate 16 7).length = 16 * 2 ∧
    2 ≤ [(5 : uint8_t), 5, 5].length ∧
    ∃ M, (psi_gc_compute toy_hash gc_globals_startup { max_elems := 4, elem_bits := 128 }
        (List.replicate 32 7) (List.replicate 16 9 ++ List.replicate 16 7) 2 [5, 5, 5]).1
        = .ok M ∧
      M.length = [(5 : uint8_t), 5, 5].length ∧
      ∀ i, i < 2 →
        ((∃ j, j < 2 ∧
            ((List.replicate 16 (9 : uint8_t) ++ List.replicate 16 7).drop (16 * j)).take 16
              = ((List.replicate 32 (7 : uint8_t)).drop (16 * i)).take 16) →
          M[i]? = some 1) ∧
        ((¬ ∃ j, j < 2 ∧
            ((List.replicate 16 (9 : uint8_t) ++ List.replicate 16 7).drop (16 * j)).take 16
              = ((List.replicate 32 (7 : uint8_t)).drop (16 * i)).take 16) →
          M[i]? = some 0) :=
  ⟨gc_globals_reachable.startup, rfl, by decide, by decide, by decide, by decide, by decide,
    psi_gc_compute_correct_128 toy_hash gc_globals_startup gc_globals_reachable.startup
      { max_elems := 4, elem_bits := 128 } rfl 2 (by decide) (by decide)
      (List.replicate 32 7) (List.replicate 16 9 ++ List.replicate 16 7)
      (by decide) (by decide) [5, 5, 5] (by decide)⟩

/-! ## The decode error on a rewritten wire, for any hash -/

theorem gc_label_zero_get (i : Fin GC_LABEL_BYTES) : gc_label_zero.b.get i = 0 :=
  Mathlib.Vector.get_replicate 0 i

theorem gc_label_xor_zero (a : gc_label) : gc_label_xor a gc_label_zero = a := by
  apply gc_label_ext; intro i
  rw [gc_label_xor_get, gc_label_zero_get, u8_xor_zero]

theorem gc_label_xor_self (a : gc_label) : gc_label_xor a a = gc_label_zero := by
  apply gc_label_ext; intro i
  rw [gc_label_xor_get, gc_label_zero_get, u8_xor_self]

theorem gc_label_xor_left_inj (a b c : gc_label) :
    gc_label_xor a b = gc_label_xor a c ↔ b = c := by
  constructor
  · intro h
    have := congrArg (gc_label_xor a) h
    rwa [gc_label_xor_cancel_left, gc_label_xor_cancel_left] at this
  · rintro rfl; rfl

theorem gc_label_xor_eq_left (a b : gc_label) : gc_label_xor a b = a ↔ b = gc_label_zero := by
  conv_lhs => rhs; rw [← gc_label_xor_zero a]
  exact gc_label_xor_left_inj a b gc_label_zero

theorem gc_permute_bit_zero : gc_permute_bit gc_label_zero = 0 := by
  unfold gc_permute_bit
  rw [gc_label_zero_get]
  decide

/-- A value that differs from a wire's label of 0 by a non-zero label `d` with
permute bit 0, possibly also by the offset, is neither label of that wire. -/
theorem label_mismatch (e d delta : gc_label) (hd : d ≠ gc_label_zero)
    (hp : gc_permute_bit d = 0) (hdelta : gc_permute_bit delta = 1) :
    gc_label_equal_ct (gc_label_xor e d) e = false ∧
    gc_label_equal_ct (gc_label_xor e d) (gc_label_xor e delta) = false ∧
    gc_label_equal_ct (gc_label_xor e (gc_label_xor d delta)) e = false ∧
    gc_label_equal_ct (gc_label_xor e (gc_label_xor d delta)) (gc_label_xor e delta)
      = false := by
  have hne : d ≠ delta := by
    intro h
    rw [h, hdelta] at hp
    exact absurd hp (by decide)
  have hne2 : gc_label_xor d delta ≠ gc_label_zero := by
    intro h
    have := congrArg gc_permute_bit h
    rw [gc_permute_bit_xor, hp, hdelta, gc_permute_bit_zero] at this
    exact absurd this (by decide)
  have hne3 : gc_label_xor d delta ≠ delta := by
    intro h
    apply hd
    have := congrArg (fun x => gc_label_xor x delta) h
    simp only [gc_label_xor_cancel_right, gc_label_xor_self] at this
    exact this
  refine ⟨?_, ?_, ?_, ?_⟩ <;> rw [Bool.eq_false_iff] <;> intro h <;>
    have h := (gc_label_equal_ct_iff _ _).mp h
  · exact hd ((gc_label_xor_eq_left _ _).mp h)
  · exact hne ((gc_label_xor_left_inj _ _ _).mp h)
  · exact hne2 ((gc_label_xor_eq_left _ _).mp h)
  · exact hne3 ((gc_label_xor_left_inj _ _ _).mp h)

/-- The failure on `circuit_xor_overwrite` does not depend on the hash chosen:
for every keyed hash whose derived label of wire 1 is not all-zero, and all
input bits, the garbled round trip ends in the decode error. -/
theorem xor_overwrite_decode_error (blake3 : keyed_hash) (s : gc_globals)
    (hs : gc_globals_reachable blake3 s)
    (h1 : gc_derive_label0 blake3 1 ≠ gc_label_zero) (a b : Bool) :
    garbled_roundtrip blake3 s circuit_xor_overwrite [bit a, bit b] = .error (-2) := by
  have hd := gc_init_delta_reachable blake3 s hs
  have z0 : ((0 : uint8_t) &&& 1) = 0 := by decide
  have z1 : ((1 : uint8_t) &&& 1) = 1 := by decide
  have n1 : ¬ ((1 : uint8_t) = 0) := by decide
  obtain ⟨m1, m2, m3, m4⟩ := label_mismatch
    (gc_label_xor (gc_derive_label0 blake3 0) (gc_derive_label0 blake3 1))
    (gc_derive_label0 blake3 1) (gc_delta_value blake3) h1
    (gc_permute_bit_derive_label0 blake3 1) (gc_permute_bit_delta blake3)
  have m5 := m3
  have m6 := m4
  rw [← gc_label_xor_assoc, ← gc_label_xor_delta_left] at m5 m6
  have m7 := m1
  have m8 := m2
  rw [← gc_label_xor_delta_both _ _ (gc_delta_value blake3)] at m7 m8
  simp only [garbled_roundtrip, gc_garble, circuit_xor_overwrite, hd]
  cases a <;> cases b <;>
  simp [garble_xor_pass, read_at, write_at, gc_result.bind, garble_tables, garble_gate,
    encode_input_labels, gc_eval_garbled, eval_garbled_inputs, eval_garbled_gates,
    eval_garbled_gate, eval_garbled_outputs, gc_decode_outputs, decode_outputs_loop,
    List.range_succ, bit, z0, z1, n1, m1, m2, m3, m4, m5, m6, m7, m8]

/-! ## Statistics of a garbled circuit -/

theorem compute_stats_loop_spec (gs : List gc_garbled_gate) :
    ∀ st : gc_stats,
      (compute_stats_loop gs st).num_gates = st.num_gates ∧
      (compute_stats_loop gs st).num_and_gates
        = st.num_and_gates + gs.countP (fun g => decide (g.type = GC_GATE_AND)) ∧
      (compute_stats_loop gs st).num_xor_gates
        = st.num_xor_gates + gs.countP (fun g => decide (g.type = GC_GATE_XOR)) ∧
      (compute_stats_loop gs st).num_not_gates
        = st.num_not_gates + gs.countP (fun g => decide (g.type = GC_GATE_NOT)) ∧
      (compute_stats_loop gs st).num_ciphertexts
        = st.num_ciphertexts + 4 * (gs.countP (fun g => decide (g.type = GC_GATE_AND))
            + gs.countP (fun g => decide (g.type = GC_GATE_NOT))) ∧
      (compute_stats_loop gs st).ciphertext_bytes = st.ciphertext_bytes := by
  induction gs with
  | nil => intro st; simp [compute_stats_loop]
  | cons g rest ih =>
    intro st
    obtain ⟨h1, h2, h3, h4, h5, h6⟩ := ih (compute_stats_gate g st)
    simp only [compute_stats_loop, h1, h2, h3, h4, h5, h6, List.countP_cons]
    unfold compute_stats_gate
    by_cases ha : g.type = GC_GATE_AND
    · have hx : ¬ g.type = GC_GATE_XOR := by rw [ha]; decide
      have hn : ¬ g.type = GC_GATE_NOT := by rw [ha]; decide
      simp only [ha, hx, hn, if_true, if_false, decide_True, decide_False]
      refine ⟨?_, ?_, ?_, ?_, ?_, ?_⟩ <;> first | trivial | omega | (simp; done) | (simp; omega)
    · by_cases hx : g.type = GC_GATE_XOR
      · have hn : ¬ g.type = GC_GATE_NOT := by rw [hx]; decide
        simp only [ha, hx, hn, if_true, if_false, decide_True, decide_False]
        refine ⟨?_, ?_, ?_, ?_, ?_, ?_⟩ <;> first | trivial | omega | (simp; done) | (simp; omega)
      · by_cases hn : g.type = GC_GATE_NOT
        · simp only [ha, hx, hn, if_true, if_false, decide_True, decide_False]
          refine ⟨?_, ?_, ?_, ?_, ?_, ?_⟩ <;> first | trivial | omega | (simp; done) | (simp; omega)
        · simp only [ha, hx, hn, if_true, if_false, decide_True, decide_False]
          refine ⟨?_, ?_, ?_, ?_, ?_, ?_⟩ <;> trivial

theorem gc_compute_stats_spec (gc : gc_garbled_circuit) :
    (gc_compute_stats gc).num_gates = gc.n_gates ∧
    (gc_compute_stats gc).num_and_gates
      = gc.gates.countP (fun g => decide (g.type = GC_GATE_AND)) ∧
    (gc_compute_stats gc).num_xor_gates
      = gc.gates.countP (fun g => decide (g.type = GC_GATE_XOR)) ∧
    (gc_compute_stats gc).num_not_gates
      = gc.gates.countP (fun g => decide (g.type = GC_GATE_NOT)) ∧
    (gc_compute_stats gc).num_ciphertexts
      = 4 * ((gc_compute_stats gc).num_and_gates + (gc_compute_stats gc).num_not_gates) ∧
    (gc_compute_stats gc).ciphertext_bytes = 16 * (gc_compute_stats gc).num_ciphertexts := by
  obtain ⟨h1, h2, h3, h4, h5, _⟩ := compute_stats_loop_spec gc.gates
    { num_gates := gc.n_gates, num_and_gates := 0, num_xor_gates := 0, num_not_gates := 0,
      num_ciphertexts := 0, ciphertext_bytes := 0 }
  simp only [gc_compute_stats, h1, h2, h3, h4, h5, GC_LABEL_BYTES]
  refine ⟨trivial, ?_, ?_, ?_, ?_, ?_⟩ <;> omega

/-- C11 (statistics of a garbled circuit): for every garbled circuit,
`gc_compute_stats` sets `num_gates = n_gates`, sets `num_and_gates`,
`num_xor_gates` and `num_not_gates` to the numbers of gates of type AND, XOR
and NOT, and sets `num_ciphertexts = 4 * (num_and_gates + num_not_gates)` and
`ciphertext_bytes = 16 * num_ciphertexts`. -/
theorem gc_compute_stats_arithmetic (gc : gc_garbled_circuit) :
    (gc_compute_stats gc).num_gates = gc.n_gates ∧
    (gc_compute_stats gc).num_and_gates
      = gc.gates.countP (fun g => decide (g.type = GC_GATE_AND)) ∧
    (gc_compute_stats gc).num_xor_gates
      = gc.gates.countP (fun g => decide (g.type = GC_GATE_XOR)) ∧
    (gc_compute_stats gc).num_not_gates
      = gc.gates.countP (fun g => decide (g.type = GC_GATE_NOT)) ∧
    (gc_compute_stats gc).num_ciphertexts
      = 4 * ((gc_compute_stats gc).num_and_gates + (gc_compute_stats gc).num_not_gates) ∧
    (gc_compute_stats gc).ciphertext_bytes = 16 * (gc_compute_stats gc).num_ciphertexts :=
  gc_compute_stats_spec gc

/-! ## The garbler on a circuit with in-range wire indices -/

theorem garble_xor_pass_bounds (delta : gc_label) (n : Nat) (gs : List gc_gate) :
    ∀ (wl0 wl1 : List gc_label), wl0.length = n → wl1.length = n →
      (∀ g ∈ gs, g.in0 < n ∧ g.in1 < n ∧ g.out < n) →
      ∃ a b, garble_xor_pass delta gs wl0 wl1 = .ok (a, b) ∧ a.length = n ∧ b.length = n := by
  induction gs with
  | nil => intro wl0 wl1 h0 h1 _; exact ⟨wl0, wl1, rfl, h0, h1⟩
  | cons g rest ih =>
    intro wl0 wl1 h0 h1 hb
    obtain ⟨hi0, hi1, ho⟩ := hb g (List.mem_cons_self _ _)
    have hrest : ∀ g ∈ rest, g.in0 < n ∧ g.in1 < n ∧ g.out < n :=
      fun x hx => hb x (List.mem_cons_of_mem _ hx)
    unfold garble_xor_pass
    by_cases hx : g.type = GC_GATE_XOR
    · rw [if_neg (not_not.mpr hx), read_at_of_lt wl0 g.in0 (by omega), bind_ok,
        read_at_of_lt wl0 g.in1 (by omega), bind_ok]
      simp only []
      rw [write_at_of_lt _ _ _ (by omega), bind_ok, write_at_of_lt _ _ _ (by omega), bind_ok]
      exact ih _ _ (by rw [List.length_set]; exact h0) (by rw [List.length_set]; exact h1) hrest
    · rw [if_pos hx]
      exact ih wl0 wl1 h0 h1 hrest

theorem garble_gate_type (blake3 : keyed_hash) (wl0 wl1 : List gc_label) (pg : gc_gate)
    (gi : Nat) (gg : gc_garbled_gate) (h : garble_gate blake3 wl0 wl1 pg gi = .ok gg) :
    gg.type = pg.type := by
  unfold garble_gate at h
  by_cases hx : pg.type = GC_GATE_XOR
  · simp only [hx, if_true] at h
    cases h
    exact hx.symm
  · simp only [hx, if_false, bind_eq_ok] at h
    obtain ⟨_, _, _, _, _, _, _, _, h⟩ := h
    cases h
    rfl

theorem garble_gate_unknown (blake3 : keyed_hash) (n : Nat) (wl0 wl1 : List gc_label)
    (pg : gc_gate) (gi : Nat) (h0 : wl0.length = n) (h1 : wl1.length = n)
    (hi0 : pg.in0 < n) (hi1 : pg.in1 < n)
    (hty : ¬ (pg.type = GC_GATE_AND ∨ pg.type = GC_GATE_XOR ∨ pg.type = GC_GATE_NOT)) :
    garble_gate blake3 wl0 wl1 pg gi = .error (-4) := by
  have ha : ¬ pg.type = GC_GATE_AND := fun h => hty (Or.inl h)
  have hx : ¬ pg.type = GC_GATE_XOR := fun h => hty (Or.inr (Or.inl h))
  have hn : ¬ pg.type = GC_GATE_NOT := fun h => hty (Or.inr (Or.inr h))
  have hrow : garble_row blake3 wl0 wl1 pg gi 0 0 (List.replicate 4 gc_label_zero)
      = .error (-4) := by
    unfold garble_row
    rw [read_at_of_lt wl0 pg.in0 (by omega), bind_ok, read_at_of_lt wl1 pg.in0 (by omega),
      bind_ok, read_at_of_lt wl0 pg.in1 (by omega), bind_ok,
      read_at_of_lt wl1 pg.in1 (by omega), bind_ok]
    simp only [garble_bit_out, ha, hx, hn, if_false]
    rfl
  unfold garble_gate
  simp only [hx, if_false, hrow]
  rfl

theorem garble_tables_bounds (blake3 : keyed_hash) (n : Nat) (wl0 wl1 : List gc_label)
    (h0 : wl0.length = n) (h1 : wl1.length = n) (gs : List gc_gate) :
    ∀ gi : Nat, (∀ g ∈ gs, g.in0 < n ∧ g.in1 < n ∧ g.out < n) →
      ((∀ g ∈ gs, g.type = GC_GATE_AND ∨ g.type = GC_GATE_XOR ∨ g.type = GC_GATE_NOT) →
        ∃ ggs, garble_tables blake3 wl0 wl1 gs gi = .ok ggs ∧
          ggs.map (fun gg => gg.type) = gs.map (fun g => g.type)) ∧
      ((∃ g ∈ gs, ¬ (g.type = GC_GATE_AND ∨ g.type = GC_GATE_XOR ∨ g.type = GC_GATE_NOT)) →
        garble_tables blake3 wl0 wl1 gs gi = .error (-4)) := by
  induction gs with
  | nil =>
    intro gi _
    refine ⟨fun _ => ⟨[], rfl, rfl⟩, ?_⟩
    rintro ⟨g, hg, _⟩
    cases hg
  | cons g rest ih =>
    intro gi hb
    obtain ⟨hi0, hi1, ho⟩ := hb g (List.mem_cons_self _ _)
    have hrest : ∀ g ∈ rest, g.in0 < n ∧ g.in1 < n ∧ g.out < n :=
      fun x hx => hb x (List.mem_cons_of_mem _ hx)
    obtain ⟨ihok, iherr⟩ := ih (gi + 1) hrest
    by_cases hty : g.type = GC_GATE_AND ∨ g.type = GC_GATE_XOR ∨ g.type = GC_GATE_NOT
    · obtain ⟨gg, hgg⟩ := garble_gate_ok blake3 n wl0 wl1 g gi h0 h1 hi0 hi1 ho hty
      constructor
      · intro hall
        obtain ⟨ggs, hggs, htypes⟩ := ihok (fun x hx => hall x (List.mem_cons_of_mem _ hx))
        refine ⟨gg :: ggs, ?_, ?_⟩
        · unfold garble_tables
          rw [hgg, bind_ok, hggs, bind_ok]
        · simp only [List.map_cons, htypes, garble_gate_type blake3 wl0 wl1 g gi gg hgg]
      · rintro ⟨x, hx, hxty⟩
        have hxr : x ∈ rest := by
          rcases List.mem_cons.mp hx with rfl | hxr
          · exact absurd hty hxty
          · exact hxr
        unfold garble_tables
        rw [hgg, bind_ok, iherr ⟨x, hxr, hxty⟩]
        rfl
    · constructor
      · intro hall
        exact absurd (hall g (List.mem_cons_self _ _)) hty
      · intro _
        unfold garble_tables
        rw [garble_gate_unknown blake3 n wl0 wl1 g gi h0 h1 hi0 hi1 hty]
        rfl

/-- On a circuit whose gates name only wires below `n_wires`, `gc_garble`
succeeds and copies the gate types when every type is known, and returns `-4`
when some type is not. -/
theorem gc_garble_bounds (blake3 : keyed_hash) (s : gc_globals) (plain : gc_circuit)
    (hb : ∀ g ∈ plain.gates,
      g.in0 < plain.n_wires ∧ g.in1 < plain.n_wires ∧ g.out < plain.n_wires) :
    ((∀ g ∈ plain.gates,
        g.type = GC_GATE_AND ∨ g.type = GC_GATE_XOR ∨ g.type = GC_GATE_NOT) →
      ∃ gc, (gc_garble blake3 s plain).1 = .ok gc ∧
        gc.gates.map (fun gg => gg.type) = plain.gates.map (fun g => g.type)) ∧
    ((∃ g ∈ plain.gates,
        ¬ (g.type = GC_GATE_AND ∨ g.type = GC_GATE_XOR ∨ g.type = GC_GATE_NOT)) →
      (gc_garble blake3 s plain).1 = .error (-4)) := by
  obtain ⟨a, b, hab, ha, hb2⟩ := garble_xor_pass_bounds (gc_init_delta blake3 s).GC_DELTA
    plain.n_wires plain.gates
    ((List.range plain.n_wires).map fun w => gc_derive_label0 blake3 w)
    ((List.range plain.n_wires).map fun w =>
      gc_label_xor (gc_derive_label0 blake3 w) (gc_init_delta blake3 s).GC_DELTA)
    (by simp) (by simp) hb
  obtain ⟨hok, herr⟩ := garble_tables_bounds blake3 plain.n_wires a b ha hb2 plain.gates 0 hb
  constructor
  · intro hall
    obtain ⟨ggs, hggs, htypes⟩ := hok hall
    refine ⟨⟨plain.n_wires, plain.input_wires, plain.output_wires, ggs, a, b⟩, ?_, htypes⟩
    simp only [gc_garble, hab, bind_ok, hggs]
  · intro hex
    simp only [gc_garble, hab, bind_ok, herr hex]
    rfl

/-! ## Decoding -/

theorem decode_outputs_loop_spec (wl0 wl1 : List gc_label) (ws : List Nat) :
    ∀ ols : List gc_label, (∀ w ∈ ws, w < wl0.length ∧ w < wl1.length) →
      ols.length = ws.length →
      ((∀ (i w : Nat) (l : gc_label), ws[i]? = some w → ols[i]? = some l →
          (wl0[w]? = some l ∨ wl1[w]? = some l)) →
        ∃ bits, decode_outputs_loop wl0 wl1 ws ols = .ok bits ∧ bits.length = ws.length ∧
          ∀ (i w : Nat) (l : gc_label), ws[i]? = some w → ols[i]? = some l →
            bits[i]? = some (if wl0[w]? = some l then 0 else 1)) ∧
      ((∃ (i w : Nat) (l : gc_label), ws[i]? = some w ∧ ols[i]? = some l ∧
          wl0[w]? ≠ some l ∧ wl1[w]? ≠ some l) →
        decode_outputs_loop wl0 wl1 ws ols = .error (-2)) := by
  induction ws with
  | nil =>
    intro ols _ _
    refine ⟨fun _ => ⟨[], rfl, rfl, ?_⟩, ?_⟩
    · intro i w l h; simp at h
    · rintro ⟨i, w, l, h, _⟩; simp at h
  | cons w ws ih =>
    intro ols hb hl
    cases ols with
    | nil => simp at hl
    | cons lo rest =>
      obtain ⟨hw0, hw1⟩ := hb w (List.mem_cons_self _ _)
      obtain ⟨ihok, iherr⟩ := ih rest (fun x hx => hb x (List.mem_cons_of_mem _ hx))
        (by simpa using hl)
      have e0 : wl0[w]? = some wl0[w] := List.getElem?_eq_getElem hw0
      have e1 : wl1[w]? = some wl1[w] := List.getElem?_eq_getElem hw1
      have hstep : decode_outputs_loop wl0 wl1 (w :: ws) (lo :: rest)
          = if gc_label_equal_ct lo wl0[w] then
              (decode_outputs_loop wl0 wl1 ws rest).bind fun bits => .ok (0 :: bits)
            else if gc_label_equal_ct lo wl1[w] then
              (decode_outputs_loop wl0 wl1 ws rest).bind fun bits => .ok (1 :: bits)
            else .error (-2) := by
        rw [decode_outputs_loop, read_at_of_lt wl0 w hw0, bind_ok, read_at_of_lt wl1 w hw1,
          bind_ok]
      rw [hstep]
      constructor
      · intro hgood
        have h0 := hgood 0 w lo (List.getElem?_cons_zero) (List.getElem?_cons_zero)
        obtain ⟨bits, hbits, hlen, hval⟩ := ihok
          (fun i w2 l2 h1 h2 => hgood (i + 1) w2 l2 (by simpa using h1) (by simpa using h2))
        by_cases hc0 : lo = wl0[w]
        · rw [if_pos ((gc_label_equal_ct_iff _ _).mpr hc0), hbits, bind_ok]
          refine ⟨0 :: bits, rfl, by simp [hlen], ?_⟩
          intro i w2 l2 h1 h2
          cases i with
          | zero =>
            simp only [List.getElem?_cons_zero, Option.some.injEq] at h1 h2
            subst h1; subst h2
            simp [e0, hc0]
          | succ i =>
            simp only [List.getElem?_cons_succ] at h1 h2 ⊢
            exact hval i w2 l2 h1 h2
        · have hc1 : lo = wl1[w] := by
            rcases h0 with h | h
            · rw [e0] at h; exact absurd (Option.some.inj h).symm hc0
            · rw [e1] at h; exact (Option.some.inj h).symm
          have hn0 : ¬ gc_label_equal_ct lo wl0[w] = true :=
            fun h => hc0 ((gc_label_equal_ct_iff _ _).mp h)
          rw [if_neg hn0, if_pos ((gc_label_equal_ct_iff _ _).mpr hc1), hbits, bind_ok]
          refine ⟨1 :: bits, rfl, by simp [hlen], ?_⟩
          intro i w2 l2 h1 h2
          cases i with
          | zero =>
            simp only [List.getElem?_cons_zero, Option.some.injEq] at h1 h2
            subst h1; subst h2
            have : ¬ wl0[w]? = some lo := by
              rw [e0]; intro h; exact hc0 (Option.some.inj h).symm
            simp [this]
          | succ i =>
            simp only [List.getElem?_cons_succ] at h1 h2 ⊢
            exact hval i w2 l2 h1 h2
      · rintro ⟨i, w2, l2, h1, h2, hne0, hne1⟩
        cases i with
        | zero =>
          simp only [List.getElem?_cons_zero, Option.some.injEq] at h1 h2
          subst h1; subst h2
          have hn0 : ¬ gc_label_equal_ct lo wl0[w] = true := by
            intro h
            exact hne0 (by rw [e0, (gc_label_equal_ct_iff _ _).mp h])
          have hn1 : ¬ gc_label_equal_ct lo wl1[w] = true := by
            intro h
            exact hne1 (by rw [e1, (gc_label_equal_ct_iff _ _).mp h])
          rw [if_neg hn0, if_neg hn1]
        | succ i =>
          simp only [List.getElem?_cons_succ] at h1 h2
          rw [iherr ⟨i, w2, l2, h1, h2, hne0, hne1⟩]
          by_cases hc0 : gc_label_equal_ct lo wl0[w] = true
          · rw [if_pos hc0]; rfl
          · rw [if_neg hc0]
            by_cases hc1 : gc_label_equal_ct lo wl1[w] = true
            · rw [if_pos hc1]; rfl
            · rw [if_neg hc1]

/-! ## Validation in the clear evaluator -/

theorem eval_clear_inputs_spec (n : Nat) (ws : List Nat) :
    ∀ (inputs wv : List uint8_t), wv.length = n → ws.length ≤ inputs.length →
      ((∀ w ∈ ws, w < n) →
        ∃ wv2, eval_clear_inputs n ws inputs wv = .ok wv2 ∧ wv2.length = n) ∧
      ((∃ w ∈ ws, w ≥ n) → eval_clear_inputs n ws inputs wv = .error (-4)) := by
  induction ws with
  | nil =>
    intro inputs wv hlen _
    refine ⟨fun _ => ⟨wv, rfl, hlen⟩, ?_⟩
    rintro ⟨w, hw, _⟩; cases hw
  | cons w ws ih =>
    intro inputs wv hlen hin
    unfold eval_clear_inputs
    by_cases hw : w ≥ n
    · rw [if_pos hw]
      exact ⟨fun h => absurd (h w (List.mem_cons_self _ _)) (by omega), fun _ => rfl⟩
    · rw [if_neg hw]
      cases inputs with
      | nil => simp at hin
      | cons x xs =>
        simp only []
        rw [write_at_of_lt _ _ _ (by omega), bind_ok]
        obtain ⟨ihok, iherr⟩ := ih xs (wv.set w (nonzero_bit x))
          (by rw [List.length_set]; exact hlen) (by simpa using hin)
        refine ⟨fun h => ihok (fun y hy => h y (List.mem_cons_of_mem _ hy)), ?_⟩
        rintro ⟨y, hy, hyn⟩
        rcases List.mem_cons.mp hy with rfl | hy2
        · exact absurd hyn hw
        · exact iherr ⟨y, hy2, hyn⟩

theorem eval_clear_gate_spec (n : Nat) (g : gc_gate) (wv : List uint8_t) (hlen : wv.length = n) :
    (¬ clear_gate_invalid n g →
      ∃ wv2, eval_clear_gate n g wv = .ok wv2 ∧ wv2.length = n) ∧
    (clear_gate_invalid n g → ∃ rc, rc ≠ 0 ∧ eval_clear_gate n g wv = .error rc) := by
  unfold clear_gate_invalid eval_clear_gate
  by_cases ho : g.out ≥ n
  · rw [if_pos ho]
    exact ⟨fun h => absurd (Or.inl ho) h, fun _ => ⟨-5, by decide, rfl⟩⟩
  · rw [if_neg ho]
    by_cases ha : g.type = GC_GATE_AND
    · rw [if_pos ha]
      by_cases hi : g.in0 ≥ n ∨ g.in1 ≥ n
      · rw [if_pos hi]
        refine ⟨fun h => absurd ?_ h, fun _ => ⟨-6, by decide, rfl⟩⟩
        rcases hi with hi | hi
        · exact Or.inr (Or.inr (Or.inl hi))
        · exact Or.inr (Or.inr (Or.inr ⟨Or.inl ha, hi⟩))
      · rw [if_neg hi]
        have hi0 : g.in0 < wv.length := by omega
        have hi1 : g.in1 < wv.length := by omega
        rw [read_at_of_lt wv g.in0 hi0, bind_ok, read_at_of_lt wv g.in1 hi1, bind_ok,
          write_at_of_lt _ _ _ (by omega)]
        refine ⟨fun _ => ⟨_, rfl, by rw [List.length_set]; exact hlen⟩, ?_⟩
        rintro (h | ⟨h, _⟩ | h | ⟨_, h⟩)
        · exact absurd h ho
        · exact absurd ha h
        · exact absurd h (by omega)
        · exact absurd h (by omega)
    · rw [if_neg ha]
      by_cases hx : g.type = GC_GATE_XOR
      · rw [if_pos hx]
        by_cases hi : g.in0 ≥ n ∨ g.in1 ≥ n
        · rw [if_pos hi]
          refine ⟨fun h => absurd ?_ h, fun _ => ⟨-7, by decide, rfl⟩⟩
          rcases hi with hi | hi
          · exact Or.inr (Or.inr (Or.inl hi))
          · exact Or.inr (Or.inr (Or.inr ⟨Or.inr hx, hi⟩))
        · rw [if_neg hi]
          have hi0 : g.in0 < wv.length := by omega
          have hi1 : g.in1 < wv.length := by omega
          rw [read_at_of_lt wv g.in0 hi0, bind_ok, read_at_of_lt wv g.in1 hi1, bind_ok,
            write_at_of_lt _ _ _ (by omega)]
          refine ⟨fun _ => ⟨_, rfl, by rw [List.length_set]; exact hlen⟩, ?_⟩
          rintro (h | ⟨_, h, _⟩ | h | ⟨_, h⟩)
          · exact absurd h ho
          · exact absurd hx h
          · exact absurd h (by omega)
          · exact absurd h (by omega)
      · rw [if_neg hx]
        by_cases hn : g.type = GC_GATE_NOT
        · rw [if_pos hn]
          by_cases hi : g.in0 ≥ n
          · rw [if_pos hi]
            exact ⟨fun h => absurd (Or.inr (Or.inr (Or.inl hi))) h,
              fun _ => ⟨-8, by decide, rfl⟩⟩
          · rw [if_neg hi]
            have hi0 : g.in0 < wv.length := by omega
            rw [read_at_of_lt wv g.in0 hi0, bind_ok, write_at_of_lt _ _ _ (by omega)]
            refine ⟨fun _ => ⟨_, rfl, by rw [List.length_set]; exact hlen⟩, ?_⟩
            rintro (h | ⟨_, _, h⟩ | h | ⟨h | h, _⟩)
            · exact absurd h ho
            · exact absurd hn h
            · exact absurd h hi
            · exact absurd h ha
            · exact absurd h hx
        · rw [if_neg hn]
          exact ⟨fun h => absurd (Or.inr (Or.inl ⟨ha, hx, hn⟩)) h,
            fun _ => ⟨-9, by decide, rfl⟩⟩

theorem eval_clear_gates_spec (n : Nat) (gs : List gc_gate) :
    ∀ wv : List uint8_t, wv.length = n →
      ((∀ g ∈ gs, ¬ clear_gate_invalid n g) →
        ∃ wv2, eval_clear_gates n gs wv = .ok wv2 ∧ wv2.length = n) ∧
      ((∃ g ∈ gs, clear_gate_invalid n g) →
        ∃ rc, rc ≠ 0 ∧ eval_clear_gates n gs wv = .error rc) := by
  induction gs with
  | nil =>
    intro wv hlen
    refine ⟨fun _ => ⟨wv, rfl, hlen⟩, ?_⟩
    rintro ⟨g, hg, _⟩; cases hg
  | cons g gs ih =>
    intro wv hlen
    obtain ⟨hok, herr⟩ := eval_clear_gate_spec n g wv hlen
    unfold eval_clear_gates
    by_cases hg : clear_gate_invalid n g
    · obtain ⟨rc, hrc, he⟩ := herr hg
      rw [he]
      exact ⟨fun h => absurd hg (h g (List.mem_cons_self _ _)), fun _ => ⟨rc, hrc, rfl⟩⟩
    · obtain ⟨wv2, he, hlen2⟩ := hok hg
      rw [he, bind_ok]
      obtain ⟨ihok, iherr⟩ := ih wv2 hlen2
      refine ⟨fun h => ihok (fun y hy => h y (List.mem_cons_of_mem _ hy)), ?_⟩
      rintro ⟨y, hy, hyi⟩
      rcases List.mem_cons.mp hy with rfl | hy2
      · exact absurd hyi hg
      · exact iherr ⟨y, hy2, hyi⟩

theorem eval_clear_outputs_spec (n : Nat) (wv : List uint8_t) (hlen : wv.length = n)
    (ws : List Nat) :
    ((∀ w ∈ ws, w < n) → ∃ outs, eval_clear_outputs n wv ws = .ok outs) ∧
    ((∃ w ∈ ws, w ≥ n) → eval_clear_outputs n wv ws = .error (-10)) := by
  induction ws with
  | nil =>
    refine ⟨fun _ => ⟨[], rfl⟩, ?_⟩
    rintro ⟨w, hw, _⟩; cases hw
  | cons w ws ih =>
    obtain ⟨ihok, iherr⟩ := ih
    unfold eval_clear_outputs
    by_cases hw : w ≥ n
    · rw [if_pos hw]
      exact ⟨fun h => absurd (h w (List.mem_cons_self _ _)) (by omega), fun _ => rfl⟩
    · rw [if_neg hw, read_at_of_lt wv w (by omega), bind_ok]
      constructor
      · intro h
        obtain ⟨outs, ho⟩ := ihok (fun y hy => h y (List.mem_cons_of_mem _ hy))
        rw [ho, bind_ok]
        exact ⟨_, rfl⟩
      · rintro ⟨y, hy, hyn⟩
        rcases List.mem_cons.mp hy with rfl | hy2
        · exact absurd hyn hw
        · rw [iherr ⟨y, hy2, hyn⟩]; rfl

theorem gc_eval_clear_spec (c : gc_circuit) (inputs : List uint8_t)
    (hin : c.n_inputs ≤ inputs.length) :
    (clear_circuit_invalid c → ∃ rc, rc ≠ 0 ∧ gc_eval_clear c inputs = .error rc) ∧
    (¬ clear_circuit_invalid c → ∃ outs, gc_eval_clear c inputs = .ok outs) := by
  unfold gc_eval_clear
  by_cases hz : c.n_inputs = 0 ∨ c.n_outputs = 0 ∨ c.n_wires = 0
  · rw [if_pos hz]
    refine ⟨fun _ => ⟨-2, by decide, rfl⟩, fun h => absurd ?_ h⟩
    rcases hz with h | h | h
    · exact Or.inl h
    · exact Or.inr (Or.inl h)
    · exact Or.inr (Or.inr (Or.inl h))
  · rw [if_neg hz]
    obtain ⟨iok, ierr⟩ := eval_clear_inputs_spec c.n_wires c.input_wires inputs
      (List.replicate c.n_wires 0) (by simp) hin
    by_cases hi : ∃ w ∈ c.input_wires, w ≥ c.n_wires
    · rw [ierr hi]
      refine ⟨fun _ => ⟨-4, by decide, rfl⟩, fun h => absurd ?_ h⟩
      exact Or.inr (Or.inr (Or.inr (Or.inl hi)))
    · obtain ⟨wv1, h1, hlen1⟩ := iok (fun w hw => by
        by_contra hlt
        exact hi ⟨w, hw, by omega⟩)
      rw [h1, bind_ok]
      obtain ⟨gok, gerr⟩ := eval_clear_gates_spec c.n_wires c.gates wv1 hlen1
      by_cases hg : ∃ g ∈ c.gates, clear_gate_invalid c.n_wires g
      · obtain ⟨rc, hrc, he⟩ := gerr hg
        rw [he]
        refine ⟨fun _ => ⟨rc, hrc, rfl⟩, fun h => absurd ?_ h⟩
        exact Or.inr (Or.inr (Or.inr (Or.inr (Or.inr hg))))
      · obtain ⟨wv2, h2, hlen2⟩ := gok (fun g hgm hinv => hg ⟨g, hgm, hinv⟩)
        rw [h2, bind_ok]
        obtain ⟨ook, oerr⟩ := eval_clear_outputs_spec c.n_wires wv2 hlen2 c.output_wires
        by_cases ho : ∃ w ∈ c.output_wires, w ≥ c.n_wires
        · rw [oerr ho]
          refine ⟨fun _ => ⟨-10, by decide, rfl⟩, fun h => absurd ?_ h⟩
          exact Or.inr (Or.inr (Or.inr (Or.inr (Or.inl ho))))
        · obtain ⟨outs, h3⟩ := ook (fun w hw => by
            by_contra hlt
            exact ho ⟨w, hw, by omega⟩)
          rw [h3]
          refine ⟨fun h => absurd h ?_, fun _ => ⟨outs, rfl⟩⟩
          rintro (h | h | h | h | h | h)
          · exact hz (Or.inl h)
          · exact hz (Or.inr (Or.inl h))
          · exact hz (Or.inr (Or.inr h))
          · exact hi h
          · exact ho h
          · exact hg h

/-! ## Statistics, decoding and validation: the statements -/

/-- C12 (statistics of the garbled 2-bit equality circuit): `gc_garble` succeeds
on `gc_circuit_eq_2bit()`, and `gc_compute_stats` of the result yields
`num_gates = 5`, `num_and_gates = 1`, `num_xor_gates = 2`, `num_not_gates = 2`,
`num_ciphertexts = 12` and `ciphertext_bytes = 192`, whatever the keyed hash and
the state of the global offset. -/
theorem gc_compute_stats_eq_2bit (blake3 : keyed_hash) (s : gc_globals) :
    ∃ gc, (gc_garble blake3 s gc_circuit_eq_2bit).1 = .ok gc ∧
      gc_compute_stats gc =
        { num_gates := 5, num_and_gates := 1, num_xor_gates := 2, num_not_gates := 2,
          num_ciphertexts := 12, ciphertext_bytes := 192 } := by
  obtain ⟨gc, hgc, htypes⟩ :=
    (gc_garble_bounds blake3 s gc_circuit_eq_2bit (by decide)).1 (by decide)
  refine ⟨gc, hgc, ?_⟩
  have hcount : ∀ t : gc_gate_type,
      gc.gates.countP (fun g => decide (g.type = t))
        = (gc_circuit_eq_2bit.gates.map fun g => g.type).countP (fun x => decide (x = t)) := by
    intro t
    rw [← htypes, List.countP_map]
    rfl
  have hlen : gc.n_gates = 5 := by
    have := congrArg List.length htypes
    simpa [gc_garbled_circuit.n_gates, gc_circuit_eq_2bit] using this
  obtain ⟨h1, h2, h3, h4, h5, h6⟩ := gc_compute_stats_spec gc
  rw [hcount] at h2 h3 h4
  rw [h2, h4] at h5
  rw [h5] at h6
  rw [hlen] at h1
  have e2 : (gc_circuit_eq_2bit.gates.map fun g => g.type).countP
      (fun x => decide (x = GC_GATE_AND)) = 1 := by decide
  have e3 : (gc_circuit_eq_2bit.gates.map fun g => g.type).countP
      (fun x => decide (x = GC_GATE_XOR)) = 2 := by decide
  have e4 : (gc_circuit_eq_2bit.gates.map fun g => g.type).countP
      (fun x => decide (x = GC_GATE_NOT)) = 2 := by decide
  rw [e2] at h2 h5 h6
  rw [e3] at h3
  rw [e4] at h4 h5 h6
  generalize gc_compute_stats gc = st at h1 h2 h3 h4 h5 h6
  cases st
  simp only at h1 h2 h3 h4 h5 h6
  subst h1 h2 h3 h4 h5 h6
  rfl

/-- C13 (decoding): for a garbled circuit whose listed output wires index its
two label arrays and as many supplied labels as output wires,
`gc_decode_outputs` returns success if and only if every supplied label equals
`wire_labels0[w]` or `wire_labels1[w]` of its output wire `w`; on success there
is one bit per output, bit `i` being 0 when label `i` equals `wire_labels0[w]`
and 1 otherwise; and if some label equals neither, the return code is `-2`. -/
theorem gc_decode_outputs_iff (gc : gc_garbled_circuit) (output_labels : List gc_label)
    (hw : ∀ w ∈ gc.output_wires, w < gc.wire_labels0.length ∧ w < gc.wire_labels1.length)
    (hl : output_labels.length = gc.n_outputs) :
    ((∃ bits, gc_decode_outputs gc output_labels = .ok bits) ↔
      ∀ (i w : Nat) (l : gc_label), gc.output_wires[i]? = some w →
        output_labels[i]? = some l →
        (gc.wire_labels0[w]? = some l ∨ gc.wire_labels1[w]? = some l)) ∧
    (∀ bits, gc_decode_outputs gc output_labels = .ok bits →
      bits.length = gc.n_outputs ∧
      ∀ (i w : Nat) (l : gc_label), gc.output_wires[i]? = some w →
        output_labels[i]? = some l →
        bits[i]? = some (if gc.wire_labels0[w]? = some l then 0 else 1)) ∧
    ((∃ (i w : Nat) (l : gc_label), gc.output_wires[i]? = some w ∧
        output_labels[i]? = some l ∧
        gc.wire_labels0[w]? ≠ some l ∧ gc.wire_labels1[w]? ≠ some l) →
      gc_decode_outputs gc output_labels = .error (-2)) := by
  obtain ⟨hok, herr⟩ := decode_outputs_loop_spec gc.wire_labels0 gc.wire_labels1
    gc.output_wires output_labels hw hl
  unfold gc_decode_outputs
  refine ⟨⟨?_, fun hgood => ?_⟩, ?_, herr⟩
  · rintro ⟨bits, hbits⟩ i w l h1 h2
    by_contra hbad
    rw [herr ⟨i, w, l, h1, h2, fun h => hbad (Or.inl h), fun h => hbad (Or.inr h)⟩] at hbits
    cases hbits
  · obtain ⟨bits, hbits, _⟩ := hok hgood
    exact ⟨bits, hbits⟩
  · intro bits hbits
    have hgood : ∀ (i w : Nat) (l : gc_label), gc.output_wires[i]? = some w →
        output_labels[i]? = some l →
        (gc.wire_labels0[w]? = some l ∨ gc.wire_labels1[w]? = some l) := by
      intro i w l h1 h2
      by_contra hbad
      rw [herr ⟨i, w, l, h1, h2, fun h => hbad (Or.inl h), fun h => hbad (Or.inr h)⟩]
        at hbits
      cases hbits
    obtain ⟨bits2, hbits2, hlen, hval⟩ := hok hgood
    rw [hbits2] at hbits
    cases hbits
    exact ⟨hlen, hval⟩

set_option maxRecDepth 100000 in
theorem gc_decode_outputs_iff_witness :
    (∀ w ∈ toy_garbled_and_2.output_wires,
      w < toy_garbled_and_2.wire_labels0.length ∧ w < toy_garbled_and_2.wire_labels1.length) ∧
    (toy_garbled_and_2.wire_labels1.drop 2).length = toy_garbled_and_2.n_outputs ∧
    (∀ bits, gc_decode_outputs toy_garbled_and_2 (toy_garbled_and_2.wire_labels1.drop 2)
        = .ok bits →
      bits.length = toy_garbled_and_2.n_outputs ∧
      ∀ (i w : Nat) (l : gc_label), toy_garbled_and_2.output_wires[i]? = some w →
        (toy_garbled_and_2.wire_labels1.drop 2)[i]? = some l →
        bits[i]? = some (if toy_garbled_and_2.wire_labels0[w]? = some l then 0 else 1)) :=
  ⟨by decide, by decide,
    (gc_decode_outputs_iff toy_garbled_and_2 (toy_garbled_and_2.wire_labels1.drop 2)
      (by decide) (by decide)).2.1⟩

/-- C14 (validation in the clear evaluator): given at least `n_inputs` input
bytes, `gc_eval_clear` returns a non-zero code if and only if `n_inputs`,
`n_outputs` or `n_wires` is zero, or a listed input or output wire is
`>= n_wires`, or some gate has `out >= n_wires`, an unknown type,
`in0 >= n_wires`, or, being an AND or XOR gate, `in1 >= n_wires`; in every other
case it returns 0. -/
theorem gc_eval_clear_error_iff (c : gc_circuit) (inputs : List uint8_t)
    (hin : c.n_inputs ≤ inputs.length) :
    ((∃ rc, rc ≠ 0 ∧ gc_eval_clear c inputs = .error rc) ↔ clear_circuit_invalid c) ∧
    (¬ clear_circuit_invalid c → ∃ outs, gc_eval_clear c inputs = .ok outs) := by
  obtain ⟨herr, hok⟩ := gc_eval_clear_spec c inputs hin
  refine ⟨⟨?_, herr⟩, hok⟩
  rintro ⟨rc, _, hrc⟩
  by_contra hinv
  obtain ⟨outs, houts⟩ := hok hinv
  rw [houts] at hrc
  cases hrc

theorem gc_eval_clear_error_iff_witness :
    gc_circuit_and_2.n_inputs ≤ [(1 : uint8_t), 1].length ∧
    (((∃ rc, rc ≠ 0 ∧ gc_eval_clear gc_circuit_and_2 [1, 1] = .error rc) ↔
        clear_circuit_invalid gc_circuit_and_2) ∧
      (¬ clear_circuit_invalid gc_circuit_and_2 →
        ∃ outs, gc_eval_clear gc_circuit_and_2 [1, 1] = .ok outs)) :=
  ⟨by decide, gc_eval_clear_error_iff gc_circuit_and_2 [1, 1] (by decide)⟩

/-- C16 (unknown gate types in the garbler): for a circuit whose gates name
only wires below `n_wires`, `gc_garble` returns an error, and with it no
garbled circuit, if and only if some gate has a type outside AND, XOR, NOT; the
error code is then `-4`; otherwise it returns 0 with a garbled circuit. -/
theorem gc_garble_error_iff_unknown_type (blake3 : keyed_hash) (s : gc_globals)
    (plain : gc_circuit)
    (hb : ∀ g ∈ plain.gates,
      g.in0 < plain.n_wires ∧ g.in1 < plain.n_wires ∧ g.out < plain.n_wires) :
    ((∃ rc, (gc_garble blake3 s plain).1 = .error rc) ↔
      ∃ g ∈ plain.gates,
        ¬ (g.type = GC_GATE_AND ∨ g.type = GC_GATE_XOR ∨ g.type = GC_GATE_NOT)) ∧
    ((∃ g ∈ plain.gates,
        ¬ (g.type = GC_GATE_AND ∨ g.type = GC_GATE_XOR ∨ g.type = GC_GATE_NOT)) →
      (gc_garble blake3 s plain).1 = .error (-4)) ∧
    ((¬ ∃ g ∈ plain.gates,
        ¬ (g.type = GC_GATE_AND ∨ g.type = GC_GATE_XOR ∨ g.type = GC_GATE_NOT)) →
      ∃ gc, (gc_garble blake3 s plain).1 = .ok gc) := by
  obtain ⟨hok, herr⟩ := gc_garble_bounds blake3 s plain hb
  have hok2 : (¬ ∃ g ∈ plain.gates,
        ¬ (g.type = GC_GATE_AND ∨ g.type = GC_GATE_XOR ∨ g.type = GC_GATE_NOT)) →
      ∃ gc, (gc_garble blake3 s plain).1 = .ok gc := by
    intro hno
    obtain ⟨gc, hgc, _⟩ := hok (fun g hg => by
      by_contra hty
      exact hno ⟨g, hg, hty⟩)
    exact ⟨gc, hgc⟩
  refine ⟨⟨?_, fun h => ⟨-4, herr h⟩⟩, herr, hok2⟩
  rintro ⟨rc, hrc⟩
  by_contra hno
  obtain ⟨gc, hgc⟩ := hok2 hno
  rw [hgc] at hrc
  cases hrc

theorem gc_garble_error_iff_unknown_type_witness :
    (∀ g ∈ circuit_unknown_gate_type.gates,
      g.in0 < circuit_unknown_gate_type.n_wires ∧ g.in1 < circuit_unknown_gate_type.n_wires ∧
        g.out < circuit_unknown_gate_type.n_wires) ∧
    (∃ g ∈ circuit_unknown_gate_type.gates,
      ¬ (g.type = GC_GATE_AND ∨ g.type = GC_GATE_XOR ∨ g.type = GC_GATE_NOT)) ∧
    (gc_garble toy_hash gc_globals_startup circuit_unknown_gate_type).1 = .error (-4) :=
  ⟨by decide, by decide,
    (gc_garble_error_iff_unknown_type toy_hash gc_globals_startup circuit_unknown_gate_type
      (by decide)).2.1 (by decide)⟩

/-- C17 (argument errors of the PSI driver): when `count = 0`, `psi_gc_compute`
returns 0 with the mask as it was passed in, and when `count > max_elems` it
returns the error code `-2`; in both cases it returns at its own guard, the
zero check first, without garbling (the global offset is untouched) and without
entering the comparison loops, the only code that writes the mask. -/
theorem psi_gc_compute_argument_errors (blake3 : keyed_hash) (s : gc_globals)
    (ctx : psi_gc_ctx) (inputs_a inputs_b : List uint8_t) (count : Nat)
    (out_mask : List uint8_t) (h : count = 0 ∨ count > ctx.max_elems) :
    psi_gc_compute blake3 s ctx inputs_a inputs_b count out_mask
      = (if count = 0 then .ok out_mask else .error (-2), s) := by
  unfold psi_gc_compute
  by_cases h0 : count = 0
  · rw [if_pos h0, if_pos h0]
  · rw [if_neg h0, if_neg h0, if_pos (h.resolve_left h0)]

theorem psi_gc_compute_argument_errors_witness :
    ((0 : Nat) = 0 ∨ 0 > ({ max_elems := 2, elem_bits := 8 } : psi_gc_ctx).max_elems) ∧
    ((3 : Nat) = 0 ∨ 3 > ({ max_elems := 2, elem_bits := 8 } : psi_gc_ctx).max_elems) ∧
    psi_gc_compute toy_hash gc_globals_startup { max_elems := 2, elem_bits := 8 }
        [1, 2, 3] [3, 2, 1] 0 [7, 7, 7] = (.ok [7, 7, 7], gc_globals_startup) ∧
    psi_gc_compute toy_hash gc_globals_startup { max_elems := 2, elem_bits := 8 }
        [1, 2, 3] [3, 2, 1] 3 [7, 7, 7] = (.error (-2), gc_globals_startup) :=
  ⟨by decide, by decide,
    psi_gc_compute_argument_errors toy_hash gc_globals_startup
      { max_elems := 2, elem_bits := 8 } [1, 2, 3] [3, 2, 1] 0 [7, 7, 7] (by decide),
    psi_gc_compute_argument_errors toy_hash gc_globals_startup
      { max_elems := 2, elem_bits := 8 } [1, 2, 3] [3, 2, 1] 3 [7, 7, 7] (by decide)⟩

/-- C15, evaluation on a garbled circuit of three wires whose XOR gate names
wire 7 as `in1`: `gc_eval_garbled` checks `out` only and reads `wire_vals[7]`,
outside the array, instead of returning an error, for every hash and every pair
of input labels; `gc_eval_clear` on the same wiring returns `-7`. -/
theorem gc_eval_garbled_in1_unchecked (blake3 : keyed_hash) (x y : gc_label) :
    gc_eval_garbled blake3 garbled_in1_out_of_range [x, y] = .undefined ∧
    gc_eval_clear circuit_in1_out_of_range [0, 0] = .error (-7) :=
  ⟨rfl, rfl⟩

/-! ## The PSI driver: the plaintext reference -/

theorem build_eq_circuit_bits_large (k : Nat) (hk : k > 512) :
    build_eq_circuit_bits k = none := by
  unfold build_eq_circuit_bits
  rw [if_pos (Or.inr hk)]

theorem elem_offset_le (count eb i len : Nat) (h : count * eb ≤ len) (hi : i < count) :
    i * eb + eb ≤ len := by
  have := Nat.mul_le_mul_right eb (show i + 1 ≤ count by omega)
  rw [Nat.add_mul, Nat.one_mul] at this
  omega

theorem psi_naive_find_spec (A B : List uint8_t) (count eb : Nat)
    (hA : count * eb ≤ A.length) (hB : count * eb ≤ B.length) (i : Nat) (hi : i < count)
    (js : List Nat) :
    (∀ j ∈ js, j < count) →
    psi_naive_find A B eb i js = .ok (bit (js.any fun j => elem_bytes_match A B eb i j)) := by
  induction js with
  | nil => intro _; rfl
  | cons j rest ih =>
    intro hjs
    have hj : j < count := hjs j (List.mem_cons_self _ _)
    have hiA := elem_offset_le count eb i A.length hA hi
    have hjB := elem_offset_le count eb j B.length hB hj
    unfold psi_naive_find
    unfold memcmp_is_zero
    rw [if_pos ⟨hiA, hjB⟩, bind_ok, ih (fun x hx => hjs x (List.mem_cons_of_mem _ hx))]
    simp only [List.any_cons, elem_bytes_match]
    by_cases e : (A.drop (i * eb)).take eb = (B.drop (j * eb)).take eb
    · simp [e, bit]
    · simp [e]

theorem psi_naive_loop_spec (A B : List uint8_t) (count eb : Nat)
    (hA : count * eb ≤ A.length) (hB : count * eb ≤ B.length) (m : Nat) :
    ∀ (s : Nat) (mask : List uint8_t), s + m ≤ count → count ≤ mask.length →
      ∃ M, psi_naive_loop A B count eb (List.range' s m) mask = .ok M ∧
        M.length = mask.length ∧
        (∀ i, s ≤ i → i < s + m →
          M[i]? = some (bit ((List.range count).any fun j => elem_bytes_match A B eb i j))) ∧
        (∀ i, (i < s ∨ s + m ≤ i) → M[i]? = mask[i]?) := by
  induction m with
  | zero =>
    intro s mask _ _
    refine ⟨mask, rfl, rfl, ?_, fun _ _ => rfl⟩
    intro i h1 h2; omega
  | succ m ih =>
    intro s mask hs hm
    rw [List.range'_succ]
    simp only [psi_naive_loop]
    rw [psi_naive_find_spec A B count eb hA hB s (by omega) (List.range count)
      (fun j hj => List.mem_range.mp hj), bind_ok, write_at_of_lt _ _ _ (by omega), bind_ok]
    obtain ⟨M, hM, hlenM, hvals, hframe⟩ := ih (s + 1)
      (mask.set s (bit ((List.range count).any fun j => elem_bytes_match A B eb s j)))
      (by omega) (by simp only [List.length_set]; exact hm)
    refine ⟨M, hM, by rw [hlenM, List.length_set], ?_, ?_⟩
    · intro i h1 h2
      by_cases hi : i = s
      · subst hi
        rw [hframe i (Or.inl (by omega)), getElem?_set_eq_ite, if_pos ⟨rfl, by omega⟩]
      · exact hvals i (by omega) (by omega)
    · intro i hi
      rw [hframe i (by omega), getElem?_set_eq_ite, if_neg (by omega)]

/-- What `psi_compute_naive` writes: for every `i < count`, `mask[i]` is 1
exactly when the `eb` bytes of some `B[j]` equal those of `A[i]`; entries from
`count` on are untouched. -/
theorem psi_compute_naive_spec (A B : List uint8_t) (count eb : Nat)
    (hA : count * eb ≤ A.length) (hB : count * eb ≤ B.length)
    (mask : List uint8_t) (hm : count ≤ mask.length) :
    ∃ M, psi_compute_naive A B count eb mask = .ok M ∧ M.length = mask.length ∧
      (∀ i, i < count →
        M[i]? = some (bit ((List.range count).any fun j => elem_bytes_match A B eb i j))) ∧
      (∀ i, count ≤ i → M[i]? = mask[i]?) := by
  obtain ⟨M, hM, hlenM, hvals, hframe⟩ :=
    psi_naive_loop_spec A B count eb hA hB count 0 mask (by omega) hm
  refine ⟨M, ?_, hlenM, fun i hi => hvals i (by omega) (by omega),
    fun i hi => hframe i (Or.inr (by omega))⟩
  unfold psi_compute_naive
  rw [List.range_eq_range', hM]

/-- For an element width above 512 bits `psi_gc_compute` is the plaintext
reference: it returns what `psi_hash_only_compute` returns and leaves the
global offset alone. -/
theorem psi_gc_compute_fallback (blake3 : keyed_hash) (s : gc_globals) (ctx : psi_gc_ctx)
    (hk : ctx.elem_bits > 512) (A B : List uint8_t) (count : Nat) (mask : List uint8_t) :
    psi_gc_compute blake3 s ctx A B count mask = (psi_hash_only_compute ctx A B count mask, s) := by
  unfold psi_gc_compute psi_hash_only_compute
  by_cases h0 : count = 0
  · rw [if_pos h0, if_pos h0]
  · rw [if_neg h0, if_neg h0]
    by_cases h1 : count > ctx.max_elems
    · rw [if_pos h1, if_pos h1]
    · rw [if_neg h1, if_neg h1]
      unfold psi_gc_compute_with_gc_y
      rw [if_neg h0, if_neg h1]
      simp only [build_eq_circuit_bits_large ctx.elem_bits hk]

theorem to_size_t_le (x : Nat) : to_size_t x ≤ x := Nat.mod_le x _

/-- The driver returns 0 for every element width: with buffers of `count`
elements of `ceil(elem_bits / 8)` bytes, the mask entries below `count` are
bits that depend on the two inputs only, the entries from `count` on are
untouched, and the global offset stays in a reachable state. -/
theorem psi_gc_compute_total (blake3 : keyed_hash) (ctx : psi_gc_ctx)
    (hk1 : 1 ≤ ctx.elem_bits) (count : Nat) (hc1 : 1 ≤ count) (hc2 : count ≤ ctx.max_elems)
    (A B : List uint8_t)
    (hA : count * ((ctx.elem_bits + 7) / 8) ≤ A.length)
    (hB : count * ((ctx.elem_bits + 7) / 8) ≤ B.length) :
    ∃ f : Nat → Bool, ∀ (s : gc_globals) (mask : List uint8_t),
      gc_globals_reachable blake3 s → count ≤ mask.length →
      ∃ M s2, psi_gc_compute blake3 s ctx A B count mask = (.ok M, s2) ∧
        gc_globals_reachable blake3 s2 ∧ M.length = mask.length ∧
        (∀ i, i < count → M[i]? = some (bit (f i))) ∧
        (∀ i, count ≤ i → M[i]? = mask[i]?) := by
  by_cases hk2 : ctx.elem_bits ≤ 512
  · refine ⟨fun i => (List.range count).any fun j =>
      elem_bits_match A B ((ctx.elem_bits + 7) / 8) ctx.elem_bits i j, ?_⟩
    intro s mask hs hm
    obtain ⟨M, hM, hlen, hvals, hframe⟩ :=
      psi_gc_compute_bits blake3 s hs ctx hk1 hk2 count hc1 hc2 A B hA hB mask hm
    exact ⟨M, _, hM, gc_globals_reachable.init_delta s hs, hlen, hvals, hframe⟩
  · have hle : to_size_t (ctx.elem_bits + 7) / 8 ≤ (ctx.elem_bits + 7) / 8 :=
      Nat.div_le_div_right (to_size_t_le _)
    have hA2 : count * (to_size_t (ctx.elem_bits + 7) / 8) ≤ A.length :=
      Nat.le_trans (Nat.mul_le_mul_left count hle) hA
    have hB2 : count * (to_size_t (ctx.elem_bits + 7) / 8) ≤ B.length :=
      Nat.le_trans (Nat.mul_le_mul_left count hle) hB
    refine ⟨fun i => (List.range count).any fun j =>
      elem_bytes_match A B (to_size_t (ctx.elem_bits + 7) / 8) i j, ?_⟩
    intro s mask hs hm
    obtain ⟨M, hM, hlen, hvals, hframe⟩ :=
      psi_compute_naive_spec A B count (to_size_t (ctx.elem_bits + 7) / 8) hA2 hB2 mask hm
    refine ⟨M, s, ?_, hs, hlen, hvals, hframe⟩
    rw [psi_gc_compute_fallback blake3 s ctx (by omega)]
    unfold psi_hash_only_compute
    rw [if_neg (by omega), if_neg (by omega)]
    simp only [hM]


/-- On whole bytes the garbled path and the plaintext reference agree: for
`elem_bits = 8 * nb` with `1 <= nb <= 64` both return 0 with the same mask. -/
theorem psi_gc_compute_parity_whole_bytes (blake3 : keyed_hash) (s : gc_globals)
    (hs : gc_globals_reachable blake3 s) (ctx : psi_gc_ctx) (nb : Nat)
    (hnb1 : 1 ≤ nb) (hnb2 : nb ≤ 64) (hbits : ctx.elem_bits = 8 * nb)
    (count : Nat) (hc1 : 1 ≤ count) (hc2 : count ≤ ctx.max_elems) (A B : List uint8_t)
    (hA : count * nb ≤ A.length) (hB : count * nb ≤ B.length)
    (mask : List uint8_t) (hm : count ≤ mask.length) :
    ∃ M, (psi_gc_compute blake3 s ctx A B count mask).1 = .ok M ∧
      psi_hash_only_compute ctx A B count mask = .ok M := by
  have he : (ctx.elem_bits + 7) / 8 = nb := by rw [hbits]; omega
  obtain ⟨M, hM, hlen, hvals, hframe⟩ :=
    psi_gc_compute_bits blake3 s hs ctx (by omega) (by omega) count hc1 hc2 A B
      (by rw [he]; exact hA) (by rw [he]; exact hB) mask hm
  obtain ⟨M2, hM2, hlen2, hvals2, hframe2⟩ :=
    psi_compute_naive_spec A B count nb hA hB mask hm
  have hsz : to_size_t (ctx.elem_bits + 7) = ctx.elem_bits + 7 :=
    Nat.mod_eq_of_lt (by omega)
  have heq : M2 = M := by
    apply List.ext_getElem?
    intro i
    by_cases hi : i < count
    · rw [hvals i hi, hvals2 i hi]
      have hmatch : ∀ j, j < count →
          elem_bytes_match A B nb i j
            = elem_bits_match A B ((ctx.elem_bits + 7) / 8) ctx.elem_bits i j := by
        intro j hj
        unfold elem_bytes_match elem_bits_match
        rw [he, hbits]
        exact (decide_eq_decide.mpr (elem_bits_of_eq_iff A B (i * nb) (j * nb) nb
          (elem_offset_le count nb i A.length hA hi)
          (elem_offset_le count nb j B.length hB hj))).symm
      have hany : ((List.range count).any fun j => elem_bytes_match A B nb i j)
          = ((List.range count).any fun j =>
              elem_bits_match A B ((ctx.elem_bits + 7) / 8) ctx.elem_bits i j) := by
        rw [Bool.eq_iff_iff, List.any_eq_true, List.any_eq_true]
        constructor
        · rintro ⟨j, hj, h⟩
          exact ⟨j, hj, by rw [← hmatch j (List.mem_range.mp hj)]; exact h⟩
        · rintro ⟨j, hj, h⟩
          exact ⟨j, hj, by rw [hmatch j (List.mem_range.mp hj)]; exact h⟩
      rw [hany]
    · rw [hframe i (by omega), hframe2 i (by omega)]
  refine ⟨M, by rw [hM], ?_⟩
  unfold psi_hash_only_compute
  rw [if_neg (by omega), if_neg (by omega)]
  simp only [hsz, he, hM2, heq]

/-! ## The simulation -/

theorem proto_compare_loop_ok (M1 M2 : List uint8_t) (is : List Nat)
    (h : ∀ i ∈ is, ∃ v, M1[i]? = some v ∧ M2[i]? = some v) :
    proto_compare_loop M1 M2 is = .ok () := by
  induction is with
  | nil => rfl
  | cons i rest ih =>
    obtain ⟨v, h1, h2⟩ := h i (List.mem_cons_self _ _)
    unfold proto_compare_loop
    rw [(read_at_eq_ok _ _ _).mpr h1, bind_ok, (read_at_eq_ok _ _ _).mpr h2, bind_ok,
      if_neg (by simp)]
    exact ih (fun x hx => h x (List.mem_cons_of_mem _ hx))

/-- C20 (the simulation agrees with itself): for a reachable state of the
global offset, every `count >= 1`, every `elem_bits >= 1`, input buffers of
`count` elements of `ceil(elem_bits / 8)` bytes and two mask buffers of at
least `count` entries, `gc_proto_psi_simulate` returns 0 and leaves
`mask_direct[i] = mask_proto[i]` for every `i < count`; in particular the
return value 1 is not produced. -/
theorem gc_proto_psi_simulate_agree (blake3 : keyed_hash) (s : gc_globals)
    (hs : gc_globals_reachable blake3 s) (A B : List uint8_t) (count elem_bits : Nat)
    (hc : 1 ≤ count) (hk : 1 ≤ elem_bits)
    (hA : count * ((elem_bits + 7) / 8) ≤ A.length)
    (hB : count * ((elem_bits + 7) / 8) ≤ B.length)
    (mask_direct mask_proto : List uint8_t)
    (hmd : count ≤ mask_direct.length) (hmp : count ≤ mask_proto.length) :
    (∃ M1 M2 s2,
      gc_proto_psi_simulate blake3 s A B count elem_bits mask_direct mask_proto
        = (.ok (M1, M2), s2) ∧
      M1.length = mask_direct.length ∧ M2.length = mask_proto.length ∧
      ∀ i, i < count → ∃ v, M1[i]? = some v ∧ M2[i]? = some v) ∧
    (gc_proto_psi_simulate blake3 s A B count elem_bits mask_direct mask_proto).1
      ≠ .error 1 := by
  obtain ⟨f, hf⟩ := psi_gc_compute_total blake3 { max_elems := count, elem_bits := elem_bits }
    hk count hc (Nat.le_refl _) A B hA hB
  obtain ⟨M1, s1, h1, hs1, hlen1, hv1, _⟩ := hf s mask_direct hs hmd
  obtain ⟨M2, s2, h2, _, hlen2, hv2, _⟩ := hf s1 mask_proto hs1 hmp
  have hcmp : proto_compare_loop M1 M2 (List.range count) = .ok () :=
    proto_compare_loop_ok M1 M2 _
      (fun i hi => ⟨_, hv1 i (List.mem_range.mp hi), hv2 i (List.mem_range.mp hi)⟩)
  have hres : gc_proto_psi_simulate blake3 s A B count elem_bits mask_direct mask_proto
      = (.ok (M1, M2), s2) := by
    unfold gc_proto_psi_simulate
    rw [if_neg (by omega), if_neg (by omega)]
    have hcreate : psi_gc_create count elem_bits
        = some { max_elems := count, elem_bits := elem_bits } := by
      unfold psi_gc_create
      rw [if_neg (by omega)]
    simp only [hcreate, psi_gc_prepare_circuit, ne_eq, not_true_eq_false, if_false, h1, h2,
      hcmp, bind_ok]
  refine ⟨⟨M1, M2, s2, hres, hlen1, hlen2,
    fun i hi => ⟨_, hv1 i hi, hv2 i hi⟩⟩, ?_⟩
  rw [hres]
  intro h
  cases h

theorem gc_proto_psi_simulate_agree_witness :
    gc_globals_reachable toy_hash gc_globals_startup ∧ 1 ≤ 2 ∧ 1 ≤ 12 ∧
    2 * ((12 + 7) / 8) ≤ [(1 : uint8_t), 0x12, 3, 4].length ∧
    2 * ((12 + 7) / 8) ≤ [(3 : uint8_t), 4, 1, 0xf2].length ∧
    2 ≤ [(0 : uint8_t), 0].length ∧ 2 ≤ [(9 : uint8_t), 9, 9].length ∧
    ((∃ M1 M2 s2,
      gc_proto_psi_simulate toy_hash gc_globals_startup [1, 0x12, 3, 4] [3, 4, 1, 0xf2] 2 12
          [0, 0] [9, 9, 9] = (.ok (M1, M2), s2) ∧
      M1.length = [(0 : uint8_t), 0].length ∧ M2.length = [(9 : uint8_t), 9, 9].length ∧
      ∀ i, i < 2 → ∃ v, M1[i]? = some v ∧ M2[i]? = some v) ∧
    (gc_proto_psi_simulate toy_hash gc_globals_startup [1, 0x12, 3, 4] [3, 4, 1, 0xf2] 2 12
        [0, 0] [9, 9, 9]).1 ≠ .error 1) :=
  ⟨gc_globals_reachable.startup, by decide, by decide, by decide, by decide, by decide,
    by decide,
    gc_proto_psi_simulate_agree toy_hash gc_globals_startup gc_globals_reachable.startup
      [1, 0x12, 3, 4] [3, 4, 1, 0xf2] 2 12 (by decide) (by decide) (by decide) (by decide)
      [0, 0] [9, 9, 9] (by decide) (by decide)⟩

/-! ## Where the driver and the reference part -/

theorem psi_mask_of_bits (M : List uint8_t) (v : uint8_t) (hlen : M.length = 1)
    (h0 : M[0]? = some v) : M = [v] := by
  match M, hlen, h0 with
  | [x], _, h0 =>
    simp only [List.getElem?_cons_zero, Option.some.injEq] at h0
    rw [h0]

/-- C19, evaluation at `elem_bits = 4`, one element `0x12` against one element
`0xf2`: the garbled path compares the four low bits and reports a match, the
plaintext reference compares the whole byte and reports none. -/
theorem psi_gc_compute_differs_from_reference (blake3 : keyed_hash) :
    (psi_gc_compute blake3 gc_globals_startup { max_elems := 1, elem_bits := 4 }
        [0x12] [0xf2] 1 [0]).1 = .ok [1] ∧
    psi_hash_only_compute { max_elems := 1, elem_bits := 4 } [0x12] [0xf2] 1 [0]
      = .ok [0] := by
  constructor
  · obtain ⟨M, hM, hlen, hvals, _⟩ :=
      psi_gc_compute_bits blake3 gc_globals_startup gc_globals_reachable.startup
        { max_elems := 1, elem_bits := 4 } (by decide) (by decide) 1 (by decide) (by decide)
        [0x12] [0xf2] (by decide) (by decide) [0] (by decide)
    rw [hM]
    have h0 := hvals 0 (by decide)
    have hb : bit ((List.range 1).any fun j =>
        elem_bits_match [0x12] [0xf2]
          ((({ max_elems := 1, elem_bits := 4 } : psi_gc_ctx).elem_bits + 7) / 8)
          ({ max_elems := 1, elem_bits := 4 } : psi_gc_ctx).elem_bits 0 j) = 1 := by
      decide
    rw [hb] at h0
    rw [psi_mask_of_bits M 1 hlen h0]
  · decide

theorem psi_compute_naive_zero_bytes (A B : List uint8_t) :
    psi_compute_naive A B 1 0 [0] = .ok [1] := by
  obtain ⟨M, hM, hlen, hvals, _⟩ :=
    psi_compute_naive_spec A B 1 0 (by omega) (by omega) [0] (by decide)
  rw [hM]
  have h0 := hvals 0 (by decide)
  have hb : bit ((List.range 1).any fun j => elem_bytes_match A B 0 0 j) = 1 := by
    simp [elem_bytes_match, bit]
  rw [hb] at h0
  rw [psi_mask_of_bits M 1 hlen h0]

theorem replicate_slices_differ (n : Nat) (hn : 0 < n) :
    ((List.replicate n (0 : uint8_t)).drop (0 * n)).take n
      ≠ ((List.replicate n (1 : uint8_t)).drop (0 * n)).take n := by
  intro h
  have := congrArg (fun l => l[0]?) h
  simp [List.getElem?_take_of_lt hn, List.getElem?_replicate, hn] at this

/-- Evaluation at `elem_bits = 2^64 - 1`, a width whose elements are `2^61`
bytes long: `elem_bits + 7` wraps in `size_t`, the byte count becomes 0 instead
of `2^61`, every comparison is over zero bytes, and two elements that differ in
all of their `2^61` bytes are reported as a match. -/
theorem psi_gc_compute_elem_bytes_wraps (blake3 : keyed_hash) (s : gc_globals) :
    (2 ^ 64 - 1 + 7) / 8 = 2 ^ 61 ∧
    to_size_t (2 ^ 64 - 1 + 7) / 8 = 0 ∧
    psi_gc_compute blake3 s { max_elems := 1, elem_bits := 2 ^ 64 - 1 }
        (List.replicate (2 ^ 61) 0) (List.replicate (2 ^ 61) 1) 1 [0] = (.ok [1], s) ∧
    psi_hash_only_compute { max_elems := 1, elem_bits := 2 ^ 64 - 1 }
        (List.replicate (2 ^ 61) 0) (List.replicate (2 ^ 61) 1) 1 [0] = .ok [1] ∧
    ((List.replicate (2 ^ 61) (0 : uint8_t)).drop (0 * 2 ^ 61)).take (2 ^ 61)
      ≠ ((List.replicate (2 ^ 61) (1 : uint8_t)).drop (0 * 2 ^ 61)).take (2 ^ 61) := by
  have hsz : to_size_t (2 ^ 64 - 1 + 7) / 8 = 0 := by decide
  have href : psi_hash_only_compute { max_elems := 1, elem_bits := 2 ^ 64 - 1 }
        (List.replicate (2 ^ 61) 0) (List.replicate (2 ^ 61) 1) 1 [0] = .ok [1] := by
    unfold psi_hash_only_compute
    rw [if_neg (by decide), if_neg (by decide)]
    simp only [hsz]
    exact psi_compute_naive_zero_bytes _ _
  refine ⟨by decide, hsz, ?_, href, replicate_slices_differ (2 ^ 61) (by decide)⟩
  rw [psi_gc_compute_fallback blake3 s _ (by decide), href]

theorem gc_init_delta_idem (blake3 : keyed_hash) (s : gc_globals)
    (h : s.GC_DELTA_INITIALIZED ≠ 0) : gc_init_delta blake3 s = s := by
  unfold gc_init_delta
  rw [if_pos h]

theorem gc_label_ne_zero_of_permute_bit (l : gc_label) (h : gc_permute_bit l = 1) :
    l ≠ gc_label_zero := by
  intro e
  rw [e, gc_permute_bit_zero] at h
  exact absurd h (by decide)

/-- C22 (the offset is set once): from the start-up state the first
`gc_init_delta` stores the first 16 bytes of the keyed hash of the bytes
`0x44 0x45 0x4C 0x54` with the low bit of byte 0 set and marks it initialised;
in every reachable state `s` in which it is initialised, a further
`gc_init_delta` and every `gc_garble` leave the variables unchanged, the offset
is that same value, its permute bit is 1 and it is not the all-zero label. -/
theorem gc_delta_singleton (blake3 : keyed_hash) (s : gc_globals)
    (hs : gc_globals_reachable blake3 s) (hinit : s.GC_DELTA_INITIALIZED ≠ 0) :
    gc_init_delta blake3 gc_globals_startup =
      { GC_DELTA :=
          ⟨(blake3 GC_PRF_KEY [0x44, 0x45, 0x4C, 0x54]).set 0
            ((blake3 GC_PRF_KEY [0x44, 0x45, 0x4C, 0x54]).get 0 ||| 0x01)⟩
        GC_DELTA_INITIALIZED := 1 } ∧
    s = gc_init_delta blake3 gc_globals_startup ∧
    gc_init_delta blake3 s = s ∧
    (∀ plain : gc_circuit, (gc_garble blake3 s plain).2 = s) ∧
    gc_permute_bit s.GC_DELTA = 1 ∧ s.GC_DELTA ≠ gc_label_zero := by
  have hval : s = gc_init_delta blake3 gc_globals_startup := by
    rcases gc_globals_reachable_cases blake3 s hs with h | h
    · rw [h] at hinit
      exact absurd rfl hinit
    · exact h
  have hidem := gc_init_delta_idem blake3 s hinit
  have hd : s.GC_DELTA = gc_delta_value blake3 := by
    rw [← hidem]
    exact gc_init_delta_reachable blake3 s hs
  have hp : gc_permute_bit s.GC_DELTA = 1 := by rw [hd]; exact gc_permute_bit_delta blake3
  refine ⟨rfl, hval, hidem, ?_, hp, gc_label_ne_zero_of_permute_bit _ hp⟩
  intro plain
  rw [gc_garble_globals, hidem]

theorem gc_delta_singleton_witness :
    gc_globals_reachable toy_hash (gc_init_delta toy_hash gc_globals_startup) ∧
    (gc_init_delta toy_hash gc_globals_startup).GC_DELTA_INITIALIZED ≠ 0 ∧
    gc_init_delta toy_hash (gc_init_delta toy_hash gc_globals_startup)
      = gc_init_delta toy_hash gc_globals_startup ∧
    gc_permute_bit (gc_init_delta toy_hash gc_globals_startup).GC_DELTA = 1 :=
  ⟨gc_globals_reachable.init_delta _ gc_globals_reachable.startup, by decide,
    (gc_delta_singleton toy_hash (gc_init_delta toy_hash gc_globals_startup)
      (gc_globals_reachable.init_delta _ gc_globals_reachable.startup) (by decide)).2.2.1,
    (gc_delta_singleton toy_hash (gc_init_delta toy_hash gc_globals_startup)
      (gc_globals_reachable.init_delta _ gc_globals_reachable.startup) (by decide)).2.2.2.2.1⟩

/-! ## Constant-time equality -/

/-- C23 (label equality): `gc_label_equal_ct a b` returns true if and only if
the two labels agree in each of their 16 bytes, that is, if and only if the
OR-accumulation of the per-byte XORs is zero. -/
theorem gc_label_equal_ct_correct (a b : gc_label) :
    (gc_label_equal_ct a b = true ↔ ∀ i : Fin GC_LABEL_BYTES, a.b.get i = b.b.get i) ∧
    (gc_label_equal_ct a b = true ↔
      (Mathlib.Vector.map₂ (fun x y => x ^^^ y) a.b b.b).toList.foldl
        (fun d x => d ||| x) (0 : uint8_t) = 0) ∧
    (gc_label_equal_ct a b = false ↔ ∃ i : Fin GC_LABEL_BYTES, a.b.get i ≠ b.b.get i) := by
  have h1 : gc_label_equal_ct a b = true ↔ ∀ i : Fin GC_LABEL_BYTES, a.b.get i = b.b.get i := by
    rw [gc_label_equal_ct_iff]
    constructor
    · rintro rfl i; rfl
    · exact gc_label_ext
  refine ⟨h1, ?_, ?_⟩
  · unfold gc_label_equal_ct
    simp only [beq_iff_eq]
  · rw [← Bool.not_eq_true, h1]
    push_neg
    rfl

/-! ## Unknown gate types in the garbled evaluator -/

/-- C24, evaluation on a garbled circuit whose only gate carries the type 7:
`gc_eval_garbled` takes the table path, as for every gate that is not an XOR
gate, and returns 0 with a label on the output wire, for every hash and every
input label; `gc_eval_clear` on the same wiring returns `-9`. -/
theorem gc_eval_garbled_unknown_type_accepted (blake3 : keyed_hash) (x : gc_label) :
    (∃ g ∈ garbled_unknown_gate_type.gates,
      ¬ (g.type = GC_GATE_AND ∨ g.type = GC_GATE_XOR ∨ g.type = GC_GATE_NOT)) ∧
    gc_eval_garbled blake3 garbled_unknown_gate_type [x]
      = .ok [xor_keystream gc_label_zero
          (gc_gate_prf blake3 x x (to_uint16 0) (gc_row x x))] ∧
    gc_eval_clear circuit_unknown_gate_type [0] = .error (-9) := by
  refine ⟨by decide, ?_, rfl⟩
  have hrow : (gc_row x x).val < 4 := gc_row_lt_four x x
  have hread : read_at (List.replicate 4 gc_label_zero) (gc_row x x).val = .ok gc_label_zero := by
    rw [read_at_eq_ok, List.getElem?_replicate, if_pos hrow]
  have hin : eval_garbled_inputs 2 [0] [x] (List.replicate 2 gc_label_zero)
      = .ok [x, gc_label_zero] := rfl
  have hgate := eval_garbled_gate_table blake3 2 0 [x, gc_label_zero]
    { in0 := 0, in1 := 0, out := 1, type := 7, table := List.replicate 4 gc_label_zero }
    x x gc_label_zero (by decide) rfl (by decide) rfl rfl hread
  simp only [gc_eval_garbled, garbled_unknown_gate_type, hin, bind_ok, eval_garbled_gates,
    hgate]
  rfl

/-! ## The second input of a NOT gate -/

theorem eval_clear_gate_erase (n : Nat) (g : gc_gate) (wv : List uint8_t) :
    eval_clear_gate n (erase_not_in1 g) wv = eval_clear_gate n g wv := by
  unfold erase_not_in1
  by_cases h : g.type = GC_GATE_NOT
  · rw [if_pos h]
    have n1 : ¬ (GC_GATE_NOT = GC_GATE_AND) := by decide
    have n2 : ¬ (GC_GATE_NOT = GC_GATE_XOR) := by decide
    simp only [eval_clear_gate, h, n1, n2, if_false, if_true]
  · rw [if_neg h]

theorem eval_clear_gates_erase (n : Nat) (gs : List gc_gate) :
    ∀ wv : List uint8_t,
      eval_clear_gates n (gs.map erase_not_in1) wv = eval_clear_gates n gs wv := by
  induction gs with
  | nil => intro wv; rfl
  | cons g rest ih =>
    intro wv
    simp only [List.map_cons, eval_clear_gates, eval_clear_gate_erase]
    cases eval_clear_gate n g wv with
    | ok wv2 => simp only [bind_ok, ih]
    | error rc => rfl
    | undefined => rfl

/-- The clear evaluator does not consult the `in1` of a NOT gate, whatever its
value. -/
theorem gc_eval_clear_same_up_to_not_in1 (c1 c2 : gc_circuit)
    (h : same_up_to_not_in1 c1 c2) (inputs : List uint8_t) :
    gc_eval_clear c1 inputs = gc_eval_clear c2 inputs := by
  obtain ⟨hn, hi, ho, hg⟩ := h
  have hgates : ∀ wv, eval_clear_gates c2.n_wires c1.gates wv
      = eval_clear_gates c2.n_wires c2.gates wv := by
    intro wv
    rw [← eval_clear_gates_erase, ← eval_clear_gates_erase c2.n_wires c2.gates, hg]
  unfold gc_eval_clear
  simp only [gc_circuit.n_inputs, gc_circuit.n_outputs, hi, ho, hn, hgates]

set_option maxRecDepth 100000 in
/-- C21, as stated, fails on the garbled path: `circuit_not_unwritten_in1` and
`circuit_not_in1_written` differ only in the `in1` of their NOT gate (wire 1
and wire 0, both below `n_wires = 3`); `gc_eval_clear` returns the same bit on
both, but the garbled round trip decodes that bit on the second and ends in the
decode error `-2` on the first, where `in1` names a wire that never receives a
label. -/
theorem not_in1_consulted_counterexample :
    same_up_to_not_in1 circuit_not_unwritten_in1 circuit_not_in1_written ∧
    (∀ g ∈ circuit_not_unwritten_in1.gates, g.in1 < circuit_not_unwritten_in1.n_wires) ∧
    (∀ g ∈ circuit_not_in1_written.gates, g.in1 < circuit_not_in1_written.n_wires) ∧
    gc_eval_clear circuit_not_unwritten_in1 [1] = .ok [0] ∧
    gc_eval_clear circuit_not_in1_written [1] = .ok [0] ∧
    garbled_roundtrip toy_hash gc_globals_startup circuit_not_in1_written [1] = .ok [0] ∧
    garbled_roundtrip toy_hash gc_globals_startup circuit_not_unwritten_in1 [1]
      = .error (-2) := by
  decide

/-- C21, amended: for two circuits in single-assignment topological order (so
that the `in1` of every NOT gate names a listed input wire or the output of an
earlier gate) that differ only in the `in1` field of NOT gates, every keyed
hash and all input bits, `gc_eval_clear` returns 0 with the same outputs on
both, and the garbled round trip on each returns 0 with those same bits; the
clear evaluator agrees on the two circuits for every input buffer, with no
condition on the circuits. -/
theorem not_in1_not_consulted_wf (blake3 : keyed_hash) (s : gc_globals)
    (hs : gc_globals_reachable blake3 s) (c1 c2 : gc_circuit)
    (h : same_up_to_not_in1 c1 c2) (hwf1 : circuit_wf c1) (hwf2 : circuit_wf c2)
    (bits : List Bool) (hlen : bits.length = c1.n_inputs) :
    (∀ inputs, gc_eval_clear c1 inputs = gc_eval_clear c2 inputs) ∧
    ∃ out_bits, gc_eval_clear c1 (bits.map bit) = .ok out_bits ∧
      gc_eval_clear c2 (bits.map bit) = .ok out_bits ∧
      garbled_roundtrip blake3 s c1 (bits.map bit) = .ok out_bits ∧
      garbled_roundtrip blake3 s c2 (bits.map bit) = .ok out_bits := by
  have hclear := gc_eval_clear_same_up_to_not_in1 c1 c2 h
  have hlen2 : bits.length = c2.n_inputs := by
    rw [hlen]
    simp only [gc_circuit.n_inputs, h.2.1]
  obtain ⟨o1, hc1, hg1⟩ := garbled_roundtrip_sound blake3 s hs c1 hwf1 bits hlen
  obtain ⟨o2, hc2, hg2⟩ := garbled_roundtrip_sound blake3 s hs c2 hwf2 bits hlen2
  have e : o1 = o2 := by
    have := hclear (bits.map bit)
    rw [hc1, hc2] at this
    cases this
    rfl
  subst e
  exact ⟨hclear, o1, hc1, hc2, hg1, hg2⟩

theorem not_in1_not_consulted_wf_witness :
    gc_globals_reachable toy_hash gc_globals_startup ∧
    same_up_to_not_in1 circuit_not_in1_first circuit_not_in1_second ∧
    circuit_wf circuit_not_in1_first ∧ circuit_wf circuit_not_in1_second ∧
    [true, false].length = circuit_not_in1_first.n_inputs ∧
    ∃ out_bits, gc_eval_clear circuit_not_in1_first ([true, false].map bit) = .ok out_bits ∧
      gc_eval_clear circuit_not_in1_second ([true, false].map bit) = .ok out_bits ∧
      garbled_roundtrip toy_hash gc_globals_startup circuit_not_in1_first
        ([true, false].map bit) = .ok out_bits ∧
      garbled_roundtrip toy_hash gc_globals_startup circuit_not_in1_second
        ([true, false].map bit) = .ok out_bits :=
  ⟨gc_globals_reachable.startup, by decide, by decide, by decide, by decide,
    (not_in1_not_consulted_wf toy_hash gc_globals_startup gc_globals_reachable.startup
      circuit_not_in1_first circuit_not_in1_second (by decide) (by decide) (by decide)
      [true, false] (by decide)).2⟩

/-! ## The comparisons made by the decoder -/

theorem decode_outputs_calls_spec (wl0 wl1 : List gc_label) (ws : List Nat) :
    ∀ (ols : List gc_label) (bits : List uint8_t),
      decode_outputs_loop wl0 wl1 ws ols = .ok bits →
      decode_outputs_calls wl0 wl1 ws ols = ws.length + bits.countP (fun b => decide (b = 1)) ∧
      bits.length = ws.length ∧ ∀ b ∈ bits, b = 0 ∨ b = 1 := by
  induction ws with
  | nil =>
    intro ols bits h
    simp only [decode_outputs_loop, gc_result.ok.injEq] at h
    subst h
    exact ⟨rfl, rfl, fun b hb => by cases hb⟩
  | cons w ws ih =>
    intro ols bits h
    unfold decode_outputs_loop at h
    unfold decode_outputs_calls
    cases h0 : read_at wl0 w with
    | error rc => rw [h0] at h; cases h
    | undefined => rw [h0] at h; cases h
    | ok L0 =>
      cases h1 : read_at wl1 w with
      | error rc => rw [h0, h1] at h; cases h
      | undefined => rw [h0, h1] at h; cases h
      | ok L1 =>
        rw [h0, h1] at h
        simp only [bind_ok] at h
        cases ols with
        | nil => cases h
        | cons lo rest =>
          simp only at h ⊢
          by_cases c0 : gc_label_equal_ct lo L0 = true
          · rw [if_pos c0] at h ⊢
            rw [bind_eq_ok] at h
            obtain ⟨bs, hbs, hcons⟩ := h
            cases hcons
            obtain ⟨ih1, ih2, ih3⟩ := ih rest bs hbs
            refine ⟨?_, by simp [ih2], ?_⟩
            · rw [ih1, List.countP_cons]
              simp
              omega
            · intro b hb
              rcases List.mem_cons.mp hb with rfl | hb
              · exact Or.inl rfl
              · exact ih3 b hb
          · rw [if_neg c0] at h ⊢
            by_cases c1 : gc_label_equal_ct lo L1 = true
            · rw [if_pos c1] at h ⊢
              rw [bind_eq_ok] at h
              obtain ⟨bs, hbs, hcons⟩ := h
              cases hcons
              obtain ⟨ih1, ih2, ih3⟩ := ih rest bs hbs
              refine ⟨?_, by simp [ih2], ?_⟩
              · rw [ih1, List.countP_cons]
                simp
                omega
              · intro b hb
                rcases List.mem_cons.mp hb with rfl | hb
                · exact Or.inr rfl
                · exact ih3 b hb
            · rw [if_neg c1] at h
              cases h

set_option maxRecDepth 100000 in
/-- C25 (code bug): `gc_decode_outputs` does not compute both comparisons for
every output label; the comparison with `wire_labels1[w]` sits in the `else`
branch of the comparison with `wire_labels0[w]`. On the garbled
`gc_circuit_and_2` (one output wire, wire 2) the label `wire_labels0[2]` decodes
to 0 after one call of `gc_label_equal_ct`, and the label `wire_labels1[2]`
decodes to 1 after two. -/
theorem gc_decode_outputs_second_comparison_skipped :
    gc_decode_outputs toy_garbled_and_2 (toy_garbled_and_2.wire_labels0.drop 2) = .ok [0] ∧
    gc_decode_outputs_calls toy_garbled_and_2 (toy_garbled_and_2.wire_labels0.drop 2) = 1 ∧
    gc_decode_outputs toy_garbled_and_2 (toy_garbled_and_2.wire_labels1.drop 2) = .ok [1] ∧
    gc_decode_outputs_calls toy_garbled_and_2 (toy_garbled_and_2.wire_labels1.drop 2) = 2 := by
  decide

/-- The comparisons of a successful decoding, for every garbled circuit:
`gc_decode_outputs` compares an output label with `wire_labels1[w]` only when
the comparison with `wire_labels0[w]` fails; every decoded bit is 0 or 1, a
label that decodes to 0 costs one call of `gc_label_equal_ct` and a label that
decodes to 1 costs two, so the number of calls is the number of outputs plus the
number of decoded 1 bits. -/
theorem gc_decode_outputs_calls_count (gc : gc_garbled_circuit)
    (output_labels : List gc_label) (bits : List uint8_t)
    (h : gc_decode_outputs gc output_labels = .ok bits) :
    gc_decode_outputs_calls gc output_labels
      = gc.n_outputs + bits.countP (fun b => decide (b = 1)) ∧
    bits.length = gc.n_outputs ∧ ∀ b ∈ bits, b = 0 ∨ b = 1 :=
  decode_outputs_calls_spec gc.wire_labels0 gc.wire_labels1 gc.output_wires output_labels
    bits h

set_option maxRecDepth 100000 in
theorem gc_decode_outputs_calls_count_witness :
    gc_decode_outputs toy_garbled_and_2 (toy_garbled_and_2.wire_labels1.drop 2) = .ok [1] ∧
    gc_decode_outputs_calls toy_garbled_and_2 (toy_garbled_and_2.wire_labels1.drop 2)
      = toy_garbled_and_2.n_outputs + [(1 : uint8_t)].countP (fun b => decide (b = 1)) :=
  ⟨by decide,
    (gc_decode_outputs_calls_count toy_garbled_and_2 (toy_garbled_and_2.wire_labels1.drop 2)
      [1] (by decide)).1⟩

/-! ## The plaintext reference on its own -/

/-- Evaluation at `elem_bits = 2^64 - 7`, the least width at which
`elem_bits + 7` wraps in `size_t` (elements of `2^61` bytes): the byte count is 0
instead of `2^61`, the comparison is over zero bytes, and
`psi_hash_only_compute` reports a match between two elements that differ in all
of their `2^61` bytes. -/
theorem psi_hash_only_compute_elem_bytes_wraps :
    (2 ^ 64 - 7 + 7) / 8 = 2 ^ 61 ∧
    to_size_t (2 ^ 64 - 7 + 7) / 8 = 0 ∧
    psi_hash_only_compute { max_elems := 3, elem_bits := 2 ^ 64 - 7 }
        (List.replicate (2 ^ 61) 0) (List.replicate (2 ^ 61) 1) 1 [0] = .ok [1] ∧
    ((List.replicate (2 ^ 61) (0 : uint8_t)).drop (0 * 2 ^ 61)).take (2 ^ 61)
      ≠ ((List.replicate (2 ^ 61) (1 : uint8_t)).drop (0 * 2 ^ 61)).take (2 ^ 61) := by
  have hsz : to_size_t (2 ^ 64 - 7 + 7) / 8 = 0 := by decide
  refine ⟨by decide, hsz, ?_, replicate_slices_differ (2 ^ 61) (by decide)⟩
  unfold psi_hash_only_compute
  rw [if_neg (by decide), if_neg (by decide)]
  simp only [hsz]
  exact psi_compute_naive_zero_bytes _ _

theorem eq_acc_chain_getElem? (k m : Nat) :
    ∀ (s acc j : Nat), j < m →
      (eq_acc_chain k (List.range' s m) acc)[j]? = some
        { in0 := if j = 0 then acc else 4 * k + (s + j - 1) - 1, in1 := 3 * k + (s + j),
          out := 4 * k + (s + j) - 1, type := GC_GATE_AND } := by
  induction m with
  | zero => intro s acc j hj; omega
  | succ m ih =>
    intro s acc j hj
    rw [List.range'_succ]
    cases j with
    | zero => simp [eq_acc_chain]
    | succ j =>
      simp only [eq_acc_chain, List.getElem?_cons_succ]
      rw [ih (s + 1) _ j (by omega)]
      have e1 : s + 1 + j = s + (j + 1) := by omega
      simp only [e1, Nat.add_one_ne_zero, if_false, Option.some.injEq, gc_gate.mk.injEq,
        and_true, true_and]
      by_cases hj0 : j = 0
      · subst hj0; simp
      · simp only [hj0, if_false]

theorem eq_circuit_layout (k : Nat) (hk : 2 ≤ k) :
    (eq_circuit k).input_wires = List.range (2 * k) ∧
    (eq_circuit k).output_wires = [4 * k + (k - 2)] ∧
    (eq_circuit k).gates.length = 3 * k - 1 ∧
    (∀ i, i < k → (eq_circuit k).gates[i]? = some
      { in0 := i, in1 := k + i, out := 2 * k + i, type := GC_GATE_XOR }) ∧
    (∀ i, i < k → (eq_circuit k).gates[k + i]? = some
      { in0 := 2 * k + i, in1 := 0, out := 3 * k + i, type := GC_GATE_NOT }) ∧
    (∀ i, 1 ≤ i → i ≤ k - 1 → (eq_circuit k).gates[2 * k + i - 1]? = some
      { in0 := if i = 1 then 3 * k else 4 * k + (i - 2), in1 := 3 * k + i,
        out := 4 * k + (i - 1), type := GC_GATE_AND }) := by
  have hk1 : k ≠ 1 := by omega
  have hlen := (eq_circuit_seq_fill k hk).2
  refine ⟨rfl, ?_, hlen, ?_, ?_, ?_⟩
  · simp only [eq_circuit, hk1, if_false]
    congr 1
    omega
  · intro i hi
    simp only [eq_circuit, hk1, if_false]
    rw [List.append_assoc, List.getElem?_append_left (by simpa using hi), List.getElem?_map,
      List.getElem?_range hi]
    rfl
  · intro i hi
    simp only [eq_circuit, hk1, if_false]
    rw [List.getElem?_append_left (by simp; omega),
      List.getElem?_append_right (by simp), List.getElem?_map]
    simp only [List.length_map, List.length_range, Nat.add_sub_cancel_left,
      List.getElem?_range hi]
    rfl
  · intro i hi1 hi2
    simp only [eq_circuit, hk1, if_false]
    rw [List.getElem?_append_right (by simp; omega)]
    simp only [List.length_append, List.length_map, List.length_range]
    have e : 2 * k + i - 1 - (k + k) = i - 1 := by omega
    rw [e, eq_acc_chain_getElem? k (k - 1) 1 (3 * k) (i - 1) (by omega)]
    have e2 : 1 + (i - 1) = i := by omega
    simp only [e2, Option.some.injEq, gc_gate.mk.injEq, and_true]
    refine ⟨?_, trivial, by omega⟩
    by_cases hi : i = 1
    · subst hi; simp
    · have : ¬ (i - 1 = 0) := by omega
      simp only [this, hi, if_false]
      omega

/-- C27 (layout of the synthesized circuit): for `2 <= k <= 512`,
`build_eq_circuit_bits k` returns a circuit with the `2k` inputs listed as
wires `0 .. 2k-1`, the one output wire `4k + (k-2)` and `3k-1` gates in this
order: gate `i < k` is `XOR(i, k+i) -> 2k+i`, gate `k+i` is `NOT(2k+i) -> 3k+i`
(with `in1 = 0`), and gate `2k+i-1`, `1 <= i <= k-1`, is
`AND(acc, 3k+i) -> 4k+(i-1)` with `acc = 3k` for `i = 1` and the previous
AND's output `4k+(i-2)` otherwise, so that the last AND writes the output wire.
For `k = 1` the circuit has 3 gates, the last being the AND of wire 3 with
itself writing the output wire 4. -/
theorem build_eq_circuit_bits_layout (k : Nat) (hk1 : 2 ≤ k) (hk2 : k ≤ 512) :
    (∃ c, build_eq_circuit_bits k = some c ∧
      c.n_inputs = 2 * k ∧ c.input_wires = List.range (2 * k) ∧
      c.output_wires = [4 * k + (k - 2)] ∧ c.n_gates = 3 * k - 1 ∧
      (∀ i, i < k → c.gates[i]? = some
        { in0 := i, in1 := k + i, out := 2 * k + i, type := GC_GATE_XOR }) ∧
      (∀ i, i < k → c.gates[k + i]? = some
        { in0 := 2 * k + i, in1 := 0, out := 3 * k + i, type := GC_GATE_NOT }) ∧
      (∀ i, 1 ≤ i → i ≤ k - 1 → c.gates[2 * k + i - 1]? = some
        { in0 := if i = 1 then 3 * k else 4 * k + (i - 2), in1 := 3 * k + i,
          out := 4 * k + (i - 1), type := GC_GATE_AND })) ∧
    (∃ c1, build_eq_circuit_bits 1 = some c1 ∧ c1.input_wires = [0, 1] ∧
      c1.output_wires = [4] ∧
      c1.gates = [{ in0 := 0, in1 := 1, out := 2, type := GC_GATE_XOR },
                  { in0 := 2, in1 := 0, out := 3, type := GC_GATE_NOT },
                  { in0 := 3, in1 := 3, out := 4, type := GC_GATE_AND }]) := by
  obtain ⟨h1, h2, h3, h4, h5, h6⟩ := eq_circuit_layout k hk1
  refine ⟨⟨eq_circuit k, build_eq_circuit_bits_eq k (by omega) hk2, ?_, h1, h2, h3, h4, h5, h6⟩,
    ?_⟩
  · simp [gc_circuit.n_inputs, h1]
  · exact ⟨_, rfl, rfl, rfl, rfl⟩

theorem build_eq_circuit_bits_layout_witness :
    2 ≤ 3 ∧ 3 ≤ 512 ∧
    ∃ c, build_eq_circuit_bits 3 = some c ∧
      c.n_inputs = 2 * 3 ∧ c.input_wires = List.range (2 * 3) ∧
      c.output_wires = [4 * 3 + (3 - 2)] ∧ c.n_gates = 3 * 3 - 1 ∧
      (∀ i, i < 3 → c.gates[i]? = some
        { in0 := i, in1 := 3 + i, out := 2 * 3 + i, type := GC_GATE_XOR }) ∧
      (∀ i, i < 3 → c.gates[3 + i]? = some
        { in0 := 2 * 3 + i, in1 := 0, out := 3 * 3 + i, type := GC_GATE_NOT }) ∧
      (∀ i, 1 ≤ i → i ≤ 3 - 1 → c.gates[2 * 3 + i - 1]? = some
        { in0 := if i = 1 then 3 * 3 else 4 * 3 + (i - 2), in1 := 3 * 3 + i,
          out := 4 * 3 + (i - 1), type := GC_GATE_AND }) :=
  ⟨by decide, by decide, (build_eq_circuit_bits_layout 3 (by decide) (by decide)).1⟩

/-! ## The equality circuit: well-formedness spelled out -/

theorem gates_wf_all_bounds (n : Nat) (gs : List gc_gate) :
    ∀ W : List Nat, gates_wf n gs W → (∀ w ∈ W, w < n) →
      ∀ g ∈ gs, g.in0 < n ∧ g.in1 < n ∧ g.out < n := by
  induction gs with
  | nil => intro W _ _ g hg; cases hg
  | cons g0 rest ih =>
    intro W h hW g hg
    obtain ⟨b0, b1, b2, hW2⟩ := gates_wf_bounds n g0 rest W h hW
    rcases List.mem_cons.mp hg with rfl | hg
    · exact ⟨b0, b1, b2⟩
    · exact ih (g0.out :: W) h.2.2.2.2.2 hW2 g hg

/-- The recursive predicate `gates_wf` read gate by gate: gate number `i` has
a known type, writes a wire below `n`, reads on `in0` and on `in1` a wire of
`W` or the output of a gate before it, and writes a wire that is neither in
`W` nor the output of a gate before it. -/
theorem gates_wf_index (n : Nat) (gs : List gc_gate) :
    ∀ W : List Nat, gates_wf n gs W → ∀ (i : Nat) (g : gc_gate), gs[i]? = some g →
      (g.type = GC_GATE_AND ∨ g.type = GC_GATE_XOR ∨ g.type = GC_GATE_NOT) ∧ g.out < n ∧
      (g.in0 ∈ W ∨ ∃ (j : Nat) (g2 : gc_gate), j < i ∧ gs[j]? = some g2 ∧ g2.out = g.in0) ∧
      (g.in1 ∈ W ∨ ∃ (j : Nat) (g2 : gc_gate), j < i ∧ gs[j]? = some g2 ∧ g2.out = g.in1) ∧
      g.out ∉ W ∧
      ∀ (j : Nat) (g2 : gc_gate), j < i → gs[j]? = some g2 → g2.out ≠ g.out := by
  induction gs with
  | nil => intro W _ i g h; simp at h
  | cons g0 rest ih =>
    intro W h i g hi
    obtain ⟨hty, hm0, hm1, ho, hnw, hrest⟩ := h
    cases i with
    | zero =>
      simp only [List.getElem?_cons_zero, Option.some.injEq] at hi
      subst hi
      exact ⟨hty, ho, Or.inl hm0, Or.inl hm1, hnw, fun j g2 hj => absurd hj (by omega)⟩
    | succ i =>
      simp only [List.getElem?_cons_succ] at hi
      obtain ⟨a, b, c, d, e, f⟩ := ih (g0.out :: W) hrest i g hi
      have lift : ∀ x : Nat,
          (x ∈ g0.out :: W ∨ ∃ (j : Nat) (g2 : gc_gate), j < i ∧ rest[j]? = some g2 ∧
            g2.out = x) →
          (x ∈ W ∨ ∃ (j : Nat) (g2 : gc_gate), j < i + 1 ∧ (g0 :: rest)[j]? = some g2 ∧
            g2.out = x) := by
        intro x hx
        rcases hx with hx | ⟨j, g2, hj, hg2, hout⟩
        · rcases List.mem_cons.mp hx with rfl | hx
          · exact Or.inr ⟨0, g0, by omega, List.getElem?_cons_zero, rfl⟩
          · exact Or.inl hx
        · exact Or.inr ⟨j + 1, g2, by omega, by simpa using hg2, hout⟩
      refine ⟨a, b, lift _ c, lift _ d, fun hw => e (List.mem_cons_of_mem _ hw), ?_⟩
      intro j g2 hj hg2
      cases j with
      | zero =>
        simp only [List.getElem?_cons_zero, Option.some.injEq] at hg2
        subst hg2
        intro heq
        exact e (by rw [← heq]; exact List.mem_cons_self _ _)
      | succ j =>
        simp only [List.getElem?_cons_succ] at hg2
        exact f j g2 (by omega) hg2

/-- C28 (well-formedness of the synthesized circuit): for `1 <= k <= 512`,
`build_eq_circuit_bits k` returns a circuit; none of its 16-bit computations
(`k`, `2k`, `3k`, `4k`, the output wire, `n_wires`) wraps; `n_wires` is `5k-1`
for `k >= 2` and 5 for `k = 1`; `in0`, `in1` and `out` of every gate and every
listed input and output wire are below `n_wires`; every gate has a known type
and reads, on `in0` and on `in1` (the `in1 = 0` of the NOT gates included), a
listed input wire or the output of an earlier gate; the listed input wires are
distinct, and no gate writes a listed input wire or the output of an earlier
gate. -/
theorem build_eq_circuit_bits_wf (k : Nat) (hk1 : 1 ≤ k) (hk2 : k ≤ 512) :
    ∃ c, build_eq_circuit_bits k = some c ∧
      (to_uint16 k = k ∧ to_uint16 (2 * k) = 2 * k ∧ to_uint16 (3 * k) = 3 * k ∧
        to_uint16 (4 * k) = 4 * k ∧
        to_uint16 (4 * k + (if k > 1 then k - 2 else 0))
          = 4 * k + (if k > 1 then k - 2 else 0) ∧
        to_uint16 (if k = 1 then 4 * k + 1 else 4 * k + (k - 1))
          = (if k = 1 then 4 * k + 1 else 4 * k + (k - 1))) ∧
      c.n_wires = (if k = 1 then 5 else 5 * k - 1) ∧
      (∀ g ∈ c.gates, g.in0 < c.n_wires ∧ g.in1 < c.n_wires ∧ g.out < c.n_wires) ∧
      (∀ w ∈ c.input_wires, w < c.n_wires) ∧ (∀ w ∈ c.output_wires, w < c.n_wires) ∧
      c.input_wires.Nodup ∧
      (∀ (i : Nat) (g : gc_gate), c.gates[i]? = some g →
        (g.type = GC_GATE_AND ∨ g.type = GC_GATE_XOR ∨ g.type = GC_GATE_NOT) ∧
        (g.in0 ∈ c.input_wires ∨
          ∃ (j : Nat) (g2 : gc_gate), j < i ∧ c.gates[j]? = some g2 ∧ g2.out = g.in0) ∧
        (g.in1 ∈ c.input_wires ∨
          ∃ (j : Nat) (g2 : gc_gate), j < i ∧ c.gates[j]? = some g2 ∧ g2.out = g.in1) ∧
        g.out ∉ c.input_wires ∧
        ∀ (j : Nat) (g2 : gc_gate), j < i → c.gates[j]? = some g2 → g2.out ≠ g.out) := by
  obtain ⟨_, _, _, hin, hg, hout⟩ := eq_circuit_wf k hk1
  have hb := gates_wf_all_bounds _ _ _ hg hin
  refine ⟨eq_circuit k, build_eq_circuit_bits_eq k hk1 hk2, ?_, rfl, hb, hin, ?_, ?_, ?_⟩
  · refine ⟨to_uint16_of_lt _ (by omega), to_uint16_of_lt _ (by omega),
      to_uint16_of_lt _ (by omega), to_uint16_of_lt _ (by omega),
      to_uint16_of_lt _ (by split <;> omega), to_uint16_of_lt _ (by split <;> omega)⟩
  · intro w hw
    rcases hout w hw with h | h
    · exact hin w h
    · obtain ⟨g, hgm, rfl⟩ := List.mem_map.mp h
      exact (hb g hgm).2.2
  · exact List.nodup_range _
  · intro i g hi
    obtain ⟨a, _, c, d, e, f⟩ := gates_wf_index _ _ _ hg i g hi
    exact ⟨a, c, d, e, f⟩

theorem build_eq_circuit_bits_wf_witness :
    1 ≤ 2 ∧ 2 ≤ 512 ∧
    ∃ c, build_eq_circuit_bits 2 = some c ∧
      c.n_wires = (if 2 = 1 then 5 else 5 * 2 - 1) ∧
      (∀ g ∈ c.gates, g.in0 < c.n_wires ∧ g.in1 < c.n_wires ∧ g.out < c.n_wires) ∧
      (∀ w ∈ c.input_wires, w < c.n_wires) ∧ (∀ w ∈ c.output_wires, w < c.n_wires) ∧
      c.input_wires.Nodup := by
  obtain ⟨c, h1, _, h3, h4, h5, h6, h7, _⟩ :=
    build_eq_circuit_bits_wf 2 (by decide) (by decide)
  exact ⟨by decide, by decide, c, h1, h3, h4, h5, h6, h7⟩

/-! ## Soundness at the level of wires -/

theorem eval_clear_gate_frame (n : Nat) (g : gc_gate) (cv cv1 : List uint8_t)
    (h : eval_clear_gate n g cv = .ok cv1) : ∃ x, cv1 = cv.set g.out x := by
  unfold eval_clear_gate at h
  split_ifs at h <;> simp only [bind_eq_ok, write_at_eq_ok] at h
  · obtain ⟨_, _, _, _, _, rfl⟩ := h; exact ⟨_, rfl⟩
  · obtain ⟨_, _, _, _, _, rfl⟩ := h; exact ⟨_, rfl⟩
  · obtain ⟨_, _, _, rfl⟩ := h; exact ⟨_, rfl⟩

theorem gc_eval_clear_of_wires (c : gc_circuit) (inputs : List uint8_t)
    (hs : ¬ (c.n_inputs = 0 ∨ c.n_outputs = 0 ∨ c.n_wires = 0)) :
    gc_eval_clear c inputs
      = (eval_clear_wires c inputs).bind fun wv => eval_clear_outputs c.n_wires wv c.output_wires := by
  unfold gc_eval_clear eval_clear_wires
  rw [if_neg hs]
  cases eval_clear_inputs c.n_wires c.input_wires inputs (List.replicate c.n_wires 0) with
  | ok wv => rfl
  | error rc => rfl
  | undefined => rfl

theorem gc_eval_garbled_of_wires (blake3 : keyed_hash) (gc : gc_garbled_circuit)
    (ls : List gc_label) :
    gc_eval_garbled blake3 gc ls
      = (eval_garbled_wires blake3 gc ls).bind fun wv =>
          eval_garbled_outputs gc.n_wires wv gc.output_wires := by
  unfold gc_eval_garbled eval_garbled_wires
  cases eval_garbled_inputs gc.n_wires gc.input_wires ls
      (List.replicate gc.n_wires gc_label_zero) with
  | ok wv => rfl
  | error rc => rfl
  | undefined => rfl

/-- The rows selected along the gate loop: when a gate that is not an XOR gate
is reached, the labels on its `in0` and `in1` carry as permute bits the clear
values `a`, `b` those wires hold at the end of the clear evaluation, and the
row is `(a << 1) | b`. -/
theorem eval_gates_rows (blake3 : keyed_hash) (delta : gc_label) (n : Nat)
    (wl0 wl1 : List gc_label) (hl : labels_ok delta n wl0 wl1) (gs : List gc_gate) :
    ∀ (W0 W : List Nat) (cv : List uint8_t) (gv : List gc_label) (gi : Nat)
      (ggs : List gc_garbled_gate),
      wires_related n wl0 wl1 W cv gv → (∀ w ∈ W, w < n) → gates_wf n gs W0 →
      (∀ w ∈ W0, w ∈ W) →
      (∀ g ∈ gs, g.type = GC_GATE_XOR →
        ∃ x y, wl0[g.in0]? = some x ∧ wl0[g.in1]? = some y ∧
          wl0[g.out]? = some (gc_label_xor x y)) →
      garble_tables blake3 wl0 wl1 gs gi = .ok ggs →
      ∃ cv2, eval_clear_gates n gs cv = .ok cv2 ∧ (∀ w ∈ W0, cv2[w]? = cv[w]?) ∧
        ∀ (p : Nat) (g : gc_gate), gs[p]? = some g → g.type ≠ GC_GATE_XOR →
          ∃ (gvp : List gc_label) (ka kb : gc_label) (a b : Bool),
            eval_garbled_gates blake3 n (ggs.take p) gi gv = .ok gvp ∧
            gvp[g.in0]? = some ka ∧ gvp[g.in1]? = some kb ∧
            cv2[g.in0]? = some (bit a) ∧ cv2[g.in1]? = some (bit b) ∧
            gc_permute_bit ka = bit a ∧ gc_permute_bit kb = bit b ∧
            gc_row ka kb = (bit a <<< 1) ||| bit b := by
  induction gs with
  | nil =>
    intro W0 W cv gv gi ggs _ _ _ _ _ _
    refine ⟨cv, rfl, fun _ _ => rfl, ?_⟩
    intro p g h; simp at h
  | cons g rest ih =>
    intro W0 W cv gv gi ggs hR hW hwf hsub0 hxor htab
    obtain ⟨hty, hm0', hm1', ho, hnw, hrest⟩ := hwf
    have hm0 := hsub0 _ hm0'
    have hm1 := hsub0 _ hm1'
    have hW2 : ∀ w ∈ g.out :: W, w < n := by
      intro w hw
      rcases List.mem_cons.mp hw with rfl | hw
      · exact ho
      · exact hW _ hw
    simp only [garble_tables, bind_eq_ok] at htab
    obtain ⟨gg, hgg, ggs2, hggs2, hcons⟩ := htab
    simp only [gc_result.ok.injEq] at hcons
    subst hcons
    have hstep : ∃ cv2 gv2, eval_clear_gate n g cv = .ok cv2 ∧
        eval_garbled_gate blake3 n gg gi gv = .ok gv2 ∧
        wires_related n wl0 wl1 (g.out :: W) cv2 gv2 := by
      by_cases hx : g.type = GC_GATE_XOR
      · exact eval_gate_step_xor blake3 delta n wl0 wl1 hl W cv gv hR hW g gi gg hx hm0 hm1 ho
          (hxor g (List.mem_cons_self _ _) hx) hgg
      · exact eval_gate_step_table blake3 delta n wl0 wl1 hl W cv gv hR hW g gi gg
          (by tauto) hm0 hm1 ho hgg
    obtain ⟨cv1, gv1, hc1, hg1, hR1⟩ := hstep
    obtain ⟨x, hx1⟩ := eval_clear_gate_frame n g cv cv1 hc1
    have hsub1 : ∀ w ∈ g.out :: W0, w ∈ g.out :: W := by
      intro w hw
      rcases List.mem_cons.mp hw with rfl | hw
      · exact List.mem_cons_self _ _
      · exact List.mem_cons_of_mem _ (hsub0 _ hw)
    obtain ⟨cv2, hc2, hframe, hrows⟩ :=
      ih (g.out :: W0) (g.out :: W) cv1 gv1 (gi + 1) ggs2 hR1 hW2 hrest hsub1
        (fun g2 hg2 => hxor g2 (List.mem_cons_of_mem _ hg2)) hggs2
    have hframe0 : ∀ w ∈ W0, cv2[w]? = cv[w]? := by
      intro w hw
      rw [hframe w (List.mem_cons_of_mem _ hw), hx1, getElem?_set_eq_ite,
        if_neg (by rintro ⟨rfl, _⟩; exact hnw hw)]
    refine ⟨cv2, ?_, hframe0, ?_⟩
    · simp only [eval_clear_gates, hc1, bind_ok, hc2]
    · intro p g2 hp hnx
      cases p with
      | zero =>
        simp only [List.getElem?_cons_zero, Option.some.injEq] at hp
        subst hp
        obtain ⟨va, ka, hcva, hka, hgva⟩ := hR.2.2 g.in0 hm0
        obtain ⟨vb, kb, hcvb, hkb, hgvb⟩ := hR.2.2 g.in1 hm1
        obtain ⟨la, h0, h1, ha, ha1⟩ := labels_ok_lookup delta n wl0 wl1 hl g.in0 (hW _ hm0)
        obtain ⟨lb, h2, h3, hb, hb1⟩ := labels_ok_lookup delta n wl0 wl1 hl g.in1 (hW _ hm1)
        have eka := sel_label wl0 wl1 g.in0 va _ _ ka h0 h1 hka
        have ekb := sel_label wl0 wl1 g.in1 vb _ _ kb h2 h3 hkb
        refine ⟨gv, ka, kb, va, vb, rfl, hgva, hgvb, ?_, ?_, ?_, ?_, ?_⟩
        · rw [hframe0 _ hm0']; exact hcva
        · rw [hframe0 _ hm1']; exact hcvb
        · rw [eka]; cases va
          · simpa [bit] using ha
          · simpa [bit] using ha1
        · rw [ekb]; cases vb
          · simpa [bit] using hb
          · simpa [bit] using hb1
        · rw [eka, ekb]
          exact gc_row_sel la _ lb _ ha ha1 hb hb1 va vb
      | succ p =>
        simp only [List.getElem?_cons_succ] at hp
        obtain ⟨gvp, ka, kb, a, b, h1, h2, h3, h4, h5, h6, h7, h8⟩ := hrows p g2 hp hnx
        refine ⟨gvp, ka, kb, a, b, ?_, h2, h3, h4, h5, h6, h7, h8⟩
        simp only [List.take_succ_cons, eval_garbled_gates, hg1, bind_ok, h1]

/-- For gates in single-assignment topological order over in-range input
wires, every keyed hash, every reachable state of the file-scope variables and
all input bits: `gc_garble` and the label selection return 0, both evaluators
complete their input and gate loops, the two wire arrays are related on every
written wire, and the rows selected are those of the clear values. -/
theorem garbled_wires_sound (blake3 : keyed_hash) (s : gc_globals)
    (hs : gc_globals_reachable blake3 s) (c : gc_circuit)
    (hin : ∀ w ∈ c.input_wires, w < c.n_wires)
    (hg : gates_wf c.n_wires c.gates c.input_wires)
    (bits : List Bool) (hlen : bits.length = c.n_inputs) :
    ∃ gc ls cv gv W,
      (gc_garble blake3 s c).1 = .ok gc ∧
      gc.n_wires = c.n_wires ∧ gc.output_wires = c.output_wires ∧
      labels_ok (gc_init_delta blake3 s).GC_DELTA c.n_wires gc.wire_labels0 gc.wire_labels1 ∧
      encode_input_labels gc gc.input_wires (bits.map bit) = .ok ls ∧
      eval_clear_wires c (bits.map bit) = .ok cv ∧
      eval_garbled_wires blake3 gc ls = .ok gv ∧
      wires_related c.n_wires gc.wire_labels0 gc.wire_labels1 W cv gv ∧
      (∀ w ∈ W, w < c.n_wires) ∧
      (∀ w, w ∈ c.input_wires ∨ w ∈ c.gates.map (fun g => g.out) → w ∈ W) ∧
      ∀ (p : Nat) (g : gc_gate), c.gates[p]? = some g → g.type ≠ GC_GATE_XOR →
        ∃ (gvp : List gc_label) (ka kb : gc_label) (a b : Bool),
          eval_garbled_wires_before blake3 gc ls p = .ok gvp ∧
          gvp[g.in0]? = some ka ∧ gvp[g.in1]? = some kb ∧
          cv[g.in0]? = some (bit a) ∧ cv[g.in1]? = some (bit b) ∧
          gc_permute_bit ka = bit a ∧ gc_permute_bit kb = bit b ∧
          gc_row ka kb = (bit a <<< 1) ||| bit b := by
  obtain ⟨a, b, hab, hlen_a, _, hxor⟩ :=
    garble_xor_pass_wf (gc_init_delta blake3 s).GC_DELTA c.n_wires c.gates c.input_wires
      ((List.range c.n_wires).map fun w => gc_derive_label0 blake3 w)
      ((List.range c.n_wires).map fun w =>
        gc_label_xor (gc_derive_label0 blake3 w) (gc_init_delta blake3 s).GC_DELTA)
      hg hin (by simp) (by simp)
  have hfx := garble_xor_pass_inv _ c.n_wires _ _ _ _ _ hab (free_xor_inv_init blake3 _ _)
  have hp0 := garble_xor_pass_permute0 _ _ _ _ _ _ hab (permute0_inv_init blake3 _)
  have hl : labels_ok (gc_init_delta blake3 s).GC_DELTA c.n_wires a b :=
    ⟨hfx, hp0, by rw [gc_init_delta_reachable blake3 s hs, gc_permute_bit_delta]⟩
  obtain ⟨ggs, htab⟩ :=
    garble_tables_ok blake3 c.n_wires a b hlen_a hfx.2.1 c.gates c.input_wires 0 hg hin
  have hgc : (gc_garble blake3 s c).1 = .ok
      { n_wires := c.n_wires, input_wires := c.input_wires, output_wires := c.output_wires,
        gates := ggs, wire_labels0 := a, wire_labels1 := b } := by
    simp only [gc_garble, hab, bind_ok, htab]
  have hR0 : wires_related c.n_wires a b [] (List.replicate c.n_wires 0)
      (List.replicate c.n_wires gc_label_zero) :=
    ⟨by simp, by simp, fun w hw => by cases hw⟩
  obtain ⟨ls, cv1, gv1, W1, he, hc1, hg1, hR1, hm1⟩ :=
    eval_inputs_sound c.n_wires
      { n_wires := c.n_wires, input_wires := c.input_wires, output_wires := c.output_wires,
        gates := ggs, wire_labels0 := a, wire_labels1 := b }
      hlen_a hfx.2.1 c.input_wires bits [] _ _ hlen hin hR0
  have hW1 : ∀ w ∈ W1, w < c.n_wires := by
    intro w hw
    rcases (hm1 w).mp hw with h | h
    · cases h
    · exact hin w h
  obtain ⟨cv2, gv2, W2, hc2, hg2, hR2, hW2, hsub⟩ :=
    eval_gates_sound blake3 _ c.n_wires a b hl c.gates c.input_wires W1 cv1 gv1 0 ggs hR1 hW1 hg
      (fun w hw => (hm1 w).mpr (Or.inr hw)) hxor htab
  obtain ⟨cv3, hc3, _, hrows⟩ :=
    eval_gates_rows blake3 _ c.n_wires a b hl c.gates c.input_wires W1 cv1 gv1 0 ggs hR1 hW1 hg
      (fun w hw => (hm1 w).mpr (Or.inr hw)) hxor htab
  rw [hc2] at hc3
  cases hc3
  refine ⟨_, ls, cv2, gv2, W2, hgc, rfl, rfl, hl, he, ?_, ?_, hR2, hW2, ?_, ?_⟩
  · simp only [eval_clear_wires, hc1, bind_ok, hc2]
  · simp only [eval_garbled_wires, hg1, bind_ok, hg2]
  · intro w hw
    apply hsub
    rcases hw with h | h
    · left; exact (hm1 w).mpr (Or.inr h)
    · right; exact h
  · intro p g hp hnx
    obtain ⟨gvp, ka, kb, va, vb, h1, h2, h3, h4, h5, h6, h7, h8⟩ := hrows p g hp hnx
    refine ⟨gvp, ka, kb, va, vb, ?_, h2, h3, h4, h5, h6, h7, h8⟩
    simp only [eval_garbled_wires_before, hg1, bind_ok, h1]

theorem outputs_nonempty_sizes (c : gc_circuit)
    (hin : ∀ w ∈ c.input_wires, w < c.n_wires)
    (hg : gates_wf c.n_wires c.gates c.input_wires)
    (hout : ∀ w ∈ c.output_wires, w ∈ c.input_wires ∨ w ∈ c.gates.map (fun g => g.out))
    (hno : c.n_outputs ≠ 0) :
    ¬ (c.n_inputs = 0 ∨ c.n_outputs = 0 ∨ c.n_wires = 0) := by
  have hi : c.input_wires ≠ [] := by
    intro hnil
    have hgs : c.gates = [] := by
      cases hgs : c.gates with
      | nil => rfl
      | cons g rest =>
        rw [hgs, hnil] at hg
        exact absurd hg.2.1 (List.not_mem_nil _)
    cases ho : c.output_wires with
    | nil => exact hno (by simp [gc_circuit.n_outputs, ho])
    | cons w ws =>
      have := hout w (by rw [ho]; exact List.mem_cons_self _ _)
      rw [hnil, hgs] at this
      simp at this
  rintro (h | h | h)
  · exact hi (List.length_eq_zero.mp h)
  · exact hno h
  · cases hi2 : c.input_wires with
    | nil => exact hi hi2
    | cons w ws =>
      have := hin w (by rw [hi2]; exact List.mem_cons_self _ _)
      omega

/-- C29 (soundness at the level of wires): for every keyed hash, every
reachable state of the global offset and every circuit with listed input wires
below `n_wires` whose gates have known types, read on `in0` and `in1` (also the
`in1` of a NOT gate) only listed input wires or outputs of earlier gates and
write a wire below `n_wires` not written before, and whose listed output wires
are listed input wires or gate outputs: `gc_garble` succeeds and, for all input
bits, after the input and gate loops of `gc_eval_garbled` on the encoding
labels every written wire `w` holds `wire_labels0[w]` if the clear evaluator
holds 0 on `w` and `wire_labels1[w]` if it holds 1; `gc_eval_garbled` and
`gc_decode_outputs` then succeed and the decoded bits are the clear values of
the output wires, the outputs of `gc_eval_clear`. -/
theorem wire_level_soundness (blake3 : keyed_hash) (s : gc_globals)
    (hs : gc_globals_reachable blake3 s) (c : gc_circuit)
    (hin : ∀ w ∈ c.input_wires, w < c.n_wires)
    (hg : gates_wf c.n_wires c.gates c.input_wires)
    (hout : ∀ w ∈ c.output_wires, w ∈ c.input_wires ∨ w ∈ c.gates.map (fun g => g.out))
    (bits : List Bool) (hlen : bits.length = c.n_inputs) :
    ∃ gc in_labels cv gv out_labels out_bits,
      (gc_garble blake3 s c).1 = .ok gc ∧
      encode_input_labels gc gc.input_wires (bits.map bit) = .ok in_labels ∧
      eval_clear_wires c (bits.map bit) = .ok cv ∧
      eval_garbled_wires blake3 gc in_labels = .ok gv ∧
      (∀ w, w ∈ c.input_wires ∨ w ∈ c.gates.map (fun g => g.out) →
        ∃ l, gv[w]? = some l ∧
          ((cv[w]? = some 0 ∧ gc.wire_labels0[w]? = some l) ∨
           (cv[w]? = some 1 ∧ gc.wire_labels1[w]? = some l))) ∧
      gc_eval_garbled blake3 gc in_labels = .ok out_labels ∧
      gc_decode_outputs gc out_labels = .ok out_bits ∧
      eval_clear_outputs c.n_wires cv c.output_wires = .ok out_bits ∧
      (c.n_outputs ≠ 0 → gc_eval_clear c (bits.map bit) = .ok out_bits) := by
  obtain ⟨gc, ls, cv, gv, W, hgc, hn, ho, hl, he, hcw, hgw, hR, hW, hsub, _⟩ :=
    garbled_wires_sound blake3 s hs c hin hg bits hlen
  obtain ⟨obits, ols, hc3, hg3, hd3⟩ :=
    eval_outputs_sound _ c.n_wires gc.wire_labels0 gc.wire_labels1 hl W cv gv hR hW
      c.output_wires (fun w hw => hsub w (hout w hw))
  refine ⟨gc, ls, cv, gv, ols, obits, hgc, he, hcw, hgw, ?_, ?_, ?_, hc3, ?_⟩
  · intro w hw
    obtain ⟨v, l, h1, h2, h3⟩ := hR.2.2 w (hsub w hw)
    refine ⟨l, h3, ?_⟩
    cases v
    · left; exact ⟨h1, by simpa using h2⟩
    · right; exact ⟨h1, by simpa using h2⟩
  · rw [gc_eval_garbled_of_wires, hgw, bind_ok, hn, ho, hg3]
  · unfold gc_decode_outputs
    rw [ho]
    exact hd3
  · intro hno
    rw [gc_eval_clear_of_wires c _ (outputs_nonempty_sizes c hin hg hout hno), hcw, bind_ok,
      hc3]

set_option maxRecDepth 100000 in
theorem wire_level_soundness_witness :
    gc_globals_reachable toy_hash gc_globals_startup ∧
    (∀ w ∈ gc_circuit_eq_2bit.input_wires, w < gc_circuit_eq_2bit.n_wires) ∧
    gates_wf gc_circuit_eq_2bit.n_wires gc_circuit_eq_2bit.gates
      gc_circuit_eq_2bit.input_wires ∧
    (∀ w ∈ gc_circuit_eq_2bit.output_wires, w ∈ gc_circuit_eq_2bit.input_wires ∨
      w ∈ gc_circuit_eq_2bit.gates.map (fun g => g.out)) ∧
    [true, false, true, false].length = gc_circuit_eq_2bit.n_inputs ∧
    ∃ gc in_labels cv gv out_labels out_bits,
      (gc_garble toy_hash gc_globals_startup gc_circuit_eq_2bit).1 = .ok gc ∧
      encode_input_labels gc gc.input_wires ([true, false, true, false].map bit)
        = .ok in_labels ∧
      eval_clear_wires gc_circuit_eq_2bit ([true, false, true, false].map bit) = .ok cv ∧
      eval_garbled_wires toy_hash gc in_labels = .ok gv ∧
      (∀ w, w ∈ gc_circuit_eq_2bit.input_wires ∨
          w ∈ gc_circuit_eq_2bit.gates.map (fun g => g.out) →
        ∃ l, gv[w]? = some l ∧
          ((cv[w]? = some 0 ∧ gc.wire_labels0[w]? = some l) ∨
           (cv[w]? = some 1 ∧ gc.wire_labels1[w]? = some l))) ∧
      gc_eval_garbled toy_hash gc in_labels = .ok out_labels ∧
      gc_decode_outputs gc out_labels = .ok out_bits ∧
      eval_clear_outputs gc_circuit_eq_2bit.n_wires cv gc_circuit_eq_2bit.output_wires
        = .ok out_bits ∧
      (gc_circuit_eq_2bit.n_outputs ≠ 0 →
        gc_eval_clear gc_circuit_eq_2bit ([true, false, true, false].map bit) = .ok out_bits) :=
  ⟨gc_globals_reachable.startup, by decide, by decide, by decide, by decide,
    wire_level_soundness toy_hash gc_globals_startup gc_globals_reachable.startup
      gc_circuit_eq_2bit (by decide) (by decide) (by decide) [true, false, true, false]
      (by decide)⟩

/-- C30 (permute bits are the plaintext bits): for a circuit as in C29 (wire
indices in range, single-assignment topological order), every keyed hash, every
reachable state of the global offset and labels encoding the input bits, after
the input and gate loops of `gc_eval_garbled` on `gc_garble(c)` the label held
on every written wire has as permute bit the clear value of that wire, and
when a gate that is not an XOR gate (an AND or NOT gate) is reached, the row
index computed from the labels on its `in0` and `in1` is `(a << 1) | b` with
`a` and `b` the clear values of `in0` and `in1`. -/
theorem permute_bits_are_clear_bits (blake3 : keyed_hash) (s : gc_globals)
    (hs : gc_globals_reachable blake3 s) (c : gc_circuit)
    (hin : ∀ w ∈ c.input_wires, w < c.n_wires)
    (hg : gates_wf c.n_wires c.gates c.input_wires)
    (bits : List Bool) (hlen : bits.length = c.n_inputs) :
    ∃ gc in_labels cv gv,
      (gc_garble blake3 s c).1 = .ok gc ∧
      encode_input_labels gc gc.input_wires (bits.map bit) = .ok in_labels ∧
      eval_clear_wires c (bits.map bit) = .ok cv ∧
      eval_garbled_wires blake3 gc in_labels = .ok gv ∧
      (∀ w, w ∈ c.input_wires ∨ w ∈ c.gates.map (fun g => g.out) →
        ∃ (v : Bool) (l : gc_label), cv[w]? = some (bit v) ∧ gv[w]? = some l ∧
          gc_permute_bit l = bit v) ∧
      ∀ (p : Nat) (g : gc_gate), c.gates[p]? = some g → g.type ≠ GC_GATE_XOR →
        ∃ (gvp : List gc_label) (ka kb : gc_label) (a b : Bool),
          eval_garbled_wires_before blake3 gc in_labels p = .ok gvp ∧
          gvp[g.in0]? = some ka ∧ gvp[g.in1]? = some kb ∧
          cv[g.in0]? = some (bit a) ∧ cv[g.in1]? = some (bit b) ∧
          gc_row ka kb = (bit a <<< 1) ||| bit b := by
  obtain ⟨gc, ls, cv, gv, W, hgc, hn, ho, hl, he, hcw, hgw, hR, hW, hsub, hrows⟩ :=
    garbled_wires_sound blake3 s hs c hin hg bits hlen
  refine ⟨gc, ls, cv, gv, hgc, he, hcw, hgw, ?_, ?_⟩
  · intro w hw
    have hwW := hsub w hw
    obtain ⟨v, l, h1, h2, h3⟩ := hR.2.2 w hwW
    obtain ⟨l0, a0, a1, p0, p1⟩ := labels_ok_lookup _ _ _ _ hl w (hW w hwW)
    have e := sel_label _ _ w v _ _ l a0 a1 h2
    refine ⟨v, l, h1, h3, ?_⟩
    rw [e]
    cases v
    · simpa [bit] using p0
    · simpa [bit] using p1
  · intro p g hp hnx
    obtain ⟨gvp, ka, kb, a, b, h1, h2, h3, h4, h5, _, _, h8⟩ := hrows p g hp hnx
    exact ⟨gvp, ka, kb, a, b, h1, h2, h3, h4, h5, h8⟩

set_option maxRecDepth 100000 in
theorem permute_bits_are_clear_bits_witness :
    gc_globals_reachable toy_hash gc_globals_startup ∧
    (∀ w ∈ gc_circuit_and_2.input_wires, w < gc_circuit_and_2.n_wires) ∧
    gates_wf gc_circuit_and_2.n_wires gc_circuit_and_2.gates gc_circuit_and_2.input_wires ∧
    [true, false].length = gc_circuit_and_2.n_inputs ∧
    ∃ gc in_labels cv gv,
      (gc_garble toy_hash gc_globals_startup gc_circuit_and_2).1 = .ok gc ∧
      encode_input_labels gc gc.input_wires ([true, false].map bit) = .ok in_labels ∧
      eval_clear_wires gc_circuit_and_2 ([true, false].map bit) = .ok cv ∧
      eval_garbled_wires toy_hash gc in_labels = .ok gv ∧
      (∀ w, w ∈ gc_circuit_and_2.input_wires ∨
          w ∈ gc_circuit_and_2.gates.map (fun g => g.out) →
        ∃ (v : Bool) (l : gc_label), cv[w]? = some (bit v) ∧ gv[w]? = some l ∧
          gc_permute_bit l = bit v) ∧
      ∀ (p : Nat) (g : gc_gate), gc_circuit_and_2.gates[p]? = some g →
        g.type ≠ GC_GATE_XOR →
        ∃ (gvp : List gc_label) (ka kb : gc_label) (a b : Bool),
          eval_garbled_wires_before toy_hash gc in_labels p = .ok gvp ∧
          gvp[g.in0]? = some ka ∧ gvp[g.in1]? = some kb ∧
          cv[g.in0]? = some (bit a) ∧ cv[g.in1]? = some (bit b) ∧
          gc_row ka kb = (bit a <<< 1) ||| bit b :=
  ⟨gc_globals_reachable.startup, by decide, by decide, by decide,
    permute_bits_are_clear_bits toy_hash gc_globals_startup gc_globals_reachable.startup
      gc_circuit_and_2 (by decide) (by decide) [true, false] (by decide)⟩

/-! ## Contents of the garbled tables -/

theorem garble_tables_getElem? (blake3 : keyed_hash) (wl0 wl1 : List gc_label)
    (gates : List gc_gate) :
    ∀ (gi : Nat) (ggs : List gc_garbled_gate),
      garble_tables blake3 wl0 wl1 gates gi = .ok ggs →
      ∀ (i : Nat) (pg : gc_gate), gates[i]? = some pg →
        ∃ gg, ggs[i]? = some gg ∧ garble_gate blake3 wl0 wl1 pg (gi + i) = .ok gg := by
  induction gates with
  | nil => intro gi ggs _ i pg hpg; simp at hpg
  | cons g rest ih =>
    intro gi ggs h i pg hpg
    simp only [garble_tables, bind_eq_ok] at h
    obtain ⟨gg, hg, ggs2, hrest, hcons⟩ := h
    simp only [gc_result.ok.injEq] at hcons
    subst hcons
    cases i with
    | zero =>
      rw [List.getElem?_cons_zero] at hpg
      cases hpg
      exact ⟨gg, List.getElem?_cons_zero, hg⟩
    | succ i =>
      rw [List.getElem?_cons_succ] at hpg
      obtain ⟨gg2, h1, h2⟩ := ih _ _ hrest i pg hpg
      refine ⟨gg2, by rw [List.getElem?_cons_succ]; exact h1, ?_⟩
      rw [show gi + (i + 1) = gi + 1 + i by omega]
      exact h2

theorem gate_index_lo (g : Nat) : to_uint8 (to_uint16 g &&& 0xff) = to_uint8 (g % 256) := by
  have h : to_uint16 g &&& 0xff = g % 256 := by
    unfold to_uint16
    rw [show (0xff : Nat) = 2 ^ 8 - 1 by norm_num, Nat.and_pow_two_sub_one_eq_mod]
    omega
  rw [h]

theorem gate_index_hi (g : Nat) :
    to_uint8 ((to_uint16 g >>> 8) &&& 0xff) = to_uint8 (g / 256 % 256) := by
  have h : (to_uint16 g >>> 8) &&& 0xff = g / 256 % 256 := by
    unfold to_uint16
    rw [show (0xff : Nat) = 2 ^ 8 - 1 by norm_num, Nat.and_pow_two_sub_one_eq_mod,
      Nat.shiftRight_eq_div_pow]
    omega
  rw [h]

theorem gc_gate_prf_bytes (blake3 : keyed_hash) (Ka Kb : gc_label) (g : Nat) (row : uint8_t) :
    gc_gate_prf blake3 Ka Kb (to_uint16 g) row
      = blake3 GC_PRF_KEY (Ka.b.toList ++ Kb.b.toList ++
          [to_uint8 (g % 256), to_uint8 (g / 256 % 256), row, 0x3C]) := by
  unfold gc_gate_prf
  rw [gate_index_lo, gate_index_hi]

theorem garble_gate_xor_table (blake3 : keyed_hash) (wl0 wl1 : List gc_label) (pg : gc_gate)
    (gi : Nat) (gg : gc_garbled_gate) (hty : pg.type = GC_GATE_XOR)
    (h : garble_gate blake3 wl0 wl1 pg gi = .ok gg) :
    gg.in0 = pg.in0 ∧ gg.in1 = pg.in1 ∧ gg.out = pg.out ∧ gg.type = pg.type ∧
      gg.table = List.replicate 4 gc_label_zero := by
  unfold garble_gate at h
  rw [if_pos hty] at h
  simp only [gc_result.ok.injEq] at h
  subst h
  exact ⟨rfl, rfl, rfl, rfl, rfl⟩

theorem garble_gate_ok_known_type (blake3 : keyed_hash) (wl0 wl1 : List gc_label)
    (pg : gc_gate) (gi : Nat) (gg : gc_garbled_gate)
    (h : garble_gate blake3 wl0 wl1 pg gi = .ok gg) :
    pg.type = GC_GATE_AND ∨ pg.type = GC_GATE_XOR ∨ pg.type = GC_GATE_NOT := by
  by_cases hx : pg.type = GC_GATE_XOR
  · exact Or.inr (Or.inl hx)
  · unfold garble_gate at h
    simp only [hx, if_false, bind_eq_ok] at h
    obtain ⟨t, ht, _⟩ := h
    unfold garble_row at ht
    simp only [bind_eq_ok, read_at_eq_ok] at ht
    obtain ⟨la, _, la1, _, lb, _, lb1, _, bo, hbo, _⟩ := ht
    unfold garble_bit_out at hbo
    by_cases ha : pg.type = GC_GATE_AND
    · exact Or.inl ha
    · by_cases hn : pg.type = GC_GATE_NOT
      · exact Or.inr (Or.inr hn)
      · simp only [ha, hx, hn, if_false] at hbo
        cases hbo

/-- Contents of the table of gate `g` after a successful `gc_garble`. -/
theorem gc_garble_table_contents_spec (blake3 : keyed_hash) (s : gc_globals)
    (hs : gc_globals_reachable blake3 s) (plain : gc_circuit) (gc : gc_garbled_circuit)
    (h : (gc_garble blake3 s plain).1 = .ok gc) (g : Nat) (pg : gc_gate)
    (hpg : plain.gates[g]? = some pg) :
    ∃ gg, gc.gates[g]? = some gg ∧
      gg.in0 = pg.in0 ∧ gg.in1 = pg.in1 ∧ gg.out = pg.out ∧ gg.type = pg.type ∧
      (pg.type = GC_GATE_AND ∨ pg.type = GC_GATE_XOR ∨ pg.type = GC_GATE_NOT) ∧
      gg.table.length = 4 ∧
      (pg.type = GC_GATE_XOR → gg.table = List.replicate 4 gc_label_zero) ∧
      (pg.type ≠ GC_GATE_XOR →
        ∃ la la1 lb lb1 lo0 lo1,
          gc.wire_labels0[pg.in0]? = some la ∧ gc.wire_labels1[pg.in0]? = some la1 ∧
          gc.wire_labels0[pg.in1]? = some lb ∧ gc.wire_labels1[pg.in1]? = some lb1 ∧
          gc.wire_labels0[pg.out]? = some lo0 ∧ gc.wire_labels1[pg.out]? = some lo1 ∧
          ∀ a b : Bool,
            gc_row (if a then la1 else la) (if b then lb1 else lb) = (bit a <<< 1) ||| bit b ∧
            gg.table[(gc_row (if a then la1 else la) (if b then lb1 else lb)).val]? = some
              (xor_keystream
                (if (if pg.type = GC_GATE_AND then (a && b) else !a) then lo1 else lo0)
                (blake3 GC_PRF_KEY
                  ((if a then la1 else la).b.toList ++ (if b then lb1 else lb).b.toList ++
                    [to_uint8 (g % 256), to_uint8 (g / 256 % 256),
                     gc_row (if a then la1 else la) (if b then lb1 else lb), 0x3C])))) := by
  obtain ⟨ggs, _, htab, hgates, _⟩ := gc_garble_eq_ok blake3 s plain gc h
  obtain ⟨gg, hgg, hgate⟩ := garble_tables_getElem? blake3 _ _ _ _ _ htab g pg hpg
  rw [Nat.zero_add] at hgate
  have hty3 := garble_gate_ok_known_type blake3 _ _ pg g gg hgate
  by_cases hx : pg.type = GC_GATE_XOR
  · obtain ⟨e0, e1, e2, e3, e4⟩ := garble_gate_xor_table blake3 _ _ pg g gg hx hgate
    refine ⟨gg, by rw [hgates]; exact hgg, e0, e1, e2, e3, hty3, by rw [e4]; rfl,
      fun _ => e4, fun hn => absurd hx hn⟩
  · have hty : pg.type = GC_GATE_AND ∨ pg.type = GC_GATE_NOT := by
      rcases hty3 with e | e | e
      · exact Or.inl e
      · exact absurd e hx
      · exact Or.inr e
    obtain ⟨la, la1, lb, lb1, lo0, lo1, h0, h1, h2, h3, h4, h5⟩ :=
      garble_gate_ok_reads blake3 _ _ pg g gg hx hgate
    have hinv := gc_garble_free_xor blake3 s plain gc h
    have hp := gc_garble_permute0 blake3 s plain gc h
    have hdelta : gc_permute_bit (gc_init_delta blake3 s).GC_DELTA = 1 := by
      rw [gc_init_delta_reachable blake3 s hs, gc_permute_bit_delta]
    have ha : gc_permute_bit la = 0 := hp _ _ h0
    have hb : gc_permute_bit lb = 0 := hp _ _ h2
    have ha1 : gc_permute_bit la1 = 1 := by
      have e := hinv.2.2 _ _ h0
      rw [h1] at e; cases e
      rw [gc_permute_bit_xor, ha, hdelta]; rfl
    have hb1 : gc_permute_bit lb1 = 1 := by
      have e := hinv.2.2 _ _ h2
      rw [h3] at e; cases e
      rw [gc_permute_bit_xor, hb, hdelta]; rfl
    have htable := garble_gate_table blake3 _ _ pg g la la1 lb lb1 lo0 lo1 h0 h1 h2 h3 h4 h5
      hty ha ha1 hb hb1
    rw [hgate] at htable
    simp only [gc_result.ok.injEq] at htable
    have et : gg.table =
        [expected_ct blake3 la la1 lb lb1 lo0 lo1 pg.type g false false,
         expected_ct blake3 la la1 lb lb1 lo0 lo1 pg.type g false true,
         expected_ct blake3 la la1 lb lb1 lo0 lo1 pg.type g true false,
         expected_ct blake3 la la1 lb lb1 lo0 lo1 pg.type g true true] := by rw [htable]
    refine ⟨gg, by rw [hgates]; exact hgg, by rw [htable], by rw [htable], by rw [htable],
      by rw [htable], hty3, by rw [et]; rfl, fun e => absurd e hx,
      fun _ => ⟨la, la1, lb, lb1, lo0, lo1, h0, h1, h2, h3, h4, h5, ?_⟩⟩
    intro a b
    have hrow := gc_row_sel la la1 lb lb1 ha ha1 hb hb1 a b
    refine ⟨hrow, ?_⟩
    rw [hrow, et, ← read_at_eq_ok, table_lookup]
    congr 1
    cases a <;> cases b <;>
      simp only [expected_ct, gate_fn, gc_gate_prf_bytes, if_true, if_false,
        Bool.false_eq_true]

/-- C31 (table contents): after a `gc_garble` that returned 0 from a reachable
state, the garbled gate at every index `g` copies `in0`, `in1`, `out` and `type`
of the plain gate, whose type is AND, XOR or NOT, and has a 4-entry table. For an
XOR gate the table is all zero. For an AND or NOT gate and every `(a, b)`, with
`Ka` the label of bit `a` on `in0`, `Kb` the label of bit `b` on `in1` and
`row = (permute_bit(Ka) << 1) | permute_bit(Kb)` (which is `(a << 1) | b`),
`table[row]` is `Kout XOR keystream`, where the keystream is the keyed hash of
`Ka || Kb || (g mod 256) || (g div 256 mod 256) || row || 0x3C` and `Kout` is the
label on `out` of bit `a AND b` for an AND gate and of bit `NOT a` for a NOT
gate. -/
theorem gc_garble_table_contents (blake3 : keyed_hash) (s : gc_globals)
    (hs : gc_globals_reachable blake3 s) (plain : gc_circuit) (gc : gc_garbled_circuit)
    (h : (gc_garble blake3 s plain).1 = .ok gc) (g : Nat) (pg : gc_gate)
    (hpg : plain.gates[g]? = some pg) :
    ∃ gg, gc.gates[g]? = some gg ∧
      gg.in0 = pg.in0 ∧ gg.in1 = pg.in1 ∧ gg.out = pg.out ∧ gg.type = pg.type ∧
      (pg.type = GC_GATE_AND ∨ pg.type = GC_GATE_XOR ∨ pg.type = GC_GATE_NOT) ∧
      gg.table.length = 4 ∧
      (pg.type = GC_GATE_XOR → gg.table = List.replicate 4 gc_label_zero) ∧
      (pg.type ≠ GC_GATE_XOR →
        ∃ la la1 lb lb1 lo0 lo1,
          gc.wire_labels0[pg.in0]? = some la ∧ gc.wire_labels1[pg.in0]? = some la1 ∧
          gc.wire_labels0[pg.in1]? = some lb ∧ gc.wire_labels1[pg.in1]? = some lb1 ∧
          gc.wire_labels0[pg.out]? = some lo0 ∧ gc.wire_labels1[pg.out]? = some lo1 ∧
          ∀ a b : Bool,
            gc_row (if a then la1 else la) (if b then lb1 else lb) = (bit a <<< 1) ||| bit b ∧
            gg.table[(gc_row (if a then la1 else la) (if b then lb1 else lb)).val]? = some
              (xor_keystream
                (if (if pg.type = GC_GATE_AND then (a && b) else !a) then lo1 else lo0)
                (blake3 GC_PRF_KEY
                  ((if a then la1 else la).b.toList ++ (if b then lb1 else lb).b.toList ++
                    [to_uint8 (g % 256), to_uint8 (g / 256 % 256),
                     gc_row (if a then la1 else la) (if b then lb1 else lb), 0x3C])))) :=
  gc_garble_table_contents_spec blake3 s hs plain gc h g pg hpg

set_option maxRecDepth 100000 in
theorem gc_garble_table_contents_witness :
    gc_globals_reachable toy_hash gc_globals_startup ∧
    (gc_garble toy_hash gc_globals_startup gc_circuit_and_2).1 = .ok toy_garbled_and_2 ∧
    gc_circuit_and_2.gates[0]? = some { in0 := 0, in1 := 1, out := 2, type := GC_GATE_AND } ∧
    ∃ gg, toy_garbled_and_2.gates[0]? = some gg ∧
      gg.in0 = 0 ∧ gg.in1 = 1 ∧ gg.out = 2 ∧ gg.type = GC_GATE_AND ∧
      gg.table.length = 4 ∧
      ∃ la la1 lb lb1 lo0 lo1,
        toy_garbled_and_2.wire_labels0[0]? = some la ∧
        toy_garbled_and_2.wire_labels1[0]? = some la1 ∧
        toy_garbled_and_2.wire_labels0[1]? = some lb ∧
        toy_garbled_and_2.wire_labels1[1]? = some lb1 ∧
        toy_garbled_and_2.wire_labels0[2]? = some lo0 ∧
        toy_garbled_and_2.wire_labels1[2]? = some lo1 ∧
        ∀ a b : Bool,
          gc_row (if a then la1 else la) (if b then lb1 else lb) = (bit a <<< 1) ||| bit b ∧
          gg.table[(gc_row (if a then la1 else la) (if b then lb1 else lb)).val]? = some
            (xor_keystream (if (a && b) then lo1 else lo0)
              (toy_hash GC_PRF_KEY
                ((if a then la1 else la).b.toList ++ (if b then lb1 else lb).b.toList ++
                  [0, 0, gc_row (if a then la1 else la) (if b then lb1 else lb), 0x3C]))) := by
  refine ⟨gc_globals_reachable.startup, by decide, by decide, ?_⟩
  obtain ⟨gg, h1, h2, h3, h4, h5, _, h6, _, h7⟩ :=
    gc_garble_table_contents toy_hash gc_globals_startup gc_globals_reachable.startup
      gc_circuit_and_2 toy_garbled_and_2 (by decide) 0
      { in0 := 0, in1 := 1, out := 2, type := GC_GATE_AND } (by decide)
  exact ⟨gg, h1, h2, h3, h4, h5, h6, h7 (by decide)⟩

/-! ## Decoding the labels selected by a bit vector -/

theorem gc_garble_labels_ok (blake3 : keyed_hash) (s : gc_globals)
    (hs : gc_globals_reachable blake3 s) (plain : gc_circuit) (gc : gc_garbled_circuit)
    (h : (gc_garble blake3 s plain).1 = .ok gc) :
    labels_ok (gc_delta_value blake3) gc.n_wires gc.wire_labels0 gc.wire_labels1 := by
  obtain ⟨_, _, _, _, hn, _⟩ := gc_garble_eq_ok blake3 s plain gc h
  have hinv := gc_garble_free_xor blake3 s plain gc h
  rw [gc_init_delta_reachable blake3 s hs, ← hn] at hinv
  exact ⟨hinv, gc_garble_permute0 blake3 s plain gc h, gc_permute_bit_delta blake3⟩

theorem labels_ok_distinct (delta : gc_label) (n : Nat) (wl0 wl1 : List gc_label)
    (hl : labels_ok delta n wl0 wl1) (w : Nat) (hw : w < n) :
    ∃ L0 L1, wl0[w]? = some L0 ∧ wl1[w]? = some L1 ∧ L0 ≠ L1 ∧
      gc_label_equal_ct L0 L0 = true ∧ gc_label_equal_ct L0 L1 = false ∧
      gc_label_equal_ct L1 L0 = false ∧ gc_label_equal_ct L1 L1 = true := by
  obtain ⟨l0, h0, h1, hp0, hp1⟩ := labels_ok_lookup delta n wl0 wl1 hl w hw
  have hne : l0 ≠ gc_label_xor l0 delta := by
    intro e
    rw [← e, hp0] at hp1
    exact absurd hp1 (by decide)
  refine ⟨l0, _, h0, h1, hne, (gc_label_equal_ct_iff _ _).mpr rfl, ?_, ?_,
    (gc_label_equal_ct_iff _ _).mpr rfl⟩
  · rw [Bool.eq_false_iff]
    exact fun e => hne ((gc_label_equal_ct_iff _ _).mp e)
  · rw [Bool.eq_false_iff]
    exact fun e => hne ((gc_label_equal_ct_iff _ _).mp e).symm

theorem decode_selected_labels (delta : gc_label) (n : Nat) (wl0 wl1 : List gc_label)
    (hl : labels_ok delta n wl0 wl1) (ws : List Nat) :
    ∀ (bits : List Bool) (ls : List gc_label), (∀ w ∈ ws, w < n) →
      bits.length = ws.length → ls.length = ws.length →
      (∀ (i w : Nat) (v : Bool), ws[i]? = some w → bits[i]? = some v →
        ls[i]? = (if v then wl1 else wl0)[w]?) →
      decode_outputs_loop wl0 wl1 ws ls = .ok (bits.map bit) := by
  induction ws with
  | nil =>
    intro bits ls _ hb _ _
    have : bits = [] := List.length_eq_zero.mp hb
    subst this
    rfl
  | cons w ws ih =>
    intro bits ls hws hb hlen hsel
    match bits, ls, hb, hlen with
    | v :: bits, l :: ls, hb, hlen =>
      have hw := hws w (List.mem_cons_self _ _)
      obtain ⟨l0, h0, h1, _, _⟩ := labels_ok_lookup delta n wl0 wl1 hl w hw
      have hl0 := hsel 0 w v List.getElem?_cons_zero List.getElem?_cons_zero
      rw [List.getElem?_cons_zero] at hl0
      obtain ⟨L0, L1, hr0, hr1, he0, he1⟩ :=
        decode_label delta n wl0 wl1 hl w hw v l hl0.symm
      have hrest := ih bits ls (fun x hx => hws x (List.mem_cons_of_mem _ hx))
        (by simpa using hb) (by simpa using hlen)
        (fun i w2 v2 e1 e2 => by
          have := hsel (i + 1) w2 v2 (by rw [List.getElem?_cons_succ]; exact e1)
            (by rw [List.getElem?_cons_succ]; exact e2)
          rw [List.getElem?_cons_succ] at this
          exact this)
      simp only [decode_outputs_loop, hr0, hr1, bind_ok, he0, hrest, List.map_cons]
      cases v
      · simp [bit]
      · simp [bit, he1 rfl]

/-- Decoding the labels selected by a bit vector returns that bit vector. -/
theorem gc_decode_round_trip_spec (blake3 : keyed_hash) (s : gc_globals)
    (hs : gc_globals_reachable blake3 s) (plain : gc_circuit) (gc : gc_garbled_circuit)
    (h : (gc_garble blake3 s plain).1 = .ok gc)
    (hout : ∀ w ∈ gc.output_wires, w < gc.n_wires) :
    (∀ w ∈ gc.output_wires, ∃ L0 L1,
      gc.wire_labels0[w]? = some L0 ∧ gc.wire_labels1[w]? = some L1 ∧ L0 ≠ L1 ∧
      gc_label_equal_ct L0 L0 = true ∧ gc_label_equal_ct L0 L1 = false ∧
      gc_label_equal_ct L1 L0 = false ∧ gc_label_equal_ct L1 L1 = true) ∧
    ∀ (bits : List Bool) (ls : List gc_label),
      bits.length = gc.output_wires.length → ls.length = gc.output_wires.length →
      (∀ (i w : Nat) (v : Bool), gc.output_wires[i]? = some w → bits[i]? = some v →
        ls[i]? = (if v then gc.wire_labels1 else gc.wire_labels0)[w]?) →
      gc_decode_outputs gc ls = .ok (bits.map bit) := by
  have hl := gc_garble_labels_ok blake3 s hs plain gc h
  refine ⟨fun w hw => labels_ok_distinct _ _ _ _ hl w (hout w hw), ?_⟩
  intro bits ls hb hlen hsel
  exact decode_selected_labels _ _ _ _ hl gc.output_wires bits ls hout hb hlen hsel

/-- C32 (decode round trip): for a garbled circuit that `gc_garble` produced
from a reachable state, with every listed output wire below `n_wires`: on every
output wire `w` the labels `wire_labels0[w]` and `wire_labels1[w]` exist and
differ, so of the two comparisons of `gc_decode_outputs` exactly one matches
for either of them; and for every bit vector of length `n_outputs`,
`gc_decode_outputs` applied to the labels selected by the bits
(`wire_labels0[w]` for 0, `wire_labels1[w]` for 1) returns 0 and exactly those
bits. -/
theorem gc_decode_round_trip (blake3 : keyed_hash) (s : gc_globals)
    (hs : gc_globals_reachable blake3 s) (plain : gc_circuit) (gc : gc_garbled_circuit)
    (h : (gc_garble blake3 s plain).1 = .ok gc)
    (hout : ∀ w ∈ gc.output_wires, w < gc.n_wires) :
    (∀ w ∈ gc.output_wires, ∃ L0 L1,
      gc.wire_labels0[w]? = some L0 ∧ gc.wire_labels1[w]? = some L1 ∧ L0 ≠ L1 ∧
      gc_label_equal_ct L0 L0 = true ∧ gc_label_equal_ct L0 L1 = false ∧
      gc_label_equal_ct L1 L0 = false ∧ gc_label_equal_ct L1 L1 = true) ∧
    ∀ (bits : List Bool) (ls : List gc_label),
      bits.length = gc.output_wires.length → ls.length = gc.output_wires.length →
      (∀ (i w : Nat) (v : Bool), gc.output_wires[i]? = some w → bits[i]? = some v →
        ls[i]? = (if v then gc.wire_labels1 else gc.wire_labels0)[w]?) →
      gc_decode_outputs gc ls = .ok (bits.map bit) :=
  gc_decode_round_trip_spec blake3 s hs plain gc h hout

set_option maxRecDepth 100000 in
theorem gc_decode_round_trip_witness :
    gc_globals_reachable toy_hash gc_globals_startup ∧
    (gc_garble toy_hash gc_globals_startup gc_circuit_and_2).1 = .ok toy_garbled_and_2 ∧
    (∀ w ∈ toy_garbled_and_2.output_wires, w < toy_garbled_and_2.n_wires) ∧
    (∃ L0 L1, toy_garbled_and_2.wire_labels0[2]? = some L0 ∧
      toy_garbled_and_2.wire_labels1[2]? = some L1 ∧ L0 ≠ L1) ∧
    gc_decode_outputs toy_garbled_and_2 (toy_garbled_and_2.wire_labels1.drop 2) = .ok [1] ∧
    gc_decode_outputs toy_garbled_and_2 (toy_garbled_and_2.wire_labels0.drop 2) = .ok [0] := by
  have hw : toy_garbled_and_2.output_wires = [2] := by decide
  have hl0 : (toy_garbled_and_2.wire_labels0.drop 2).length = 1 := by decide
  have hl1 : (toy_garbled_and_2.wire_labels1.drop 2).length = 1 := by decide
  have hout : ∀ w ∈ toy_garbled_and_2.output_wires, w < toy_garbled_and_2.n_wires := by decide
  obtain ⟨hd, hdec⟩ :=
    gc_decode_round_trip toy_hash gc_globals_startup gc_globals_reachable.startup
      gc_circuit_and_2 toy_garbled_and_2 (by decide) hout
  refine ⟨gc_globals_reachable.startup, by decide, hout, ?_, ?_, ?_⟩
  · obtain ⟨L0, L1, h0, h1, hne, _⟩ := hd 2 (by rw [hw]; exact List.mem_singleton.mpr rfl)
    exact ⟨L0, L1, h0, h1, hne⟩
  · refine hdec [true] _ (by rw [hw]; rfl) (by rw [hw]; exact hl1) ?_
    intro i w v h1 h2
    rw [hw] at h1
    cases i with
    | zero =>
      rw [List.getElem?_cons_zero] at h1 h2
      cases h1; cases h2
      simp only [if_true, List.getElem?_drop]
    | succ i => simp at h1
  · refine hdec [false] _ (by rw [hw]; rfl) (by rw [hw]; exact hl0) ?_
    intro i w v h1 h2
    rw [hw] at h1
    cases i with
    | zero =>
      rw [List.getElem?_cons_zero] at h1 h2
      cases h1; cases h2
      simp only [Bool.false_eq_true, if_false, List.getElem?_drop]
    | succ i => simp at h1

/-! ## Bit serialization of an element pair -/

theorem bit_injective (u v : Bool) (h : bit u = bit v) : u = v := by
  revert h
  cases u <;> cases v <;> decide

theorem elem_bit_eq (mem : List uint8_t) (off t : Nat) (x : uint8_t)
    (h : mem[off + t / 8]? = some x) : elem_bit mem off t = x.val.testBit (t % 8) := by
  simp [elem_bit, List.getD_eq_getElem?_getD, h]

/-- What `fill_bit_inputs` writes into a buffer of `2 * k` entries. -/
theorem fill_bit_inputs_bits (inputs mem_a : List uint8_t) (off_a : Nat)
    (mem_b : List uint8_t) (off_b : Nat) (k : Nat)
    (hlen : inputs.length = 2 * k) (hsz : inputs.length < 2 ^ 64)
    (ha : off_a + (k + 7) / 8 ≤ mem_a.length) (hb : off_b + (k + 7) / 8 ≤ mem_b.length) :
    ∃ L, fill_bit_inputs inputs mem_a off_a mem_b off_b k = .ok L ∧ L.length = 2 * k ∧
      (∀ i, i < k → ∃ xa xb,
        mem_a[off_a + i / 8]? = some xa ∧ mem_b[off_b + i / 8]? = some xb ∧
        L[i]? = some (bit (xa.val.testBit (i % 8))) ∧
        L[k + i]? = some (bit (xb.val.testBit (i % 8)))) ∧
      (∀ nb, k = 8 * nb →
        ((∀ i, i < k → L[i]? = L[k + i]?) ↔
          (mem_a.drop off_a).take nb = (mem_b.drop off_b).take nb)) := by
  unfold fill_bit_inputs
  have hsz2 : to_size_t (k + 7) = k + 7 := Nat.mod_eq_of_lt (by omega)
  simp only [hsz2]
  obtain ⟨L, hL, hlenL, hvals, _⟩ :=
    fill_bit_inputs_loop_spec mem_a off_a mem_b off_b ((k + 7) / 8) k ha hb (by omega) k 0
      inputs (by omega) hlen
  rw [List.range_eq_range', hL]
  refine ⟨L, rfl, hlenL, ?_, ?_⟩
  · intro i hi
    have hia : off_a + i / 8 < mem_a.length := by omega
    have hib : off_b + i / 8 < mem_b.length := by omega
    obtain ⟨v1, v2⟩ := hvals i (by omega) (by omega)
    refine ⟨mem_a[off_a + i / 8], mem_b[off_b + i / 8], List.getElem?_eq_getElem hia,
      List.getElem?_eq_getElem hib, ?_, ?_⟩
    · rw [v1, elem_bit_eq mem_a off_a i _ (List.getElem?_eq_getElem hia)]
    · rw [v2, elem_bit_eq mem_b off_b i _ (List.getElem?_eq_getElem hib)]
  · intro nb hnb
    subst hnb
    have hnb8 : (8 * nb + 7) / 8 = nb := by omega
    rw [hnb8] at ha hb
    rw [← elem_bits_of_eq_iff mem_a mem_b off_a off_b nb ha hb]
    unfold elem_bits_of
    constructor
    · intro h
      apply List.map_congr_left
      intro t ht
      have ht2 := List.mem_range.mp ht
      obtain ⟨v1, v2⟩ := hvals t (by omega) (by omega)
      have e := h t ht2
      rw [v1, v2] at e
      exact bit_injective _ _ (Option.some.inj e)
    · intro h i hi
      obtain ⟨v1, v2⟩ := hvals i (by omega) (by omega)
      rw [v1, v2]
      have := congrArg (fun l => l[i]?) h
      simp only [List.getElem?_map, List.getElem?_range hi, Option.map_some'] at this
      rw [Option.some.inj this]

/-- C33 (bit serialization): `fill_bit_inputs`, given a buffer of `2 * k`
entries (`k = elem_bits`; as an object it has fewer than `2^64` bytes) and two
elements of `(k + 7) / 8` readable bytes, returns with `inputs[i]` equal to bit `i mod 8` of `bytes_a[i div 8]` and
`inputs[k + i]` equal to bit `i mod 8` of `bytes_b[i div 8]` for every `i < k`
(A's bits first, least-significant bit first within each byte); and when
`elem_bits = 8 * nb`, the first `k` inputs equal the last `k` inputs position by
position if and only if the `nb` bytes of `a` and of `b` are equal. -/
theorem fill_bit_inputs_serialization (inputs mem_a : List uint8_t) (off_a : Nat)
    (mem_b : List uint8_t) (off_b : Nat) (k : Nat)
    (hlen : inputs.length = 2 * k) (hsz : inputs.length < 2 ^ 64)
    (ha : off_a + (k + 7) / 8 ≤ mem_a.length) (hb : off_b + (k + 7) / 8 ≤ mem_b.length) :
    ∃ L, fill_bit_inputs inputs mem_a off_a mem_b off_b k = .ok L ∧ L.length = 2 * k ∧
      (∀ i, i < k → ∃ xa xb,
        mem_a[off_a + i / 8]? = some xa ∧ mem_b[off_b + i / 8]? = some xb ∧
        L[i]? = some (bit (xa.val.testBit (i % 8))) ∧
        L[k + i]? = some (bit (xb.val.testBit (i % 8)))) ∧
      (∀ nb, k = 8 * nb →
        ((∀ i, i < k → L[i]? = L[k + i]?) ↔
          (mem_a.drop off_a).take nb = (mem_b.drop off_b).take nb)) :=
  fill_bit_inputs_bits inputs mem_a off_a mem_b off_b k hlen hsz ha hb

theorem fill_bit_inputs_serialization_witness :
    ∃ L, fill_bit_inputs (List.replicate 16 0) [0xA5, 0x12] 0 [0x12, 0xA5] 1 8 = .ok L ∧
      L.length = 2 * 8 ∧
      (∀ i, i < 8 → ∃ xa xb,
        ([0xA5, 0x12] : List uint8_t)[0 + i / 8]? = some xa ∧
        ([0x12, 0xA5] : List uint8_t)[1 + i / 8]? = some xb ∧
        L[i]? = some (bit (xa.val.testBit (i % 8))) ∧
        L[8 + i]? = some (bit (xb.val.testBit (i % 8)))) ∧
      (∀ nb, 8 = 8 * nb →
        ((∀ i, i < 8 → L[i]? = L[8 + i]?) ↔
          (([0xA5, 0x12] : List uint8_t).drop 0).take nb
            = (([0x12, 0xA5] : List uint8_t).drop 1).take nb)) :=
  fill_bit_inputs_serialization (List.replicate 16 0) [0xA5, 0x12] 0 [0x12, 0xA5] 1 8
    (by decide) (by decide) (by decide) (by decide)

/-! ## The garbled PSI path for any element width -/

theorem elem_bits_match_iff (A B : List uint8_t) (eb k i j : Nat) :
    elem_bits_match A B eb k i j = true ↔
      ∀ t, t < k → elem_bit A (i * eb) t = elem_bit B (j * eb) t := by
  unfold elem_bits_match elem_bits_of
  rw [decide_eq_true_eq]
  constructor
  · intro h t ht
    have := congrArg (fun l => l[t]?) h
    simpa [List.getElem?_range ht] using this
  · intro h
    apply List.map_congr_left
    intro t ht
    exact h t (List.mem_range.mp ht)

/-- Every evaluation inside the loops of `psi_gc_compute_with_gc_y` succeeds. -/
theorem psi_gc_pair_ok (blake3 : keyed_hash) (s : gc_globals)
    (hs : gc_globals_reachable blake3 s) (k : Nat) (hk1 : 1 ≤ k) (hk2 : k ≤ 512)
    (gc : gc_garbled_circuit) (hgc : (gc_garble blake3 s (eq_circuit k)).1 = .ok gc)
    (A B : List uint8_t) (count : Nat)
    (hA : count * ((k + 7) / 8) ≤ A.length) (hB : count * ((k + 7) / 8) ≤ B.length)
    (i j : Nat) (hi : i < count) (hj : j < count) :
    ∃ bit_inputs input_labels out_labels,
      fill_bit_inputs (List.replicate (eq_circuit k).n_inputs 0) A (i * ((k + 7) / 8))
        B (j * ((k + 7) / 8)) k = .ok bit_inputs ∧
      encode_input_labels gc gc.input_wires bit_inputs = .ok input_labels ∧
      gc_eval_garbled blake3 gc input_labels = .ok out_labels ∧
      gc_decode_outputs gc out_labels
        = .ok [bit (elem_bits_match A B ((k + 7) / 8) k i j)] := by
  have hiA : i * ((k + 7) / 8) + (k + 7) / 8 ≤ A.length := by
    have := Nat.mul_le_mul_right ((k + 7) / 8) (show i + 1 ≤ count by omega)
    rw [Nat.add_mul, Nat.one_mul] at this
    omega
  have hjB : j * ((k + 7) / 8) + (k + 7) / 8 ≤ B.length := by
    have := Nat.mul_le_mul_right ((k + 7) / 8) (show j + 1 ≤ count by omega)
    rw [Nat.add_mul, Nat.one_mul] at this
    omega
  have hlen : (elem_bits_of A (i * ((k + 7) / 8)) k ++
      elem_bits_of B (j * ((k + 7) / 8)) k).length = (eq_circuit k).n_inputs := by
    simp [elem_bits_of_length, eq_circuit, gc_circuit.n_inputs]; omega
  obtain ⟨gc2, ls, ols, obits, h1, h2, h3, h4, h5⟩ :=
    garbled_path_sound blake3 s hs (eq_circuit k) (eq_circuit_wf k hk1) _ hlen
  rw [hgc] at h1
  cases h1
  rw [eq_circuit_eval_clear k hk1 _ _ (elem_bits_of_length _ _ _)
    (elem_bits_of_length _ _ _)] at h5
  cases h5
  have hn : (eq_circuit k).n_inputs = 2 * k := by
    simp [eq_circuit, gc_circuit.n_inputs]
  refine ⟨_, ls, ols, ?_, h2, h3, h4⟩
  rw [hn]
  exact fill_bit_inputs_spec A _ B _ k hk2 hiA hjB

/-- What the garbled PSI path computes for an element width `1 <= k <= 512`. -/
theorem psi_gc_compute_any_width_spec (blake3 : keyed_hash) (s : gc_globals)
    (hs : gc_globals_reachable blake3 s) (ctx : psi_gc_ctx)
    (hk1 : 1 ≤ ctx.elem_bits) (hk2 : ctx.elem_bits ≤ 512)
    (count : Nat) (hc1 : 1 ≤ count) (hc2 : count ≤ ctx.max_elems)
    (A B : List uint8_t)
    (hA : count * ((ctx.elem_bits + 7) / 8) ≤ A.length)
    (hB : count * ((ctx.elem_bits + 7) / 8) ≤ B.length)
    (mask : List uint8_t) (hm : count ≤ mask.length) :
    ∃ plain gc M,
      build_eq_circuit_bits ctx.elem_bits = some plain ∧
      (gc_garble blake3 s plain).1 = .ok gc ∧
      (∀ i j, i < count → j < count → ∃ bit_inputs input_labels out_labels out_bits,
        fill_bit_inputs (List.replicate plain.n_inputs 0)
          A (i * ((ctx.elem_bits + 7) / 8)) B (j * ((ctx.elem_bits + 7) / 8)) ctx.elem_bits
          = .ok bit_inputs ∧
        encode_input_labels gc gc.input_wires bit_inputs = .ok input_labels ∧
        gc_eval_garbled blake3 gc input_labels = .ok out_labels ∧
        gc_decode_outputs gc out_labels = .ok out_bits) ∧
      (psi_gc_compute blake3 s ctx A B count mask).1 = .ok M ∧
      M.length = mask.length ∧
      (∀ i, i < count →
        ((∃ j, j < count ∧ ∀ t, t < ctx.elem_bits →
            elem_bit A (i * ((ctx.elem_bits + 7) / 8)) t
              = elem_bit B (j * ((ctx.elem_bits + 7) / 8)) t) → M[i]? = some 1) ∧
        ((¬ ∃ j, j < count ∧ ∀ t, t < ctx.elem_bits →
            elem_bit A (i * ((ctx.elem_bits + 7) / 8)) t
              = elem_bit B (j * ((ctx.elem_bits + 7) / 8)) t) → M[i]? = some 0)) ∧
      (∀ i, count ≤ i → M[i]? = mask[i]?) ∧
      (∀ A2 B2 : List uint8_t, A2.length = A.length → B2.length = B.length →
        (∀ i t, i < count → t < ctx.elem_bits →
          elem_bit A2 (i * ((ctx.elem_bits + 7) / 8)) t
            = elem_bit A (i * ((ctx.elem_bits + 7) / 8)) t) →
        (∀ j t, j < count → t < ctx.elem_bits →
          elem_bit B2 (j * ((ctx.elem_bits + 7) / 8)) t
            = elem_bit B (j * ((ctx.elem_bits + 7) / 8)) t) →
        (psi_gc_compute blake3 s ctx A2 B2 count mask).1 = .ok M) := by
  have hwf := eq_circuit_wf ctx.elem_bits hk1
  obtain ⟨gc, _, _, _, hgc, _⟩ :=
    garbled_path_sound blake3 s hs (eq_circuit ctx.elem_bits) hwf
      (List.replicate (2 * ctx.elem_bits) false)
      (by simp [eq_circuit, gc_circuit.n_inputs])
  obtain ⟨M, hM, hlenM, hvals, hframe⟩ :=
    psi_gc_compute_bits blake3 s hs ctx hk1 hk2 count hc1 hc2 A B hA hB mask hm
  refine ⟨eq_circuit ctx.elem_bits, gc, M, build_eq_circuit_bits_eq _ hk1 hk2, hgc, ?_,
    by rw [hM], hlenM, ?_, hframe, ?_⟩
  · intro i j hi hj
    obtain ⟨bi, il, ol, h1, h2, h3, h4⟩ :=
      psi_gc_pair_ok blake3 s hs ctx.elem_bits hk1 hk2 gc hgc A B count hA hB i j hi hj
    exact ⟨bi, il, ol, _, h1, h2, h3, h4⟩
  · intro i hi
    rw [hvals i hi]
    constructor
    · rintro ⟨j, hj, hje⟩
      have : ((List.range count).any fun j =>
          elem_bits_match A B ((ctx.elem_bits + 7) / 8) ctx.elem_bits i j) = true := by
        rw [List.any_eq_true]
        exact ⟨j, List.mem_range.mpr hj, (elem_bits_match_iff _ _ _ _ _ _).mpr hje⟩
      rw [this]; rfl
    · intro hno
      have : ((List.range count).any fun j =>
          elem_bits_match A B ((ctx.elem_bits + 7) / 8) ctx.elem_bits i j) = false := by
        rw [Bool.eq_false_iff]
        intro h
        rw [List.any_eq_true] at h
        obtain ⟨j, hj, hje⟩ := h
        exact hno ⟨j, List.mem_range.mp hj, (elem_bits_match_iff _ _ _ _ _ _).mp hje⟩
      rw [this]; rfl
  · intro A2 B2 hA2 hB2 hbA hbB
    obtain ⟨M2, hM2, hlenM2, hvals2, hframe2⟩ :=
      psi_gc_compute_bits blake3 s hs ctx hk1 hk2 count hc1 hc2 A2 B2 (by rw [hA2]; exact hA)
        (by rw [hB2]; exact hB) mask hm
    rw [hM2]
    show gc_result.ok M2 = gc_result.ok M
    congr 1
    apply List.ext_getElem?
    intro i
    by_cases hi : i < count
    · rw [hvals i hi, hvals2 i hi]
      congr 2
      rw [Bool.eq_iff_iff, List.any_eq_true, List.any_eq_true]
      constructor
      · rintro ⟨j, hj, hje⟩
        refine ⟨j, hj, ?_⟩
        rw [elem_bits_match_iff] at hje ⊢
        intro t ht
        rw [← hbA i t hi ht, ← hbB j t (List.mem_range.mp hj) ht]
        exact hje t ht
      · rintro ⟨j, hj, hje⟩
        refine ⟨j, hj, ?_⟩
        rw [elem_bits_match_iff] at hje ⊢
        intro t ht
        rw [hbA i t hi ht, hbB j t (List.mem_range.mp hj) ht]
        exact hje t ht
    · rw [hframe i (by omega), hframe2 i (by omega)]

/-- C34 (the garbled PSI path for any element width): for every keyed hash,
every reachable state, every `elem_bits` with `1 <= elem_bits <= 512` and every
`count` with `1 <= count <= max_elems` (buffers of `count` elements and a mask of
at least `count` entries): the circuit is built and garbled, for every pair
`(i, j)` the serialization, the label selection, `gc_eval_garbled` and
`gc_decode_outputs` all return 0, and `psi_gc_compute` returns 0 with
`mask[i] = 1` if some `j < count` has bit `t` of `A[i]` equal to bit `t` of `B[j]`
for every `t < elem_bits` (least-significant bit first within each byte) and
`mask[i] = 0` otherwise; entries from `count` on are untouched. Bits at positions
`>= elem_bits` are ignored: buffers that agree with `A` and `B` on the first
`elem_bits` bits of every element give the same mask. -/
theorem psi_gc_compute_any_width (blake3 : keyed_hash) (s : gc_globals)
    (hs : gc_globals_reachable blake3 s) (ctx : psi_gc_ctx)
    (hk1 : 1 ≤ ctx.elem_bits) (hk2 : ctx.elem_bits ≤ 512)
    (count : Nat) (hc1 : 1 ≤ count) (hc2 : count ≤ ctx.max_elems)
    (A B : List uint8_t)
    (hA : count * ((ctx.elem_bits + 7) / 8) ≤ A.length)
    (hB : count * ((ctx.elem_bits + 7) / 8) ≤ B.length)
    (mask : List uint8_t) (hm : count ≤ mask.length) :
    ∃ plain gc M,
      build_eq_circuit_bits ctx.elem_bits = some plain ∧
      (gc_garble blake3 s plain).1 = .ok gc ∧
      (∀ i j, i < count → j < count → ∃ bit_inputs input_labels out_labels out_bits,
        fill_bit_inputs (List.replicate plain.n_inputs 0)
          A (i * ((ctx.elem_bits + 7) / 8)) B (j * ((ctx.elem_bits + 7) / 8)) ctx.elem_bits
          = .ok bit_inputs ∧
        encode_input_labels gc gc.input_wires bit_inputs = .ok input_labels ∧
        gc_eval_garbled blake3 gc input_labels = .ok out_labels ∧
        gc_decode_outputs gc out_labels = .ok out_bits) ∧
      (psi_gc_compute blake3 s ctx A B count mask).1 = .ok M ∧
      M.length = mask.length ∧
      (∀ i, i < count →
        ((∃ j, j < count ∧ ∀ t, t < ctx.elem_bits →
            elem_bit A (i * ((ctx.elem_bits + 7) / 8)) t
              = elem_bit B (j * ((ctx.elem_bits + 7) / 8)) t) → M[i]? = some 1) ∧
        ((¬ ∃ j, j < count ∧ ∀ t, t < ctx.elem_bits →
            elem_bit A (i * ((ctx.elem_bits + 7) / 8)) t
              = elem_bit B (j * ((ctx.elem_bits + 7) / 8)) t) → M[i]? = some 0)) ∧
      (∀ i, count ≤ i → M[i]? = mask[i]?) ∧
      (∀ A2 B2 : List uint8_t, A2.length = A.length → B2.length = B.length →
        (∀ i t, i < count → t < ctx.elem_bits →
          elem_bit A2 (i * ((ctx.elem_bits + 7) / 8)) t
            = elem_bit A (i * ((ctx.elem_bits + 7) / 8)) t) →
        (∀ j t, j < count → t < ctx.elem_bits →
          elem_bit B2 (j * ((ctx.elem_bits + 7) / 8)) t
            = elem_bit B (j * ((ctx.elem_bits + 7) / 8)) t) →
        (psi_gc_compute blake3 s ctx A2 B2 count mask).1 = .ok M) :=
  psi_gc_compute_any_width_spec blake3 s hs ctx hk1 hk2 count hc1 hc2 A B hA hB mask hm

set_option maxRecDepth 100000 in
theorem psi_gc_compute_any_width_witness :
    gc_globals_reachable toy_hash gc_globals_startup ∧
    ∃ M, (psi_gc_compute toy_hash gc_globals_startup { max_elems := 1, elem_bits := 4 }
        [0x35] [0xC5] 1 [0]).1 = .ok M ∧ M[0]? = some 1 := by
  obtain ⟨_, _, M, _, _, _, hM, _, hval, _⟩ :=
    psi_gc_compute_any_width toy_hash gc_globals_startup gc_globals_reachable.startup
      { max_elems := 1, elem_bits := 4 } (by decide) (by decide) 1 (by decide) (by decide)
      [0x35] [0xC5] (by decide) (by decide) [0] (by decide)
  exact ⟨gc_globals_reachable.startup, M, hM, (hval 0 (by decide)).1 ⟨0, by decide, by decide⟩⟩

/-! ## Determinism of the garbler -/

theorem garble_xor_pass_frame (delta : gc_label) (gates : List gc_gate) (w : Nat)
    (hw : ∀ g ∈ gates, g.type = GC_GATE_XOR → g.out ≠ w) :
    ∀ (wl0 wl1 a b : List gc_label),
      garble_xor_pass delta gates wl0 wl1 = .ok (a, b) →
      a[w]? = wl0[w]? ∧ b[w]? = wl1[w]? := by
  induction gates with
  | nil =>
    intro wl0 wl1 a b h
    simp only [garble_xor_pass, gc_result.ok.injEq, Prod.mk.injEq] at h
    obtain ⟨rfl, rfl⟩ := h
    exact ⟨rfl, rfl⟩
  | cons pg rest ih =>
    intro wl0 wl1 a b h
    have hrest : ∀ g ∈ rest, g.type = GC_GATE_XOR → g.out ≠ w :=
      fun g hg => hw g (List.mem_cons_of_mem _ hg)
    unfold garble_xor_pass at h
    split at h
    · exact ih hrest _ _ _ _ h
    · rename_i hx
      have hty : pg.type = GC_GATE_XOR := not_not.mp hx
      have hne := hw pg (List.mem_cons_self _ _) hty
      simp only [bind_eq_ok, read_at_eq_ok, write_at_eq_ok] at h
      obtain ⟨x, _, y, _, wl0n, ⟨_, rfl⟩, wl1n, ⟨_, rfl⟩, h⟩ := h
      obtain ⟨e0, e1⟩ := ih hrest _ _ _ _ h
      rw [e0, e1, getElem?_set_eq_ite, getElem?_set_eq_ite, if_neg (fun c => hne c.1),
        if_neg (fun c => hne c.1)]
      exact ⟨rfl, rfl⟩

theorem gc_garble_of_reachable (blake3 : keyed_hash) (s1 s2 : gc_globals)
    (h1 : gc_globals_reachable blake3 s1) (h2 : gc_globals_reachable blake3 s2)
    (c : gc_circuit) : (gc_garble blake3 s1 c).1 = (gc_garble blake3 s2 c).1 := by
  simp only [gc_garble, gc_init_delta_reachable blake3 s1 h1,
    gc_init_delta_reachable blake3 s2 h2]

theorem gc_garble_plain_label (blake3 : keyed_hash) (s : gc_globals)
    (hs : gc_globals_reachable blake3 s) (c : gc_circuit) (gc : gc_garbled_circuit)
    (h : (gc_garble blake3 s c).1 = .ok gc) (w : Nat) (hw : w < c.n_wires)
    (hx : ∀ g ∈ c.gates, g.type = GC_GATE_XOR → g.out ≠ w) :
    gc.wire_labels0[w]? = some (gc_derive_label0 blake3 w) ∧
    gc.wire_labels1[w]? = some (gc_label_xor (gc_derive_label0 blake3 w)
      (gc_delta_value blake3)) := by
  obtain ⟨_, hpass, _⟩ := gc_garble_eq_ok blake3 s c gc h
  obtain ⟨e0, e1⟩ := garble_xor_pass_frame _ c.gates w hx _ _ _ _ hpass
  rw [e0, e1, gc_init_delta_reachable blake3 s hs]
  simp [List.getElem?_range hw]

/-- Determinism of `gc_garble` and circuit-independence of its labels. -/
theorem gc_garble_deterministic_spec (blake3 : keyed_hash) (s1 s2 : gc_globals)
    (h1 : gc_globals_reachable blake3 s1) (h2 : gc_globals_reachable blake3 s2) :
    (∀ c : gc_circuit, (gc_garble blake3 s1 c).1 = (gc_garble blake3 s2 c).1) ∧
    (∀ c0 c : gc_circuit,
      (gc_garble blake3 (gc_garble blake3 s1 c0).2 c).1 = (gc_garble blake3 s1 c).1) ∧
    (∀ (c1 c2 : gc_circuit) (gc1 gc2 : gc_garbled_circuit) (w : Nat),
      (gc_garble blake3 s1 c1).1 = .ok gc1 → (gc_garble blake3 s2 c2).1 = .ok gc2 →
      w < c1.n_wires → w < c2.n_wires →
      (∀ g ∈ c1.gates, g.type = GC_GATE_XOR → g.out ≠ w) →
      (∀ g ∈ c2.gates, g.type = GC_GATE_XOR → g.out ≠ w) →
      gc1.wire_labels0[w]? = some (gc_derive_label0 blake3 w) ∧
      gc1.wire_labels1[w]? = some (gc_label_xor (gc_derive_label0 blake3 w)
        (gc_delta_value blake3)) ∧
      gc1.wire_labels0[w]? = gc2.wire_labels0[w]? ∧
      gc1.wire_labels1[w]? = gc2.wire_labels1[w]?) := by
  refine ⟨fun c => gc_garble_of_reachable blake3 s1 s2 h1 h2 c, ?_, ?_⟩
  · intro c0 c
    rw [gc_garble_globals]
    exact gc_garble_of_reachable blake3 _ _ (gc_globals_reachable.init_delta s1 h1) h1 c
  · intro c1 c2 gc1 gc2 w hg1 hg2 hw1 hw2 hx1 hx2
    obtain ⟨a0, a1⟩ := gc_garble_plain_label blake3 s1 h1 c1 gc1 hg1 w hw1 hx1
    obtain ⟨b0, b1⟩ := gc_garble_plain_label blake3 s2 h2 c2 gc2 hg2 w hw2 hx2
    exact ⟨a0, a1, by rw [a0, b0], by rw [a1, b1]⟩

/-- C35 (garbling is deterministic and circuit-independent in its labels): for
every keyed hash and any two reachable states of the file-scope variables
(`Delta` initialised or not), `gc_garble` of the same circuit gives the same
outcome, with identical wire labels and tables, also after an earlier garbling of
any other circuit; and for any two circuits garbled from such states and any wire
index `w` below both `n_wires` that is not the output of an XOR gate in either,
`wire_labels0[w]` is the derived label of `w` and `wire_labels1[w]` is that label
XOR the offset, the same in both garbled circuits. -/
theorem gc_garble_deterministic (blake3 : keyed_hash) (s1 s2 : gc_globals)
    (h1 : gc_globals_reachable blake3 s1) (h2 : gc_globals_reachable blake3 s2) :
    (∀ c : gc_circuit, (gc_garble blake3 s1 c).1 = (gc_garble blake3 s2 c).1) ∧
    (∀ c0 c : gc_circuit,
      (gc_garble blake3 (gc_garble blake3 s1 c0).2 c).1 = (gc_garble blake3 s1 c).1) ∧
    (∀ (c1 c2 : gc_circuit) (gc1 gc2 : gc_garbled_circuit) (w : Nat),
      (gc_garble blake3 s1 c1).1 = .ok gc1 → (gc_garble blake3 s2 c2).1 = .ok gc2 →
      w < c1.n_wires → w < c2.n_wires →
      (∀ g ∈ c1.gates, g.type = GC_GATE_XOR → g.out ≠ w) →
      (∀ g ∈ c2.gates, g.type = GC_GATE_XOR → g.out ≠ w) →
      gc1.wire_labels0[w]? = some (gc_derive_label0 blake3 w) ∧
      gc1.wire_labels1[w]? = some (gc_label_xor (gc_derive_label0 blake3 w)
        (gc_delta_value blake3)) ∧
      gc1.wire_labels0[w]? = gc2.wire_labels0[w]? ∧
      gc1.wire_labels1[w]? = gc2.wire_labels1[w]?) :=
  gc_garble_deterministic_spec blake3 s1 s2 h1 h2

set_option maxRecDepth 100000 in
theorem gc_garble_deterministic_witness :
    gc_globals_reachable toy_hash gc_globals_startup ∧
    gc_globals_reachable toy_hash (gc_init_delta toy_hash gc_globals_startup) ∧
    (gc_garble toy_hash gc_globals_startup gc_circuit_and_2).1
      = (gc_garble toy_hash (gc_init_delta toy_hash gc_globals_startup) gc_circuit_and_2).1 ∧
    (gc_garble toy_hash (gc_garble toy_hash gc_globals_startup gc_circuit_xor_2).2
        gc_circuit_and_2).1
      = (gc_garble toy_hash gc_globals_startup gc_circuit_and_2).1 ∧
    toy_garbled_and_2.wire_labels0[1]?
      = (gc_result.get_or gc_garbled_empty
          (gc_garble toy_hash (gc_init_delta toy_hash gc_globals_startup)
            gc_circuit_xor_2).1).wire_labels0[1]? ∧
    toy_garbled_and_2.wire_labels1[1]?
      = (gc_result.get_or gc_garbled_empty
          (gc_garble toy_hash (gc_init_delta toy_hash gc_globals_startup)
            gc_circuit_xor_2).1).wire_labels1[1]? := by
  obtain ⟨hsame, hafter, hlab⟩ :=
    gc_garble_deterministic toy_hash gc_globals_startup
      (gc_init_delta toy_hash gc_globals_startup) gc_globals_reachable.startup
      (gc_globals_reachable.init_delta _ gc_globals_reachable.startup)
  obtain ⟨_, _, e0, e1⟩ := hlab gc_circuit_and_2 gc_circuit_xor_2 toy_garbled_and_2
    (gc_result.get_or gc_garbled_empty
      (gc_garble toy_hash (gc_init_delta toy_hash gc_globals_startup) gc_circuit_xor_2).1)
    1 (by decide) (by decide) (by decide) (by decide) (by decide) (by decide)
  exact ⟨gc_globals_reachable.startup,
    gc_globals_reachable.init_delta _ gc_globals_reachable.startup,
    hsame gc_circuit_and_2, hafter gc_circuit_xor_2 gc_circuit_and_2, e0, e1⟩

/-! ## The three inputs of the keyed hash -/

theorem and_ff_eq_mod (x : Nat) : x &&& 0xff = x % 256 := by
  rw [show (0xff : Nat) = 2 ^ 8 - 1 by norm_num, Nat.and_pow_two_sub_one_eq_mod]

theorem shift8_and_ff_eq (x : Nat) : (x >>> 8) &&& 0xff = x / 256 % 256 := by
  rw [and_ff_eq_mod, Nat.shiftRight_eq_div_pow]

theorem gc_derive_label0_input_bytes (w : Nat) (hw : w < 65536) :
    gc_derive_label0_input w = [to_uint8 (w % 256), to_uint8 (w / 256), 0x00, 0xA5] := by
  unfold gc_derive_label0_input
  rw [and_ff_eq_mod, shift8_and_ff_eq, Nat.mod_eq_of_lt (show w / 256 < 256 by omega)]

theorem gc_gate_prf_buf_bytes (ka kb : gc_label) (g : Nat) (row : uint8_t) (hg : g < 65536) :
    gc_gate_prf_buf ka kb g row
      = ka.b.toList ++ kb.b.toList ++ [to_uint8 (g % 256), to_uint8 (g / 256), row, 0x3C] := by
  unfold gc_gate_prf_buf
  rw [and_ff_eq_mod, shift8_and_ff_eq, Nat.mod_eq_of_lt (show g / 256 < 256 by omega)]

theorem gc_gate_prf_buf_length (ka kb : gc_label) (g : Nat) (row : uint8_t) :
    (gc_gate_prf_buf ka kb g row).length = 36 := by
  simp only [gc_gate_prf_buf, List.length_append, Mathlib.Vector.toList_length,
    List.length_cons, List.length_nil]
  rfl

theorem gc_derive_label0_input_injective (w1 w2 : Nat) (h1 : w1 < 65536) (h2 : w2 < 65536)
    (h : gc_derive_label0_input w1 = gc_derive_label0_input w2) : w1 = w2 := by
  unfold gc_derive_label0_input at h
  rw [and_ff_eq_mod, shift8_and_ff_eq, and_ff_eq_mod, shift8_and_ff_eq] at h
  simp only [List.cons.injEq, and_true] at h
  obtain ⟨e0, e1⟩ := h
  have f0 := congrArg Fin.val e0
  have f1 := congrArg Fin.val e1
  simp only [to_uint8] at f0 f1
  omega

/-- The inputs of the three uses of the keyed hash and their separation. -/
theorem prf_inputs_spec (blake3 : keyed_hash) :
    (gc_init_delta blake3 gc_globals_startup).GC_DELTA
      = ⟨(blake3 GC_PRF_KEY gc_init_delta_input).set 0
          ((blake3 GC_PRF_KEY gc_init_delta_input).get 0 ||| 0x01)⟩ ∧
    gc_init_delta_input = [0x44, 0x45, 0x4C, 0x54] ∧
    (∀ w, w < 65536 →
      gc_derive_label0 blake3 w
        = ⟨(blake3 GC_PRF_KEY (gc_derive_label0_input w)).set 0
            ((blake3 GC_PRF_KEY (gc_derive_label0_input w)).get 0 &&& 0xFE)⟩ ∧
      gc_derive_label0_input w = [to_uint8 (w % 256), to_uint8 (w / 256), 0x00, 0xA5]) ∧
    (∀ (ka kb : gc_label) (g : Nat) (row : uint8_t), g < 65536 →
      gc_gate_prf blake3 ka kb g row = blake3 GC_PRF_KEY (gc_gate_prf_buf ka kb g row) ∧
      gc_gate_prf_buf ka kb g row
        = ka.b.toList ++ kb.b.toList ++ [to_uint8 (g % 256), to_uint8 (g / 256), row, 0x3C] ∧
      (gc_gate_prf_buf ka kb g row).length = 36) ∧
    (∀ w, gc_init_delta_input ≠ gc_derive_label0_input w) ∧
    (∀ (ka kb : gc_label) (g : Nat) (row : uint8_t),
      gc_init_delta_input ≠ gc_gate_prf_buf ka kb g row) ∧
    (∀ (w : Nat) (ka kb : gc_label) (g : Nat) (row : uint8_t),
      gc_derive_label0_input w ≠ gc_gate_prf_buf ka kb g row) ∧
    (∀ w1 w2, w1 < 65536 → w2 < 65536 →
      (gc_derive_label0_input w1 = gc_derive_label0_input w2 ↔ w1 = w2)) := by
  refine ⟨rfl, rfl, fun w hw => ⟨rfl, gc_derive_label0_input_bytes w hw⟩,
    fun ka kb g row hg => ⟨rfl, gc_gate_prf_buf_bytes ka kb g row hg,
      gc_gate_prf_buf_length ka kb g row⟩, ?_, ?_, ?_, ?_⟩
  · intro w h
    have h3 := congrArg (fun l => l[3]?) h
    simp only [gc_init_delta_input, gc_derive_label0_input, List.getElem?_cons_succ,
      List.getElem?_cons_zero, Option.some.injEq] at h3
    exact absurd h3 (by decide)
  · intro ka kb g row h
    have := congrArg List.length h
    rw [gc_gate_prf_buf_length] at this
    revert this
    decide
  · intro w ka kb g row h
    have hl := congrArg List.length h
    rw [gc_gate_prf_buf_length] at hl
    simp only [gc_derive_label0_input, List.length_cons, List.length_nil] at hl
    omega
  · intro w1 w2 h1 h2
    exact ⟨gc_derive_label0_input_injective w1 w2 h1 h2, fun e => by rw [e]⟩

/-- C36 (domain separation of the three keyed-hash inputs): for every keyed
hash, `gc_init_delta` hashes the 4 bytes `0x44 0x45 0x4C 0x54`; `gc_derive_label0`
hashes, for a 16-bit wire index `w`, the 4 bytes
`(w mod 256, w div 256, 0x00, 0xA5)`; `gc_gate_prf` hashes, for a 16-bit gate
index `g`, the 36 bytes `Ka || Kb || (g mod 256) || (g div 256) || row || 0x3C`
(indices little-endian). For all wires, labels, gate indices and rows no input
of one kind equals an input of another kind, and the per-wire input is injective
in the 16-bit wire index. -/
theorem prf_inputs_domain_separation (blake3 : keyed_hash) :
    (gc_init_delta blake3 gc_globals_startup).GC_DELTA
      = ⟨(blake3 GC_PRF_KEY gc_init_delta_input).set 0
          ((blake3 GC_PRF_KEY gc_init_delta_input).get 0 ||| 0x01)⟩ ∧
    gc_init_delta_input = [0x44, 0x45, 0x4C, 0x54] ∧
    (∀ w, w < 65536 →
      gc_derive_label0 blake3 w
        = ⟨(blake3 GC_PRF_KEY (gc_derive_label0_input w)).set 0
            ((blake3 GC_PRF_KEY (gc_derive_label0_input w)).get 0 &&& 0xFE)⟩ ∧
      gc_derive_label0_input w = [to_uint8 (w % 256), to_uint8 (w / 256), 0x00, 0xA5]) ∧
    (∀ (ka kb : gc_label) (g : Nat) (row : uint8_t), g < 65536 →
      gc_gate_prf blake3 ka kb g row = blake3 GC_PRF_KEY (gc_gate_prf_buf ka kb g row) ∧
      gc_gate_prf_buf ka kb g row
        = ka.b.toList ++ kb.b.toList ++ [to_uint8 (g % 256), to_uint8 (g / 256), row, 0x3C] ∧
      (gc_gate_prf_buf ka kb g row).length = 36) ∧
    (∀ w, gc_init_delta_input ≠ gc_derive_label0_input w) ∧
    (∀ (ka kb : gc_label) (g : Nat) (row : uint8_t),
      gc_init_delta_input ≠ gc_gate_prf_buf ka kb g row) ∧
    (∀ (w : Nat) (ka kb : gc_label) (g : Nat) (row : uint8_t),
      gc_derive_label0_input w ≠ gc_gate_prf_buf ka kb g row) ∧
    (∀ w1 w2, w1 < 65536 → w2 < 65536 →
      (gc_derive_label0_input w1 = gc_derive_label0_input w2 ↔ w1 = w2)) :=
  prf_inputs_spec blake3

theorem prf_inputs_domain_separation_witness :
    gc_derive_label0_input 0x1234 = [0x34, 0x12, 0x00, 0xA5] ∧
    gc_gate_prf_buf gc_label_zero gc_label_zero 0x0102 3
      = gc_label_zero.b.toList ++ gc_label_zero.b.toList ++ [0x02, 0x01, 3, 0x3C] ∧
    gc_init_delta_input ≠ gc_derive_label0_input 0x5445 ∧
    (gc_derive_label0_input 0x1234 = gc_derive_label0_input 0x1234 ↔ 0x1234 = 0x1234) ∧
    ¬ (gc_derive_label0_input 0x1234 = gc_derive_label0_input 0x1334) := by
  obtain ⟨_, _, hw, hg, h1, _, _, hinj⟩ := prf_inputs_domain_separation toy_hash
  exact ⟨(hw 0x1234 (by decide)).2, (hg gc_label_zero gc_label_zero 0x0102 3 (by decide)).2.1,
    h1 0x5445, hinj 0x1234 0x1234 (by decide) (by decide),
    fun e => absurd ((hinj 0x1234 0x1334 (by decide) (by decide)).mp e) (by decide)⟩

end WebPsi
